import Mathlib

/-!
# MetaNode: transaction submission and confirmation (GoETHTask)

Shallow embedding of `GoETHTask/task1` (`utils.go`, `transaction.go`, `main.go`),
`GoETHTask/task2` (`utils.go`, `helper.go`, `main.go`), `GoTask/task1` and the use cases of
`GoTask/blog-system` (`internal/usecase`).

Conventions of the embedding.

* A Go `string` is a sequence of bytes: `GoString := List Nat`, one entry per byte, and
  `len(s)` is `List.length`.
* A Go `error` result is an `Option`: `none` is the `nil` error.
* The RPC client (`*ethclient.Client`) is an explicit state machine `Client σ`: every remote
  call takes the network state and returns its answer together with the next state.  Every
  function that talks to the network also returns the list of remote calls it made, in order.
* Functions of the Go standard library and of go-ethereum are not part of the repository.  The
  pure string functions the validators delegate to (`encoding/hex`, `crypto.HexToECDSA`,
  `common.IsHexAddress`) are transcribed in the section "Library models"; the cryptographic and
  floating-point ones are fields of `Lib`.
* The repositories of the blog system are explicit state machines as well: `GetByID` is a query
  on the storage state, the writing methods return the next state.
-/

namespace MetaNode

/-! ## Basic types -/

/-- A Go string, as its sequence of bytes. -/
abbrev GoString := List Nat

/-- An error value produced by a library or by the network (its message). -/
structure GoError where
  msg : String
deriving DecidableEq, Repr

/-- A 20-byte account address, as a number. -/
abbrev Address := Nat

/-- A `float64` value: not-a-number, an infinity, or the finite number `m * 2 ^ e`. -/
inductive F64 where
  | nan : F64
  | inf (neg : Bool) : F64
  | fin (m : Int) (e : Int) : F64
deriving DecidableEq, Repr

/-- The Go comparison `x <= 0` on `float64`: every comparison with NaN is false. -/
def F64.leZero : F64 → Bool
  | .nan => false
  | .inf neg => neg
  | .fin m _ => decide (m ≤ 0)

/-- An `F64` is a finite number strictly greater than zero. -/
def F64.isFinitePos : F64 → Bool
  | .fin m _ => decide (0 < m)
  | _ => false

/-- The `float64` zero. -/
def F64.zero : F64 := .fin 0 0

/-! ## Library models -/

/-- Library model (Go `encoding/hex`, `fromHexChar` / `reverseHexTable`): the value of one
hexadecimal digit, `none` for any other byte. -/
def fromHexChar (c : Nat) : Option Nat :=
  if 48 ≤ c ∧ c ≤ 57 then some (c - 48)
  else if 97 ≤ c ∧ c ≤ 102 then some (c - 97 + 10)
  else if 65 ≤ c ∧ c ≤ 70 then some (c - 65 + 10)
  else none

/-- Library model (Go `encoding/hex`, `DecodeString`): pairs of hexadecimal digits to bytes;
fails on the first byte that is not a hexadecimal digit (`InvalidByteError`) and on odd length
(`ErrLength`). -/
def hexDecodeString : GoString → Except GoError (List Nat)
  | [] => .ok []
  | [p] =>
    match fromHexChar p with
    | none => .error ⟨"encoding/hex: invalid byte"⟩
    | some _ => .error ⟨"encoding/hex: odd length hex string"⟩
  | p :: q :: rest =>
    match fromHexChar p, fromHexChar q with
    | none, _ => .error ⟨"encoding/hex: invalid byte"⟩
    | some _, none => .error ⟨"encoding/hex: invalid byte"⟩
    | some a, some b =>
      match hexDecodeString rest with
      | .error e => .error e
      | .ok bs => .ok ((a * 16 + b) :: bs)

/-- Library model (`math/big`, `Int.SetBytes`): big-endian bytes to a number. -/
def setBytes (bs : List Nat) : Nat := bs.foldl (fun acc b => acc * 256 + b) 0

/-- The order of the group of the curve secp256k1. -/
def secp256k1N : Nat :=
  0xFFFFFFFFFFFFFFFFFFFFFFFFFFFFFFFEBAAEDCE6AF48A03BBFD25E8CD0364141

/-- Library model (go-ethereum `crypto.ToECDSA`, strict): exactly 256 bits, and the scalar `d`
satisfies `0 < d < N`.  The result is the scalar. -/
def ToECDSA (d : List Nat) : Except GoError Nat :=
  if 8 * d.length ≠ 256 then .error ⟨"invalid length, need 256 bits"⟩
  else if secp256k1N ≤ setBytes d then .error ⟨"invalid private key, >= N"⟩
  else if setBytes d = 0 then .error ⟨"invalid private key, zero or negative"⟩
  else .ok (setBytes d)

/-- Library model (go-ethereum `crypto.HexToECDSA`): hex-decode, then `ToECDSA`. -/
def HexToECDSA (hexkey : GoString) : Except GoError Nat :=
  match hexDecodeString hexkey with
  | .error _ => .error ⟨"invalid hex data for private key"⟩
  | .ok b => ToECDSA b

/-- Library model (go-ethereum `common`, `isHexCharacter`). -/
def isHexCharacter (c : Nat) : Bool :=
  (decide (48 ≤ c) && decide (c ≤ 57)) || (decide (97 ≤ c) && decide (c ≤ 102))
    || (decide (65 ≤ c) && decide (c ≤ 70))

/-- Library model (go-ethereum `common`, `isHex`): even length, only hexadecimal digits. -/
def isHex (str : GoString) : Bool :=
  if str.length % 2 ≠ 0 then false else str.all isHexCharacter

/-- Library model (go-ethereum `common`, `has0xPrefix`): starts with `0x` or `0X`. -/
def has0xPrefix : GoString → Bool
  | c0 :: c1 :: _ => decide (c0 = 48) && (decide (c1 = 120) || decide (c1 = 88))
  | _ => false

/-- Library model (go-ethereum `common.IsHexAddress`): drop a leading `0x`/`0X` when there is
one, then require 40 hexadecimal digits. -/
def IsHexAddress (s : GoString) : Bool :=
  let s := if has0xPrefix s then s.drop 2 else s
  decide (s.length = 2 * 20) && isHex s

/-- ASCII lower-casing of one byte: `c += 'a' - 'A'` for `'A' <= c <= 'Z'`. -/
def toLowerByte (c : Nat) : Nat := if 65 ≤ c ∧ c ≤ 90 then c + 32 else c

/-- Library model (Go `strconv`, `commonPrefixLenIgnoreCase`): the number of leading bytes of
`s` that match the lower-case pattern `pat`, ignoring ASCII case. -/
def commonPrefixLenIgnoreCase : GoString → GoString → Nat
  | c :: s, p :: pat => if toLowerByte c = p then 1 + commonPrefixLenIgnoreCase s pat else 0
  | _, _ => 0

/-- The bytes of `infinity`. -/
def infinityBytes : GoString := [105, 110, 102, 105, 110, 105, 116, 121]

/-- The bytes of `nan`. -/
def nanBytes : GoString := [110, 97, 110]

/-- Library model (Go `strconv`, `special`): the special spellings `inf`, `infinity` (with an
optional sign) and `nan`, ignoring case, at the start of `s`; the result is the value and the
number of bytes consumed. -/
def special (s : GoString) : Option (F64 × Nat) :=
  match s with
  | [] => none
  | c :: rest =>
    if c = 43 ∨ c = 45 then
      let n := commonPrefixLenIgnoreCase rest infinityBytes
      let n := if 3 < n ∧ n < 8 then 3 else n
      if n = 3 ∨ n = 8 then some (.inf (decide (c = 45)), 1 + n) else none
    else if c = 105 ∨ c = 73 then
      let n := commonPrefixLenIgnoreCase s infinityBytes
      let n := if 3 < n ∧ n < 8 then 3 else n
      if n = 3 ∨ n = 8 then some (.inf false, n) else none
    else if c = 110 ∨ c = 78 then
      if commonPrefixLenIgnoreCase s nanBytes = 3 then some (.nan, 3) else none
    else none

/-- Library model (Go `strconv.ParseFloat(·, 64)`): a special spelling that spans the whole
string gives its value without error, one followed by more bytes is a syntax error, and every
other string is handed to the number parser `parseNumber` (kept abstract). -/
def ParseFloat (parseNumber : GoString → F64 × Option GoError) (s : GoString) :
    F64 × Option GoError :=
  match special s with
  | some (val, n) =>
    if n ≠ s.length then (F64.zero, some ⟨"strconv.ParseFloat: invalid syntax"⟩)
    else (val, none)
  | none => parseNumber s

/-! ## `utils.go` (task1 and task2) -/

/-- Errors built by the repository code with `fmt.Errorf`; the comment gives the message. -/
inductive Err where
  /-- 私钥长度必须为64个字符（不包含0x前缀） -/
  | keyLength : Err
  /-- 私钥格式无效: %v -/
  | keyFormat (cause : GoError) : Err
  /-- 无效的以太坊地址格式 / 无效的合约地址格式 -/
  | badAddress : Err
  /-- 无效的金额: %v -/
  | badAmount (cause : GoError) : Err
  /-- 转账金额必须大于0 -/
  | amountNotPositive : Err
  /-- 解析私钥失败: %v -/
  | parseKey (cause : GoError) : Err
  /-- 转换公钥为ECDSA格式失败 -/
  | publicKeyCast : Err
  /-- 获取nonce失败: %v -/
  | nonceQuery (cause : GoError) : Err
  /-- 获取gas价格失败: %v -/
  | gasPriceQuery (cause : GoError) : Err
  /-- 获取链ID失败: %v -/
  | chainIDQuery (cause : GoError) : Err
  /-- 签署交易失败: %v -/
  | signFailed (cause : GoError) : Err
  /-- 发送交易失败: %v -/
  | sendFailed (cause : GoError) : Err
  /-- 等待交易确认超时: %v -/
  | waitTimeout (cause : GoError) : Err
  /-- 交易执行失败 -/
  | executionFailed : Err
  /-- 创建交易授权失败: %v -/
  | transactorFailed (cause : GoError) : Err
deriving DecidableEq, Repr

/-- The function `validatePrivateKey` of `task1/utils.go` and `task2/utils.go`. -/
def validatePrivateKey (privateKeyHex : GoString) : Option Err :=
  if privateKeyHex.length ≠ 64 then some .keyLength
  else
    match HexToECDSA privateKeyHex with
    | .error err => some (.keyFormat err)
    | .ok _ => none

/-- The function `validateAddress` of `task1/utils.go`. -/
def validateAddress (address : GoString) : Option Err :=
  if !IsHexAddress address then some .badAddress else none

/-- The function `validateContractAddress` of `task2/utils.go`. -/
def validateContractAddress (address : GoString) : Option Err :=
  if !IsHexAddress address then some .badAddress else none

/-- The function `parseAmount` of `task1/utils.go`, over the library function
`strconv.ParseFloat(·, 64)`, which returns a value and an error. -/
def parseAmount (parseFloat : GoString → F64 × Option GoError) (amountStr : GoString) :
    F64 × Option Err :=
  match parseFloat amountStr with
  | (_, some err) => (F64.zero, some (.badAmount err))
  | (amount, none) =>
    if amount.leZero then (F64.zero, some .amountNotPositive)
    else (amount, none)

/-! ## The environment: library functions and the RPC client -/

/-- A legacy transaction, as built by `types.NewTransaction`. -/
structure Transaction where
  nonce : Nat
  toAddr : Address
  amount : Int
  gasLimit : Nat
  gasPrice : Int
  data : List Nat
deriving DecidableEq, Repr

/-- The signature values `(v, r, s)` of a signed transaction. -/
structure Signature where
  v : Nat
  r : Nat
  s : Nat
deriving DecidableEq, Repr

/-- A signed transaction: the transaction with its signature values
(`Transaction.WithSignature`). -/
structure SignedTx where
  tx : Transaction
  sig : Signature
deriving DecidableEq, Repr

/-- A transaction receipt; `status` is the field `Status` (`uint64`). -/
structure Receipt where
  status : Nat
  blockNumber : Nat
deriving DecidableEq, Repr

/-- The library functions the code calls that are kept abstract.

* `parseNumber` is `strconv.ParseFloat(·, 64)` on the strings that do not start with a special
  spelling (see `ParseFloat`).
* `Public` is `privateKey.Public()` followed by the type assertion to `*ecdsa.PublicKey`
  (`none` when the assertion fails).
* `PubkeyToAddress` is `crypto.PubkeyToAddress`, `HexToAddress` is `common.HexToAddress`
  (it has no error result).
* `ethToWei x` is the number left in `amount` by
  `amount.SetString(fmt.Sprintf("%.0f", x*1e18), 10)`.
* `Sign tx chainID prv` is the signature computed inside `types.SignTx` with
  `types.NewEIP155Signer(chainID)`.
* `Sender` recovers the sender of a signed transaction. -/
structure Lib where
  parseNumber : GoString → F64 × Option GoError
  Public : Nat → Option (Nat × Nat)
  PubkeyToAddress : Nat × Nat → Address
  HexToAddress : GoString → Address
  ethToWei : F64 → Int
  Sign : Transaction → Int → Nat → Except GoError Signature
  Sender : SignedTx → Address

/-- Library model (go-ethereum `types.SignTx`): sign, then attach the signature to a copy of
the transaction. -/
def SignTx (L : Lib) (tx : Transaction) (chainID : Int) (prv : Nat) : Except GoError SignedTx :=
  match L.Sign tx chainID prv with
  | .error e => .error e
  | .ok sig => .ok ⟨tx, sig⟩

/-- The RPC client over network states `σ`: each remote call returns its answer and the next
network state. -/
structure Client (σ : Type) where
  PendingNonceAt : σ → Address → Except GoError Nat × σ
  SuggestGasPrice : σ → Except GoError Int × σ
  NetworkID : σ → Except GoError Int × σ
  SendTransaction : σ → SignedTx → Option GoError × σ
  TransactionReceipt : σ → SignedTx → Except GoError Receipt × σ

/-- A remote call, with whether it succeeded. -/
inductive NetCall where
  | pendingNonceAt (account : Address) (ok : Bool) : NetCall
  | suggestGasPrice (ok : Bool) : NetCall
  | networkID (ok : Bool) : NetCall
  | sendTransaction (tx : SignedTx) (ok : Bool) : NetCall
  | transactionReceipt (tx : SignedTx) (ok : Bool) : NetCall
deriving DecidableEq, Repr

/-- The remote call is a broadcast. -/
def NetCall.isBroadcast : NetCall → Bool
  | .sendTransaction _ _ => true
  | _ => false

/-- The remote call succeeded. -/
def NetCall.succeeded : NetCall → Bool
  | .pendingNonceAt _ ok => ok
  | .suggestGasPrice ok => ok
  | .networkID ok => ok
  | .sendTransaction _ ok => ok
  | .transactionReceipt _ ok => ok

/-- The kind of a remote call, whatever its arguments and outcome. -/
def NetCall.kind : NetCall → Nat
  | .pendingNonceAt _ _ => 0
  | .suggestGasPrice _ => 1
  | .networkID _ => 2
  | .sendTransaction _ _ => 3
  | .transactionReceipt _ _ => 4

/-- The result of a function that talks to the network: the returned error, the network state
it leaves, and the remote calls it made, in order. -/
structure Run (σ : Type) where
  err : Option Err
  state : σ
  calls : List NetCall

/-! ## `task1/transaction.go` -/

/-- The function `SendTransaction` of `task1/transaction.go`.  Console output is left out. -/
def SendTransaction {σ : Type} (L : Lib) (client : Client σ) (s0 : σ)
    (privateKeyHex toAddressHex : GoString) (amountEth : F64) : Run σ :=
  match HexToECDSA privateKeyHex with
  | .error err => ⟨some (.parseKey err), s0, []⟩
  | .ok privateKey =>
    match L.Public privateKey with
    | none => ⟨some .publicKeyCast, s0, []⟩
    | some publicKeyECDSA =>
      let fromAddress := L.PubkeyToAddress publicKeyECDSA
      let toAddress := L.HexToAddress toAddressHex
      match client.PendingNonceAt s0 fromAddress with
      | (.error err, s1) => ⟨some (.nonceQuery err), s1, [.pendingNonceAt fromAddress false]⟩
      | (.ok nonce, s1) =>
        let gasLimit := 21000
        match client.SuggestGasPrice s1 with
        | (.error err, s2) =>
          ⟨some (.gasPriceQuery err), s2,
            [.pendingNonceAt fromAddress true, .suggestGasPrice false]⟩
        | (.ok gasPrice, s2) =>
          let amount := L.ethToWei amountEth
          let tx : Transaction := ⟨nonce, toAddress, amount, gasLimit, gasPrice, []⟩
          match client.NetworkID s2 with
          | (.error err, s3) =>
            ⟨some (.chainIDQuery err), s3,
              [.pendingNonceAt fromAddress true, .suggestGasPrice true, .networkID false]⟩
          | (.ok chainID, s3) =>
            match SignTx L tx chainID privateKey with
            | .error err =>
              ⟨some (.signFailed err), s3,
                [.pendingNonceAt fromAddress true, .suggestGasPrice true, .networkID true]⟩
            | .ok signedTx =>
              match client.SendTransaction s3 signedTx with
              | (some err, s4) =>
                ⟨some (.sendFailed err), s4,
                  [.pendingNonceAt fromAddress true, .suggestGasPrice true, .networkID true,
                    .sendTransaction signedTx false]⟩
              | (none, s4) =>
                ⟨none, s4,
                  [.pendingNonceAt fromAddress true, .suggestGasPrice true, .networkID true,
                    .sendTransaction signedTx true]⟩

/-- The transactions a list of remote calls broadcast, in order. -/
def broadcasts : List NetCall → List SignedTx
  | [] => []
  | .sendTransaction tx _ :: rest => tx :: broadcasts rest
  | _ :: rest => broadcasts rest

/-! ## `task1/main.go` -/

/-- The function `confirmAction` of `utils.go`, on the trimmed line the user typed: the
lower-cased answer is `y` or `yes` (`strings.ToLower` is taken byte-wise on ASCII letters; no
other character lower-cases to a letter of `yes`). -/
def confirmAction (confirm : GoString) : Bool :=
  let confirm := confirm.map toLowerByte
  decide (confirm = [121]) || decide (confirm = [121, 101, 115])

/-- The four lines `handleTransactionSend` reads (each already trimmed by `readUserInput`). -/
structure Inputs where
  privateKey : GoString
  toAddress : GoString
  amountStr : GoString
  confirm : GoString

/-- The function `handleTransactionSend` of `task1/main.go`.  The result is `none` when the
handler returns without calling `SendTransaction`, and the run of `SendTransaction` when it
calls it. -/
def handleTransactionSend {σ : Type} (L : Lib) (client : Client σ) (s0 : σ) (inp : Inputs) :
    Option (Run σ) :=
  match validatePrivateKey inp.privateKey with
  | some _ => none
  | none =>
    match validateAddress inp.toAddress with
    | some _ => none
    | none =>
      match parseAmount (ParseFloat L.parseNumber) inp.amountStr with
      | (_, some _) => none
      | (amount, none) =>
        if !confirmAction inp.confirm then none
        else some (SendTransaction L client s0 inp.privateKey inp.toAddress amount)

/-- The remote calls made by a run of `handleTransactionSend`. -/
def handlerCalls {σ : Type} : Option (Run σ) → List NetCall
  | none => []
  | some r => r.calls

/-! ## `task2/helper.go` -/

/-- The result of `bind.WaitMined`: receipt or error, the network state it leaves, and the
remote calls it made. -/
structure WaitRun (σ : Type) where
  res : Except GoError Receipt
  state : σ
  calls : List NetCall

/-- Library model (go-ethereum `bind.WaitMined`): poll `TransactionReceipt` until it answers
without error; `polls` is the number of further polls that fit before the context is done, and
when it is used up the context error is returned. -/
def WaitMined {σ : Type} (client : Client σ) : Nat → σ → SignedTx → WaitRun σ
  | 0, s, tx =>
    match client.TransactionReceipt s tx with
    | (.ok receipt, s1) => ⟨.ok receipt, s1, [.transactionReceipt tx true]⟩
    | (.error _, s1) =>
      ⟨.error ⟨"context deadline exceeded"⟩, s1, [.transactionReceipt tx false]⟩
  | polls + 1, s, tx =>
    match client.TransactionReceipt s tx with
    | (.ok receipt, s1) => ⟨.ok receipt, s1, [.transactionReceipt tx true]⟩
    | (.error _, s1) =>
      let w := WaitMined client polls s1 tx
      ⟨w.res, w.state, .transactionReceipt tx false :: w.calls⟩

/-- The lines `waitForTransaction` prints itself (the progress dots of its goroutine are left
out). -/
inductive Msg where
  /-- 等待交易确认中 -/
  | waiting : Msg
  /-- the line break printed when the wait has ended -/
  | newline : Msg
  /-- ✅ 交易确认成功! -/
  | confirmed : Msg
  /-- ❌ 交易执行失败! -/
  | failed : Msg
deriving DecidableEq, Repr

/-- The result of `waitForTransaction`: the returned error, the lines printed, the network
state, the remote calls made during the wait and the remote calls made after it. -/
structure WaitOutcome (σ : Type) where
  err : Option Err
  out : List Msg
  state : σ
  waitCalls : List NetCall
  laterCalls : List NetCall

/-- The function `waitForTransaction` of `task2/helper.go`, over the wait `bind.WaitMined`
(run under the 5-minute context). -/
def waitForTransaction {σ : Type} (waitMined : σ → SignedTx → WaitRun σ) (s0 : σ)
    (tx : SignedTx) : WaitOutcome σ :=
  let w := waitMined s0 tx
  match w.res with
  | .error err => ⟨some (.waitTimeout err), [.waiting, .newline], w.state, w.calls, []⟩
  | .ok receipt =>
    if receipt.status = 1 then
      ⟨none, [.waiting, .newline, .confirmed], w.state, w.calls, []⟩
    else
      ⟨some .executionFailed, [.waiting, .newline, .failed], w.state, w.calls, []⟩

/-! ## Sequences of submissions and the counting network -/

/-- The sender address `SendTransaction` derives from a private key, when the key parses. -/
def senderOf (L : Lib) (privateKeyHex : GoString) : Option Address :=
  match HexToECDSA privateKeyHex with
  | .error _ => none
  | .ok privateKey =>
    match L.Public privateKey with
    | none => none
    | some publicKeyECDSA => some (L.PubkeyToAddress publicKeyECDSA)

/-- Calls of `SendTransaction` from one private key, issued one after another: each call starts
in the network state the previous one left. -/
def sendMany {σ : Type} (L : Lib) (client : Client σ) :
    σ → GoString → List (GoString × F64) → List (Run σ)
  | _, _, [] => []
  | s, key, (toAddressHex, amountEth) :: rest =>
    let r := SendTransaction L client s key toAddressHex amountEth
    r :: sendMany L client r.state key rest

/-- The nonces of the transactions a run broadcast. -/
def noncesUsed {σ : Type} (r : Run σ) : List Nat := (broadcasts r.calls).map (·.tx.nonce)

/-- The network model of the nonce invariant.  The state is the pending transaction count of
every account.  Every query succeeds and leaves the state unchanged; a broadcast is accepted or
rejected as `accept` decides, and an accepted broadcast raises the pending count of the sender
of the transaction by one. -/
def countingClient (L : Lib) (accept : (Address → Nat) → SignedTx → Bool)
    (gasPrice chainID : Int) : Client (Address → Nat) where
  PendingNonceAt s account := (.ok (s account), s)
  SuggestGasPrice s := (.ok gasPrice, s)
  NetworkID s := (.ok chainID, s)
  SendTransaction s tx :=
    if accept s tx then (none, Function.update s (L.Sender tx) (s (L.Sender tx) + 1))
    else (some ⟨"rejected"⟩, s)
  TransactionReceipt s _ := (.error ⟨"not found"⟩, s)

/-- Signatures are sound for `L`: the sender recovered from a transaction signed with a private
key is the address of that key. -/
def SignSound (L : Lib) : Prop :=
  ∀ (prv : Nat) (pub : Nat × Nat) (tx : Transaction) (chainID : Int) (sig : Signature),
    L.Public prv = some pub → L.Sign tx chainID prv = .ok sig →
      L.Sender ⟨tx, sig⟩ = L.PubkeyToAddress pub

/-! ## Statements of the specification -/

/-- A byte is a hexadecimal digit: `0`-`9`, `a`-`f` or `A`-`F`. -/
def isHexDigit (c : Nat) : Prop :=
  (48 ≤ c ∧ c ≤ 57) ∨ (97 ≤ c ∧ c ≤ 102) ∨ (65 ≤ c ∧ c ≤ 70)

instance (c : Nat) : Decidable (isHexDigit c) := by unfold isHexDigit; infer_instance

/-- The value of a hexadecimal digit. -/
def hexDigitValue (c : Nat) : Nat :=
  if c ≤ 57 then c - 48 else if 97 ≤ c then c - 87 else c - 55

/-- The scalar a string of hexadecimal digits denotes, most significant digit first. -/
def hexScalar (s : GoString) : Nat := s.foldl (fun acc c => acc * 16 + hexDigitValue c) 0

/-- A well-formed private key as the specification words it: hexadecimal digits that decode to
a scalar `d` with `0 < d < N`. -/
def WellFormedKey (s : GoString) : Prop :=
  (∀ c ∈ s, isHexDigit c) ∧ 0 < hexScalar s ∧ hexScalar s < secp256k1N

/-- An address as the specification words it: the two bytes `0x` followed by exactly 40
hexadecimal digits. -/
def PrefixedAddress (a : GoString) : Prop :=
  ∃ ds : GoString, a = 48 :: 120 :: ds ∧ ds.length = 40 ∧ ∀ c ∈ ds, isHexDigit c

/-- An address as `common.IsHexAddress` accepts it: exactly 40 hexadecimal digits, bare or
after `0x` or `0X`. -/
def HexAddress (a : GoString) : Prop :=
  ∃ ds : GoString, (a = ds ∨ a = 48 :: 120 :: ds ∨ a = 48 :: 88 :: ds) ∧
    ds.length = 40 ∧ ∀ c ∈ ds, isHexDigit c

/-! ## Concrete inputs -/

/-- The private key `00…01` (64 hexadecimal digits). -/
def keyOne : GoString := List.replicate 63 48 ++ [49]

/-- The address `0xAA…AA`. -/
def addrAA : GoString := 48 :: 120 :: List.replicate 40 65

/-- Forty digits `a` without the `0x` in front. -/
def bareAddress : GoString := List.replicate 40 97

/-- The `float64` nearest to `0.01`. -/
def centEth : F64 := .fin 5764607523034235 (-59)

/-- A stand-in for the abstract library functions, used to instantiate the theorems at concrete
inputs: the public key of `d` is `(d, 0)`, its address is `d` reduced to 160 bits, a signature
records the chain id, the key and the nonce, and `0.01` is the only number parsed. -/
def demoLib : Lib where
  parseNumber s :=
    if s = [48, 46, 48, 49] then (centEth, none)
    else (F64.zero, some ⟨"strconv.ParseFloat: invalid syntax"⟩)
  Public d := some (d, 0)
  PubkeyToAddress p := p.1 % 2 ^ 160
  HexToAddress s := setBytes ((hexDecodeString (s.drop 2)).toOption.getD []) % 2 ^ 160
  ethToWei x :=
    match x with
    | .fin m e => if 0 ≤ e then m * 2 ^ e.toNat * 10 ^ 18 else m * 10 ^ 18 / 2 ^ (-e).toNat
    | _ => 0
  Sign tx chainID prv := .ok ⟨chainID.toNat, prv, tx.nonce⟩
  Sender tx := tx.sig.r % 2 ^ 160

/-- A network in which account `1` has pending count `5`, every other account `0`, and every
broadcast is accepted. -/
def demoNet : Client (Address → Nat) := countingClient demoLib (fun _ _ => true) 1000000000 11155111

/-- The pending counts of `demoNet` at the start. -/
def demoPending : Address → Nat := fun a => if a = 1 then 5 else 0

/-- A network whose receipt query never finds the transaction. -/
def silentNet : Client Unit where
  PendingNonceAt s _ := (.ok 0, s)
  SuggestGasPrice s := (.ok 1, s)
  NetworkID s := (.ok 1, s)
  SendTransaction s _ := (none, s)
  TransactionReceipt s _ := (.error ⟨"not found"⟩, s)

/-- A wait that yields the given receipt at the first poll. -/
def minedWith (receipt : Receipt) : Unit → SignedTx → WaitRun Unit :=
  fun s tx => ⟨.ok receipt, s, [.transactionReceipt tx true]⟩

/-- A signed transaction to wait for. -/
def demoTx : SignedTx := ⟨⟨5, 1, 10000000000000000, 21000, 1000000000, []⟩, ⟨11155111, 1, 5⟩⟩

/-- A network whose fee query fails; every other call succeeds. -/
def noFeeNet : Client Unit where
  PendingNonceAt s _ := (.ok 5, s)
  SuggestGasPrice s := (.error ⟨"connection refused"⟩, s)
  NetworkID s := (.ok 1, s)
  SendTransaction s _ := (none, s)
  TransactionReceipt s _ := (.error ⟨"not found"⟩, s)

/-! ## `task2/helper.go` and `task2/main.go`: contract handlers -/

/-- The transaction options `bind.TransactOpts` as `createTransactor` fills them; `signerKey`
and `chainID` stand for the signing function bound to the key and the chain id. -/
structure TransactOpts where
  fromAddr : Address
  signerKey : Nat
  chainID : Int
  nonce : Int
  value : Int
  gasLimit : Nat
  gasPrice : Int
deriving DecidableEq, Repr

/-- The chain id constant `SEPOLIA_CHAIN_ID` of `task2/main.go` and `task2/config.go`. -/
def SEPOLIA_CHAIN_ID : Int := 11155111

/-- The constant `DEFAULT_DEPLOY_GAS_LIMIT` of `task2/config.go`. -/
def DEFAULT_DEPLOY_GAS_LIMIT : Nat := 3000000

/-- The constant `DEFAULT_TX_GAS_LIMIT` of `task2/config.go`. -/
def DEFAULT_TX_GAS_LIMIT : Nat := 300000

/-- The Go conversion `int64(n)` of a `uint64`. -/
def toInt64 (n : Nat) : Int :=
  if n % 2 ^ 64 < 2 ^ 63 then (n % 2 ^ 64 : Nat) else (n % 2 ^ 64 : Nat) - 2 ^ 64

/-- The functions of the contract binding library (go-ethereum `bind`) and of the generated
binding, kept abstract.

* `NewKeyedTransactorWithChainID key chainID` gives the sender address of the key, or an error.
* `Transact s opts method params` is `contract.Transact(opts, method, params...)`, which the
  generated methods `Increment`, `Decrement`, `IncrementBy` and `Reset` call: it returns the
  submitted transaction or the error of the submission (for instance a rejection for
  insufficient balance).
* `DeployCounter s opts` is the generated `DeployCounter`: contract address and deployment
  transaction, or an error.
* `GetCount s` is the read-only call `GetCount(nil)`.
* `WaitMined` is the wait `bind.WaitMined` under the 5-minute context. -/
structure Bind (σ : Type) where
  NewKeyedTransactorWithChainID : Nat → Int → Except GoError Address
  Transact : σ → TransactOpts → GoString → List (Option Int) → Except GoError SignedTx × σ
  DeployCounter : σ → TransactOpts → Except GoError (Address × SignedTx) × σ
  GetCount : σ → Except GoError Int × σ
  WaitMined : σ → SignedTx → WaitRun σ

/-- The result of `createTransactor`: the options or the error, the network state and the
remote calls made. -/
structure TransactorRun (σ : Type) where
  res : Except Err TransactOpts
  state : σ
  calls : List NetCall

/-- The function `createTransactor` of `task2/helper.go`. -/
def createTransactor {σ : Type} (L : Lib) (B : Bind σ) (client : Client σ) (s0 : σ)
    (privateKeyHex : GoString) : TransactorRun σ :=
  match HexToECDSA privateKeyHex with
  | .error err => ⟨.error (.parseKey err), s0, []⟩
  | .ok privateKey =>
    match L.Public privateKey with
    | none => ⟨.error .publicKeyCast, s0, []⟩
    | some publicKeyECDSA =>
      let fromAddress := L.PubkeyToAddress publicKeyECDSA
      match client.PendingNonceAt s0 fromAddress with
      | (.error err, s1) => ⟨.error (.nonceQuery err), s1, [.pendingNonceAt fromAddress false]⟩
      | (.ok nonce, s1) =>
        match client.SuggestGasPrice s1 with
        | (.error err, s2) =>
          ⟨.error (.gasPriceQuery err), s2,
            [.pendingNonceAt fromAddress true, .suggestGasPrice false]⟩
        | (.ok gasPrice, s2) =>
          let chainID := SEPOLIA_CHAIN_ID
          match B.NewKeyedTransactorWithChainID privateKey chainID with
          | .error err =>
            ⟨.error (.transactorFailed err), s2,
              [.pendingNonceAt fromAddress true, .suggestGasPrice true]⟩
          | .ok keyAddr =>
            ⟨.ok ⟨keyAddr, privateKey, chainID, toInt64 nonce, 0, DEFAULT_TX_GAS_LIMIT, gasPrice⟩,
              s2, [.pendingNonceAt fromAddress true, .suggestGasPrice true]⟩

/-- The record of one run of a contract handler: the network state it leaves, the outcome of the
submission step when the handler reached it (`none` when it returned before), the run of
`waitForTransaction` when the handler started it, and whether the count was read afterwards. -/
structure ContractRun (σ : Type) where
  state : σ
  submission : Option (Except GoError SignedTx)
  wait : Option (WaitOutcome σ)
  countRead : Bool

/-- The method name `increment`. -/
def mIncrement : GoString := [105, 110, 99, 114, 101, 109, 101, 110, 116]

/-- The method name `decrement`. -/
def mDecrement : GoString := [100, 101, 99, 114, 101, 109, 101, 110, 116]

/-- The method name `incrementBy`. -/
def mIncrementBy : GoString := [105, 110, 99, 114, 101, 109, 101, 110, 116, 66, 121]

/-- The method name `reset`. -/
def mReset : GoString := [114, 101, 115, 101, 116]

/-- The `switch method` of `handleContractMethod`: the generated method that is called, each
one being `contract.Transact(opts, name, params...)`; `none` is the `default` branch. -/
def contractCall {σ : Type} (B : Bind σ) (s : σ) (auth : TransactOpts) (method : GoString)
    (value : Option Int) : Option (Except GoError SignedTx × σ) :=
  if method = mIncrement then some (B.Transact s auth mIncrement [])
  else if method = mDecrement then some (B.Transact s auth mDecrement [])
  else if method = mIncrementBy then some (B.Transact s auth mIncrementBy [value])
  else if method = mReset then some (B.Transact s auth mReset [])
  else none

/-- The function `handleContractMethod` of `task2/main.go`, on the trimmed private key typed by
the user.  Console output is left out. -/
def handleContractMethod {σ : Type} (L : Lib) (B : Bind σ) (client : Client σ) (s0 : σ)
    (privateKeyHex : GoString) (method : GoString) (value : Option Int) : ContractRun σ :=
  match validatePrivateKey privateKeyHex with
  | some _ => ⟨s0, none, none, false⟩
  | none =>
    let t := createTransactor L B client s0 privateKeyHex
    match t.res with
    | .error _ => ⟨t.state, none, none, false⟩
    | .ok auth =>
      match contractCall B t.state auth method value with
      | none => ⟨t.state, none, none, false⟩
      | some (.error err, s1) => ⟨s1, some (.error err), none, false⟩
      | some (.ok tx, s1) =>
        let w := waitForTransaction B.WaitMined s1 tx
        match w.err with
        | some _ => ⟨w.state, some (.ok tx), some w, false⟩
        | none => ⟨(B.GetCount w.state).2, some (.ok tx), some w, true⟩

/-- The function `handleContractDeployment` of `task2/main.go`, on the trimmed private key typed
by the user.  Console output is left out. -/
def handleContractDeployment {σ : Type} (L : Lib) (B : Bind σ) (client : Client σ) (s0 : σ)
    (privateKeyHex : GoString) : ContractRun σ :=
  match validatePrivateKey privateKeyHex with
  | some _ => ⟨s0, none, none, false⟩
  | none =>
    let t := createTransactor L B client s0 privateKeyHex
    match t.res with
    | .error _ => ⟨t.state, none, none, false⟩
    | .ok auth0 =>
      let auth := { auth0 with gasLimit := DEFAULT_DEPLOY_GAS_LIMIT }
      match B.DeployCounter t.state auth with
      | (.error err, s1) => ⟨s1, some (.error err), none, false⟩
      | (.ok (_, tx), s1) =>
        let w := waitForTransaction B.WaitMined s1 tx
        match w.err with
        | some _ => ⟨w.state, some (.ok tx), some w, false⟩
        | none => ⟨(B.GetCount w.state).2, some (.ok tx), some w, true⟩

/-- A binding whose submissions are all rejected for insufficient balance. -/
def brokeBind : Bind (Address → Nat) where
  NewKeyedTransactorWithChainID key _ := .ok (key % 2 ^ 160)
  Transact s _ _ _ := (.error ⟨"insufficient funds for gas * price + value"⟩, s)
  DeployCounter s _ := (.error ⟨"insufficient funds for gas * price + value"⟩, s)
  GetCount s := (.ok 0, s)
  WaitMined s tx := ⟨.ok ⟨1, 7⟩, s, [.transactionReceipt tx true]⟩

/-- A binding whose submissions are accepted and mined with status 1. -/
def goodBind : Bind (Address → Nat) where
  NewKeyedTransactorWithChainID key _ := .ok (key % 2 ^ 160)
  Transact s opts _ _ :=
    (.ok ⟨⟨opts.nonce.toNat, 1, opts.value, opts.gasLimit, opts.gasPrice, [1]⟩,
      ⟨0, opts.signerKey, 0⟩⟩, s)
  DeployCounter s opts :=
    (.ok (2, ⟨⟨opts.nonce.toNat, 0, opts.value, opts.gasLimit, opts.gasPrice, [2]⟩,
      ⟨0, opts.signerKey, 0⟩⟩), s)
  GetCount s := (.ok 0, s)
  WaitMined s tx := ⟨.ok ⟨1, 7⟩, s, [.transactionReceipt tx true]⟩

/-! ## `float64` arithmetic of the amount conversion -/

/-- The natural number nearest to `a / 2 ^ k`, ties to even. -/
def shiftRoundEven (a k : Nat) : Nat :=
  let q := a / 2 ^ k
  let r := a % 2 ^ k
  if 2 ^ k < 2 * r ∨ (2 * r = 2 ^ k ∧ q % 2 = 1) then q + 1 else q

/-- The least `j` from `k` on with `a < 2 ^ j`, tried for `fuel` values of `j`; after that
the answer is computed with the binary logarithm. -/
def bitLenFrom : Nat → Nat → Nat → Nat
  | 0, _, a => Nat.log2 a + 1
  | fuel + 1, k, a => if a < 2 ^ k then k else bitLenFrom fuel (k + 1) a

/-- The number of binary digits of `a` (0 for 0): the least `j` with `a < 2 ^ j`. -/
def bitLen (a : Nat) : Nat := bitLenFrom 2200 0 a

/-- The `float64` nearest to the number `m * 2 ^ e` (IEEE 754 round to nearest, ties to even):
at most 53 significant bits, exponent of the last bit at least `-1074`, and an infinity when
the rounded magnitude `q * 2 ^ e1` reaches `2 ^ 1024`, that is when `q` has more than
`1024 - e1` binary digits. -/
def roundF64 (m e : Int) : F64 :=
  let a := m.natAbs
  if a = 0 then .fin 0 0
  else
    let bits : Int := (bitLen a : Nat)
    let k : Int := max (bits - 53) (-1074 - e)
    let q : Nat := if k ≤ 0 then a else shiftRoundEven a k.toNat
    let e1 : Int := if k ≤ 0 then e else e + k
    if 1024 < (bitLen q : Int) + e1 then .inf (decide (m < 0))
    else .fin (if m < 0 then -(q : Int) else (q : Int)) e1

/-- The Go product `x * y` of two `float64` values. -/
def F64.mul : F64 → F64 → F64
  | .nan, _ => .nan
  | _, .nan => .nan
  | .inf s, .inf t => .inf (s != t)
  | .inf s, .fin m _ => if m = 0 then .nan else .inf (s != decide (m < 0))
  | .fin m _, .inf s => if m = 0 then .nan else .inf (s != decide (m < 0))
  | .fin m1 e1, .fin m2 e2 => roundF64 (m1 * m2) (e1 + e2)

/-- The integer that `fmt.Sprintf("%.0f", x)` prints for a finite `x`: the integer nearest to
`x`, ties to even. -/
def roundToInt (m e : Int) : Int :=
  if 0 ≤ e then m * 2 ^ e.toNat
  else if m < 0 then -(shiftRoundEven m.natAbs (-e).toNat : Int)
  else (shiftRoundEven m.natAbs (-e).toNat : Int)

/-- The `float64` constant `1e18`. -/
def f1e18 : F64 := .fin (10 ^ 18) 0

/-- The conversion of `SendTransaction`:
`amount.SetString(fmt.Sprintf("%.0f", amountEth*1e18), 10)` on a fresh `big.Int`.  For NaN and
the infinities the printed text is not a number, `SetString` fails and the amount is taken to
keep its initial value 0. -/
def ethToWeiGo (amountEth : F64) : Int :=
  match amountEth.mul f1e18 with
  | .fin m e => roundToInt m e
  | _ => 0

/-- The number a finite `float64` denotes (0 for NaN and the infinities). -/
def F64.toRat : F64 → ℚ
  | .fin m e => (m : ℚ) * (2 : ℚ) ^ e
  | _ => 0

/-- The `float64` nearest to `1.1`. -/
def onePointOne : F64 := .fin 4953959590107546 (-52)

/-- The stand-in library with the conversion of the amount as Go computes it. -/
def goLib : Lib := { demoLib with ethToWei := ethToWeiGo }

/-! ## The EIP-155 signer -/

/-- Library model (go-ethereum `EIP155Signer.SignatureValues`): `V` is the recovery id plus 27,
and for a non-zero chain id the recovery id plus 35 plus twice the chain id (the recovery id is
a byte). -/
def eip155V (chainID : Int) (recid : Nat) : Int :=
  if chainID ≠ 0 then (((recid + 35) % 256 : Nat) : Int) + 2 * chainID
  else (((recid + 27) % 256 : Nat) : Int)

/-- Library model (go-ethereum `isProtectedV`): a `V` of at most 8 bits is protected unless it
is 27, 28, 1 or 0; a longer one is protected. -/
def isProtectedV (v : Int) : Bool :=
  if v.natAbs < 256 then
    decide (v.natAbs ≠ 27 ∧ v.natAbs ≠ 28 ∧ v.natAbs ≠ 1 ∧ v.natAbs ≠ 0)
  else true

/-- Library model (go-ethereum `deriveChainId`): for a `V` of at most 64 bits, 0 when it is 27
or 28 and otherwise `(V - 35) / 2` in `uint64`; for a longer one `(V - 35)` shifted right. -/
def deriveChainId (v : Int) : Int :=
  if v.natAbs < 2 ^ 64 then
    if v.natAbs = 27 ∨ v.natAbs = 28 then 0
    else (((v.natAbs + 2 ^ 64 - 35) % 2 ^ 64 / 2 : Nat) : Int)
  else (v - 35) / 2

/-- The first part of `SendTransaction`, up to and including the signature: the error run when
a step fails, otherwise the signed transaction, the sender address and the network state after
the three queries. -/
def prepareTransaction {σ : Type} (L : Lib) (client : Client σ) (s0 : σ)
    (privateKeyHex toAddressHex : GoString) (amountEth : F64) :
    Except (Run σ) (SignedTx × Address × σ) :=
  match HexToECDSA privateKeyHex with
  | .error err => .error ⟨some (.parseKey err), s0, []⟩
  | .ok privateKey =>
    match L.Public privateKey with
    | none => .error ⟨some .publicKeyCast, s0, []⟩
    | some publicKeyECDSA =>
      let fromAddress := L.PubkeyToAddress publicKeyECDSA
      let toAddress := L.HexToAddress toAddressHex
      match client.PendingNonceAt s0 fromAddress with
      | (.error err, s1) =>
        .error ⟨some (.nonceQuery err), s1, [.pendingNonceAt fromAddress false]⟩
      | (.ok nonce, s1) =>
        match client.SuggestGasPrice s1 with
        | (.error err, s2) =>
          .error ⟨some (.gasPriceQuery err), s2,
            [.pendingNonceAt fromAddress true, .suggestGasPrice false]⟩
        | (.ok gasPrice, s2) =>
          let tx : Transaction :=
            ⟨nonce, toAddress, L.ethToWei amountEth, 21000, gasPrice, []⟩
          match client.NetworkID s2 with
          | (.error err, s3) =>
            .error ⟨some (.chainIDQuery err), s3,
              [.pendingNonceAt fromAddress true, .suggestGasPrice true, .networkID false]⟩
          | (.ok chainID, s3) =>
            match SignTx L tx chainID privateKey with
            | .error err =>
              .error ⟨some (.signFailed err), s3,
                [.pendingNonceAt fromAddress true, .suggestGasPrice true, .networkID true]⟩
            | .ok signedTx => .ok (signedTx, fromAddress, s3)

/-- The last part of `SendTransaction`: the broadcast of the signed transaction, in the network
state `s`. -/
def submitPrepared {σ : Type} (client : Client σ) (signedTx : SignedTx) (fromAddress : Address)
    (s : σ) : Run σ :=
  match client.SendTransaction s signedTx with
  | (some err, s4) =>
    ⟨some (.sendFailed err), s4,
      [.pendingNonceAt fromAddress true, .suggestGasPrice true, .networkID true,
        .sendTransaction signedTx false]⟩
  | (none, s4) =>
    ⟨none, s4,
      [.pendingNonceAt fromAddress true, .suggestGasPrice true, .networkID true,
        .sendTransaction signedTx true]⟩

/-- Two calls of `SendTransaction` from one key run one after the other: the second starts in
the state the first left. -/
def sequentialPair {σ : Type} (L : Lib) (client : Client σ) (s0 : σ) (key : GoString)
    (to1 : GoString) (amt1 : F64) (to2 : GoString) (amt2 : F64) : Run σ × Run σ :=
  let r1 := SendTransaction L client s0 key to1 amt1
  (r1, SendTransaction L client r1.state key to2 amt2)

/-- Two calls of `SendTransaction` from one key in the interleaving in which both callers have
read the nonce and signed before either broadcasts: first part of the first call, first part of
the second call, broadcast of the first, broadcast of the second.  The result is `none` when a
first part fails. -/
def interleavedPair {σ : Type} (L : Lib) (client : Client σ) (s0 : σ) (key : GoString)
    (to1 : GoString) (amt1 : F64) (to2 : GoString) (amt2 : F64) : Option (Run σ × Run σ) :=
  match prepareTransaction L client s0 key to1 amt1 with
  | .error _ => none
  | .ok (tx1, from1, s1) =>
    match prepareTransaction L client s1 key to2 amt2 with
    | .error _ => none
    | .ok (tx2, from2, s2) =>
      let r1 := submitPrepared client tx1 from1 s2
      some (r1, submitPrepared client tx2 from2 r1.state)

/-- A binding for the counting network: the transactor has the address of the key. -/
def countingBind (L : Lib) : Bind (Address → Nat) where
  NewKeyedTransactorWithChainID key _ :=
    match L.Public key with
    | some pub => .ok (L.PubkeyToAddress pub)
    | none => .error ⟨"no public key"⟩
  Transact s _ _ _ := (.error ⟨"not connected"⟩, s)
  DeployCounter s _ := (.error ⟨"not connected"⟩, s)
  GetCount s := (.ok 0, s)
  WaitMined s _ := ⟨.error ⟨"context deadline exceeded"⟩, s, []⟩

/-! ## `GoTask/task1/is_valid_bracket.go` -/

/-- The map `pair` of `IsValidBracket`, read with `pair[c]`: the opening bracket of a closing
bracket, and 0 (the zero value) for every other byte. -/
def pair (c : Nat) : Nat :=
  if c = 41 then 40 else if c = 93 then 91 else if c = 125 then 123 else 0

/-- The loop of `IsValidBracket` over the remaining bytes, with the stack slice (top at the
end); at the end of the input the result is `len(stack) == 0`. -/
def bracketLoop : List Nat → List Nat → Bool
  | [], stack => decide (stack.length = 0)
  | c :: rest, stack =>
    if pair c > 0 then
      if stack.length = 0 ∨ stack.getLast? ≠ some (pair c) then false
      else bracketLoop rest stack.dropLast
    else bracketLoop rest (stack ++ [c])

/-- The function `IsValidBracket` of `GoTask/task1/is_valid_bracket.go`. -/
def IsValidBracket (s : GoString) : Bool :=
  if s.length % 2 = 1 then false else bracketLoop s []

/-- The byte `o` is an opening bracket and `c` the closing bracket of the same type. -/
def IsPair (o c : Nat) : Prop := (o = 40 ∧ c = 41) ∨ (o = 91 ∧ c = 93) ∨ (o = 123 ∧ c = 125)

/-- The byte is one of the six brackets `( ) [ ] { }`. -/
def IsBracket (c : Nat) : Prop := c = 40 ∨ c = 41 ∨ c = 91 ∨ c = 93 ∨ c = 123 ∨ c = 125

/-- Well-nested bracket strings: the empty string, and an opening bracket, a well-nested
string, the closing bracket of the same type, and a well-nested string. -/
inductive WellNested : List Nat → Prop where
  | nil : WellNested []
  | wrap (o c : Nat) (s t : List Nat) : IsPair o c → WellNested s → WellNested t →
      WellNested (o :: s ++ c :: t)

/-- The string closes the brackets of a stack (top first) in order: a well-nested string when
the stack is empty, and otherwise a well-nested string, the closing bracket of the top, and a
string that closes the rest of the stack. -/
def ClosesStack : List Nat → List Nat → Prop
  | [], w => WellNested w
  | o :: st, w => ∃ u c rest, w = u ++ c :: rest ∧ WellNested u ∧ IsPair o c ∧ ClosesStack st rest

/-! ## `GoTask/task1/two_sum.go` -/

/-- The value of an `int` expression whose exact result is `x`: 64-bit two's complement
wrap-around. -/
def wrap64 (x : Int) : Int := (x + 9223372036854775808) % 18446744073709551616 - 9223372036854775808

/-- The number is a value of the Go type `int` (64 bits). -/
def InInt64 (x : Int) : Prop := -9223372036854775808 ≤ x ∧ x < 9223372036854775808

/-- The loop of `TwoSum` over the remaining elements, with the index `i` of the next element
and the map `hastable` as an association list (the newest entry of a key first, so that
`lookup` reads the value last stored). -/
def twoSumLoop (target : Int) : List Int → Nat → List (Int × Nat) → List Nat
  | [], _, _ => []
  | num :: rest, i, hastable =>
    match hastable.lookup (wrap64 (target - num)) with
    | some j => [j, i]
    | none => twoSumLoop target rest (i + 1) ((num, i) :: hastable)

/-- The function `TwoSum` of `GoTask/task1/two_sum.go`; the result is the list of indices. -/
def TwoSum (nums : List Int) (target : Int) : List Nat := twoSumLoop target nums 0 []

/-- The map holds the elements seen so far: every entry is the index of an element with that
value, and every element seen has an entry. -/
def TableOf (seen : List Int) (hastable : List (Int × Nat)) : Prop :=
  (∀ (k : Int) (v : Nat), hastable.lookup k = some v → seen[v]? = some k) ∧
  (∀ (v : Nat) (k : Int), seen[v]? = some k → (hastable.lookup k).isSome = true)

/-! ## `GoTask/task1/is_palindrome.go` -/

/-- The loop of `IsPalindrome` on the pair `(x, revertedNumber)`, both non-negative when the
loop is entered; the result is the pair at the exit of the loop. -/
def palindromeLoop (x revertedNumber : Nat) : Nat × Nat :=
  if x > revertedNumber then palindromeLoop (x / 10) (revertedNumber * 10 + x % 10)
  else (x, revertedNumber)
termination_by x
decreasing_by exact Nat.div_lt_self (by omega) (by decide)

/-- The function `IsPalindrome` of `GoTask/task1/is_palindrome.go`; `tmod` is the remainder of
Go (truncated division). -/
def IsPalindrome (x : Int) : Bool :=
  if x < 0 ∨ (x.tmod 10 = 0 ∧ x ≠ 0) then false
  else
    let p := palindromeLoop x.toNat 0
    p.1 == p.2 || p.1 == p.2 / 10

/-- The decimal digit sequence of a natural number reads the same in both directions. -/
def DigitsPalindrome (n : Nat) : Prop := (Nat.digits 10 n).reverse = Nat.digits 10 n

/-! ## `GoTask/task1/merge_range.go` -/

/-- An interval `[start, end]`: the two elements of the inner slice. -/
abbrev Interval := Int × Int

/-- The element `intervals[i]` of a slice of intervals. -/
def intervalAt (a : List Interval) (i : Nat) : Interval := a.getD i (0, 0)

/-- The exchange `intervals[i], intervals[j] = intervals[j], intervals[i]`. -/
def swapAt (a : List Interval) (i j : Nat) : List Interval :=
  (a.set i (intervalAt a j)).set j (intervalAt a i)

/-- The body of the inner sorting loop of `MergeIntervals` for the indices `i` and `j`. -/
def sortStep (i : Nat) (a : List Interval) (j : Nat) : List Interval :=
  if (intervalAt a i).1 > (intervalAt a j).1 then swapAt a i j else a

/-- The inner sorting loop for the index `i`: `j` runs from `i + 1` to `n - 1`. -/
def sortInner (n : Nat) (a : List Interval) (i : Nat) : List Interval :=
  (List.range' (i + 1) (n - (i + 1))).foldl (sortStep i) a

/-- The sorting loops of `MergeIntervals`: `i` runs from `0` to `n - 2`. -/
def sortIntervals (a : List Interval) : List Interval :=
  (List.range' 0 (a.length - 1)).foldl (sortInner a.length) a

/-- The body of the merging loop for the interval `cur = intervals[i]`: when it starts at or
before the end of the last merged interval, the end of that one becomes the larger of the two
ends, otherwise `cur` is appended.  (`merged` is never empty in the loop.) -/
def mergeStep (merged : List Interval) (cur : Interval) : List Interval :=
  match merged.getLast? with
  | none => merged ++ [cur]
  | some last =>
    if cur.1 ≤ last.2 then merged.dropLast ++ [(last.1, max cur.2 last.2)]
    else merged ++ [cur]

/-- The function `MergeIntervals` of `GoTask/task1/merge_range.go`, as a function from the
slice it is given to the slice it returns (the inner slices are taken to be distinct arrays;
the changes the function makes to its argument are left out). -/
def MergeIntervals (intervals : List Interval) : List Interval :=
  if intervals.length = 0 then []
  else
    let sorted := sortIntervals intervals
    (sorted.drop 1).foldl mergeStep [intervalAt sorted 0]

/-- The number `x`, any rational number, lies in some interval of the list. -/
def Covered (l : List Interval) (x : ℚ) : Prop := ∃ iv ∈ l, (iv.1 : ℚ) ≤ x ∧ x ≤ (iv.2 : ℚ)

/-- The first `i` positions of the slice are sorted and hold starts that are at most the start
of every later position (`n` is the length of the slice). -/
def SortedBefore (n i : Nat) (a : List Interval) : Prop :=
  ∀ k l, k < i → k < l → l < n → (intervalAt a k).1 ≤ (intervalAt a l).1

/-- The start at position `i` is at most the start at every position after `i` and before
`j`. -/
def MinUpTo (i j : Nat) (a : List Interval) : Prop :=
  ∀ l, i < l → l < j → (intervalAt a i).1 ≤ (intervalAt a l).1

/-! ## `PlusOne` (`GoTask/task1/plus_one.go`) -/

/-- The loop of `PlusOne`, `for i := n - 1; i >= 0; i--`, with `i + 1` as the argument: at a
digit other than 9 the digit is incremented (`digits[i]++`, in Go `int` arithmetic), the
positions `i + 1 .. n - 1` are set to 0 in turn, and the slice is returned (`some`); `none`
when the loop ends without returning. -/
def plusOneLoop (digits : List Int) (n : Nat) : Nat → Option (List Int)
  | 0 => none
  | i + 1 =>
    if digits.getD i 0 ≠ 9 then
      some ((List.range' (i + 1) (n - (i + 1))).foldl (fun d j => d.set j 0)
        (digits.set i (wrap64 (digits.getD i 0 + 1))))
    else plusOneLoop digits n i

/-- `PlusOne`: the slice returned. When the loop returns nothing, a new slice of `n + 1` zeros
is made and its first element set to 1. -/
def PlusOne (digits : List Int) : List Int :=
  match plusOneLoop digits digits.length digits.length with
  | some r => r
  | none => (List.replicate (digits.length + 1) 0).set 0 1

/-- The number written by a list of decimal digits, most significant digit first. -/
def digitsValue (digits : List Int) : Int := digits.foldl (fun acc d => acc * 10 + d) 0

/-- Every element of the list is a decimal digit. -/
def IsDigits (digits : List Int) : Prop := ∀ d ∈ digits, 0 ≤ d ∧ d ≤ 9

/-! ## `SingleNumber` (`GoTask/task1/single_number.go`) -/

/-- The 64-bit two's complement pattern of a Go `int`. -/
def bits64 (x : Int) : Nat := (x % 18446744073709551616).toNat

/-- The operator `^` of Go on `int`: the exclusive or of the two bit patterns, read as a signed
64-bit number. -/
def xorInt (a b : Int) : Int := toInt64 (bits64 a ^^^ bits64 b)

/-- `SingleNumber`: `singleNum := 0`, then `singleNum ^= v` for every element in turn. -/
def SingleNumber (nums : List Int) : Int := nums.foldl (fun singleNum v => xorInt singleNum v) 0

/-! ## The use cases of the blog system (`GoTask/blog-system/internal/usecase`) -/

/-- Modelled from the spec: the declaration of the type `model.Post` is not among the sources
(`internal/domain/model` holds `comment.go` and `user.go` only).  The record has the fields
that `post_usecase.go` reads and writes, `UserID`, `Title` and `Content`, and the primary key
`ID` by which the repository finds the row, as in `model.Comment` and `model.User`. -/
structure Post where
  ID : Nat
  Title : GoString
  Content : GoString
  UserID : Nat
deriving DecidableEq, Repr

/-- The type `model.Comment`; the preloaded `User` and `Post` and the time stamp are left
out. -/
structure Comment where
  ID : Nat
  Content : GoString
  UserID : Nat
  PostID : Nat
deriving DecidableEq, Repr

/-- The methods of the interface `repository.PostRepository` that `Update` and `Delete` call,
over storage states `σ`.  `GetByID` is a query (`db.Preload("User").First(&post, id)` in the
implementation) and returns no new state; `Update` and `Delete` return their error and the
state they leave. -/
structure PostRepository (σ : Type) where
  GetByID : σ → Nat → Except GoError Post
  Update : σ → Post → Option GoError × σ
  Delete : σ → Nat → Option GoError × σ

/-- The methods of the interface `repository.CommentRepository` that `Delete` calls, over
storage states `σ`. -/
structure CommentRepository (σ : Type) where
  GetByID : σ → Nat → Except GoError Comment
  Delete : σ → Nat → Option GoError × σ

/-- A call of a repository method, over records of type `α`. -/
inductive RepoCall (α : Type) where
  | getByID (id : Nat) : RepoCall α
  | update (record : α) : RepoCall α
  | delete (id : Nat) : RepoCall α
deriving DecidableEq, Repr

/-- The repository method writes to the storage. -/
def RepoCall.isChange {α : Type} : RepoCall α → Bool
  | .getByID _ => false
  | .update _ => true
  | .delete _ => true

/-- The result of a use case: the returned error, the storage state it leaves, and the
repository methods it called, in order. -/
structure RepoRun (σ α : Type) where
  err : Option GoError
  state : σ
  calls : List (RepoCall α)

/-- The method `Update` of `postUseCase`. -/
def postUseCase.Update {σ : Type} (postRepo : PostRepository σ) (s : σ)
    (id userID : Nat) (title content : GoString) : RepoRun σ Post :=
  match postRepo.GetByID s id with
  | .error err => ⟨some err, s, [.getByID id]⟩
  | .ok post =>
    if post.UserID ≠ userID then
      ⟨some ⟨"没有权限修改此文章"⟩, s, [.getByID id]⟩
    else
      let post1 : Post := { post with Title := title, Content := content }
      let r := postRepo.Update s post1
      ⟨r.1, r.2, [.getByID id, .update post1]⟩

/-- The method `Delete` of `postUseCase`. -/
def postUseCase.Delete {σ : Type} (postRepo : PostRepository σ) (s : σ)
    (id userID : Nat) : RepoRun σ Post :=
  match postRepo.GetByID s id with
  | .error err => ⟨some err, s, [.getByID id]⟩
  | .ok post =>
    if post.UserID ≠ userID then
      ⟨some ⟨"没有权限删除此文章"⟩, s, [.getByID id]⟩
    else
      let r := postRepo.Delete s id
      ⟨r.1, r.2, [.getByID id, .delete id]⟩

/-- The method `Delete` of `commentUseCase`. -/
def commentUseCase.Delete {σ : Type} (commentRepo : CommentRepository σ) (s : σ)
    (id userID : Nat) : RepoRun σ Comment :=
  match commentRepo.GetByID s id with
  | .error err => ⟨some err, s, [.getByID id]⟩
  | .ok comment =>
    if comment.UserID ≠ userID then
      ⟨some ⟨"没有权限删除此评论"⟩, s, [.getByID id]⟩
    else
      let r := commentRepo.Delete s id
      ⟨r.1, r.2, [.getByID id, .delete id]⟩

/-- The post `id` exists in the repository and its `UserID` is `userID`. -/
def PostOwnedBy {σ : Type} (postRepo : PostRepository σ) (s : σ) (id userID : Nat) : Prop :=
  ∃ post, postRepo.GetByID s id = .ok post ∧ post.UserID = userID

/-- The comment `id` exists in the repository and its `UserID` is `userID`. -/
def CommentOwnedBy {σ : Type} (commentRepo : CommentRepository σ) (s : σ)
    (id userID : Nat) : Prop :=
  ∃ comment, commentRepo.GetByID s id = .ok comment ∧ comment.UserID = userID

/-- The tables of an in-memory blog, for examples. -/
structure Blog where
  posts : List Post
  comments : List Comment
deriving DecidableEq, Repr

/-- A post repository over the in-memory blog, after `persistence/post_repository.go`: a
missing post is the error `文章不存在`, `Update` saves the row under its key, and `Delete`
removes the comments of the post and the post. -/
def memPosts : PostRepository Blog where
  GetByID := fun s id =>
    match s.posts.find? (fun p => p.ID == id) with
    | some p => .ok p
    | none => .error ⟨"文章不存在"⟩
  Update := fun s post =>
    (none, { s with posts := if s.posts.any (fun p => p.ID == post.ID)
      then s.posts.map (fun p => if p.ID == post.ID then post else p)
      else s.posts ++ [post] })
  Delete := fun s id =>
    (none, ⟨s.posts.filter (fun p => p.ID != id), s.comments.filter (fun c => c.PostID != id)⟩)

/-- A comment repository over the in-memory blog, after `persistence/comment_repository.go`. -/
def memComments : CommentRepository Blog where
  GetByID := fun s id =>
    match s.comments.find? (fun c => c.ID == id) with
    | some c => .ok c
    | none => .error ⟨"评论不存在"⟩
  Delete := fun s id => (none, { s with comments := s.comments.filter (fun c => c.ID != id) })

/-- A blog with one post of user 7 and one comment of user 8 on it. -/
def demoBlog : Blog :=
  ⟨[⟨1, [104, 105], [116, 101, 120, 116], 7⟩], [⟨5, [111, 107], 8, 1⟩]⟩

/-! ## Theorems -/

/-- Every run of `SendTransaction` in which a broadcast is made went through the whole
sequence: key parsed, public key obtained, the three queries answered, signature computed. -/
theorem SendTransaction_broadcast_inv {σ : Type} (L : Lib) (client : Client σ) (s0 : σ)
    (key toHex : GoString) (amt : F64) (stx : SignedTx) (ok : Bool)
    (h : NetCall.sendTransaction stx ok ∈ (SendTransaction L client s0 key toHex amt).calls) :
    ∃ d pub n s1 g s2 c s3 sig,
      HexToECDSA key = .ok d ∧ L.Public d = some pub ∧
      client.PendingNonceAt s0 (L.PubkeyToAddress pub) = (.ok n, s1) ∧
      client.SuggestGasPrice s1 = (.ok g, s2) ∧ client.NetworkID s2 = (.ok c, s3) ∧
      L.Sign ⟨n, L.HexToAddress toHex, L.ethToWei amt, 21000, g, []⟩ c d = .ok sig ∧
      stx = ⟨⟨n, L.HexToAddress toHex, L.ethToWei amt, 21000, g, []⟩, sig⟩ ∧
      (SendTransaction L client s0 key toHex amt).calls =
        [.pendingNonceAt (L.PubkeyToAddress pub) true, .suggestGasPrice true, .networkID true,
          .sendTransaction stx ok] := by
  rcases hk : HexToECDSA key with e | d
  · simp [SendTransaction, hk] at h
  rcases hp : L.Public d with _ | pub
  · simp [SendTransaction, hk, hp] at h
  rcases hn : client.PendingNonceAt s0 (L.PubkeyToAddress pub) with ⟨(e | n), s1⟩
  · simp [SendTransaction, hk, hp, hn] at h
  rcases hg : client.SuggestGasPrice s1 with ⟨(e | g), s2⟩
  · simp [SendTransaction, hk, hp, hn, hg] at h
  rcases hc : client.NetworkID s2 with ⟨(e | c), s3⟩
  · simp [SendTransaction, hk, hp, hn, hg, hc] at h
  rcases hs : L.Sign ⟨n, L.HexToAddress toHex, L.ethToWei amt, 21000, g, []⟩ c d with e | sig
  · simp [SendTransaction, SignTx, hk, hp, hn, hg, hc, hs] at h
  refine ⟨d, pub, n, s1, g, s2, c, s3, sig, rfl, hp, hn, hg, hc, hs, ?_⟩
  rcases hb : client.SendTransaction s3
      ⟨⟨n, L.HexToAddress toHex, L.ethToWei amt, 21000, g, []⟩, sig⟩ with ⟨(_ | e), s4⟩
  · simp [SendTransaction, SignTx, hk, hp, hn, hg, hc, hs, hb] at h ⊢
    exact ⟨h.1, h.1.symm, h.2⟩
  · simp [SendTransaction, SignTx, hk, hp, hn, hg, hc, hs, hb] at h ⊢
    exact ⟨h.1, h.1.symm, h.2⟩

/-- When the key parses, the three queries succeed and the signature is computed,
`SendTransaction` hands exactly one transaction to the broadcast, built from the answers. -/
theorem SendTransaction_reaches_broadcast {σ : Type} (L : Lib) (client : Client σ) (s0 : σ)
    (key toHex : GoString) (amt : F64) (d : Nat) (pub : Nat × Nat) (n : Nat) (g c : Int)
    (s1 s2 s3 : σ) (sig : Signature)
    (hk : HexToECDSA key = .ok d) (hp : L.Public d = some pub)
    (hn : client.PendingNonceAt s0 (L.PubkeyToAddress pub) = (.ok n, s1))
    (hg : client.SuggestGasPrice s1 = (.ok g, s2)) (hc : client.NetworkID s2 = (.ok c, s3))
    (hs : L.Sign ⟨n, L.HexToAddress toHex, L.ethToWei amt, 21000, g, []⟩ c d = .ok sig) :
    (SendTransaction L client s0 key toHex amt).calls =
        [.pendingNonceAt (L.PubkeyToAddress pub) true, .suggestGasPrice true, .networkID true,
          .sendTransaction ⟨⟨n, L.HexToAddress toHex, L.ethToWei amt, 21000, g, []⟩, sig⟩
            ((client.SendTransaction s3
              ⟨⟨n, L.HexToAddress toHex, L.ethToWei amt, 21000, g, []⟩, sig⟩).1.isNone)] ∧
      (SendTransaction L client s0 key toHex amt).state =
        (client.SendTransaction s3
          ⟨⟨n, L.HexToAddress toHex, L.ethToWei amt, 21000, g, []⟩, sig⟩).2 ∧
      ((SendTransaction L client s0 key toHex amt).err = none ↔
        (client.SendTransaction s3
          ⟨⟨n, L.HexToAddress toHex, L.ethToWei amt, 21000, g, []⟩, sig⟩).1 = none) := by
  rcases hb : client.SendTransaction s3
      ⟨⟨n, L.HexToAddress toHex, L.ethToWei amt, 21000, g, []⟩, sig⟩ with ⟨(_ | e), s4⟩
  · simp [SendTransaction, SignTx, hk, hp, hn, hg, hc, hs, hb]
  · simp [SendTransaction, SignTx, hk, hp, hn, hg, hc, hs, hb]

/-- The remote calls of a run of `SendTransaction` and its result, case by case: the run stops
at the first failure, and only the run that went through all four calls returns no error. -/
theorem SendTransaction_shape {σ : Type} (L : Lib) (client : Client σ) (s0 : σ)
    (key toHex : GoString) (amt : F64) :
    ((SendTransaction L client s0 key toHex amt).calls = [] ∧
        (SendTransaction L client s0 key toHex amt).err ≠ none) ∨
    (∃ a, (SendTransaction L client s0 key toHex amt).calls = [.pendingNonceAt a false] ∧
        (SendTransaction L client s0 key toHex amt).err ≠ none) ∨
    (∃ a, (SendTransaction L client s0 key toHex amt).calls =
          [.pendingNonceAt a true, .suggestGasPrice false] ∧
        (SendTransaction L client s0 key toHex amt).err ≠ none) ∨
    (∃ a, (SendTransaction L client s0 key toHex amt).calls =
          [.pendingNonceAt a true, .suggestGasPrice true, .networkID false] ∧
        (SendTransaction L client s0 key toHex amt).err ≠ none) ∨
    (∃ a, (SendTransaction L client s0 key toHex amt).calls =
          [.pendingNonceAt a true, .suggestGasPrice true, .networkID true] ∧
        (SendTransaction L client s0 key toHex amt).err ≠ none) ∨
    (∃ a stx, (SendTransaction L client s0 key toHex amt).calls =
          [.pendingNonceAt a true, .suggestGasPrice true, .networkID true,
            .sendTransaction stx false] ∧
        (SendTransaction L client s0 key toHex amt).err ≠ none) ∨
    (∃ a stx, (SendTransaction L client s0 key toHex amt).calls =
          [.pendingNonceAt a true, .suggestGasPrice true, .networkID true,
            .sendTransaction stx true] ∧
        (SendTransaction L client s0 key toHex amt).err = none) := by
  rcases hk : HexToECDSA key with e | d
  · simp [SendTransaction, hk]
  rcases hp : L.Public d with _ | pub
  · simp [SendTransaction, hk, hp]
  rcases hn : client.PendingNonceAt s0 (L.PubkeyToAddress pub) with ⟨(e | n), s1⟩
  · simp [SendTransaction, hk, hp, hn]
  rcases hg : client.SuggestGasPrice s1 with ⟨(e | g), s2⟩
  · simp [SendTransaction, hk, hp, hn, hg]
  rcases hc : client.NetworkID s2 with ⟨(e | c), s3⟩
  · simp [SendTransaction, hk, hp, hn, hg, hc]
  rcases hs : SignTx L ⟨n, L.HexToAddress toHex, L.ethToWei amt, 21000, g, []⟩ c d with e | stx
  · simp [SendTransaction, hk, hp, hn, hg, hc, hs]
  rcases hb : client.SendTransaction s3 stx with ⟨(_ | e), s4⟩
  · simp [SendTransaction, hk, hp, hn, hg, hc, hs, hb]
  · simp [SendTransaction, hk, hp, hn, hg, hc, hs, hb]

/-- C9: in every run of `SendTransaction` at most one transaction is broadcast; a broadcast is
the fourth remote call, after a successful nonce query, fee query and network-id query; no
kind of remote call is made twice; a failed remote call is the last one of the run and makes
`SendTransaction` return an error; and after a failed query nothing has been broadcast. -/
theorem SendTransaction_single_broadcast {σ : Type} (L : Lib) (client : Client σ) (s0 : σ)
    (key toHex : GoString) (amt : F64) :
    (broadcasts (SendTransaction L client s0 key toHex amt).calls).length ≤ 1 ∧
    (∀ stx ok, NetCall.sendTransaction stx ok ∈ (SendTransaction L client s0 key toHex amt).calls →
      ∃ a, (SendTransaction L client s0 key toHex amt).calls =
        [.pendingNonceAt a true, .suggestGasPrice true, .networkID true,
          .sendTransaction stx ok]) ∧
    ((SendTransaction L client s0 key toHex amt).calls.map NetCall.kind).Nodup ∧
    (∀ c ∈ (SendTransaction L client s0 key toHex amt).calls, c.succeeded = false →
      (SendTransaction L client s0 key toHex amt).err ≠ none ∧
      (SendTransaction L client s0 key toHex amt).calls.getLast? = some c ∧
      (c.isBroadcast = false → broadcasts (SendTransaction L client s0 key toHex amt).calls = [])) := by
  refine ⟨?_, ?_, ?_, ?_⟩
  · rcases SendTransaction_shape L client s0 key toHex amt with
      ⟨h, _⟩ | ⟨a, h, _⟩ | ⟨a, h, _⟩ | ⟨a, h, _⟩ | ⟨a, h, _⟩ | ⟨a, stx, h, _⟩ | ⟨a, stx, h, _⟩ <;>
      simp [h, broadcasts]
  · intro stx ok hmem
    obtain ⟨d, pub, n, s1, g, s2, c, s3, sig, -, -, -, -, -, -, -, hcalls⟩ :=
      SendTransaction_broadcast_inv L client s0 key toHex amt stx ok hmem
    exact ⟨_, hcalls⟩
  · rcases SendTransaction_shape L client s0 key toHex amt with
      ⟨h, _⟩ | ⟨a, h, _⟩ | ⟨a, h, _⟩ | ⟨a, h, _⟩ | ⟨a, h, _⟩ | ⟨a, stx, h, _⟩ | ⟨a, stx, h, _⟩ <;>
      simp [h, NetCall.kind]
  · intro c hc hfail
    rcases SendTransaction_shape L client s0 key toHex amt with
      ⟨h, he⟩ | ⟨a, h, he⟩ | ⟨a, h, he⟩ | ⟨a, h, he⟩ | ⟨a, h, he⟩ | ⟨a, stx, h, he⟩ |
        ⟨a, stx, h, he⟩ <;>
      simp only [h] at hc ⊢ <;> simp at hc
    · subst hc
      simp [he, broadcasts]
    · rcases hc with rfl | rfl
      · simp [NetCall.succeeded] at hfail
      · simp [he, broadcasts]
    · rcases hc with rfl | rfl | rfl
      · simp [NetCall.succeeded] at hfail
      · simp [NetCall.succeeded] at hfail
      · simp [he, broadcasts]
    · rcases hc with rfl | rfl | rfl <;> simp [NetCall.succeeded] at hfail
    · rcases hc with rfl | rfl | rfl | rfl
      · simp [NetCall.succeeded] at hfail
      · simp [NetCall.succeeded] at hfail
      · simp [NetCall.succeeded] at hfail
      · simp [he, NetCall.isBroadcast]
    · rcases hc with rfl | rfl | rfl | rfl <;> simp [NetCall.succeeded] at hfail

/-- C9, at a network whose fee query fails: the failed query is the last remote call, an error
is returned and nothing is broadcast. -/
theorem SendTransaction_single_broadcast_witness :
    NetCall.suggestGasPrice false ∈ (SendTransaction demoLib noFeeNet () keyOne addrAA centEth).calls ∧
    (SendTransaction demoLib noFeeNet () keyOne addrAA centEth).err ≠ none ∧
    (SendTransaction demoLib noFeeNet () keyOne addrAA centEth).calls.getLast? =
      some (NetCall.suggestGasPrice false) ∧
    broadcasts (SendTransaction demoLib noFeeNet () keyOne addrAA centEth).calls = [] :=
  have hmem : NetCall.suggestGasPrice false ∈
      (SendTransaction demoLib noFeeNet () keyOne addrAA centEth).calls := by decide
  have h := (SendTransaction_single_broadcast demoLib noFeeNet () keyOne addrAA centEth).2.2.2
    (NetCall.suggestGasPrice false) hmem rfl
  ⟨hmem, h.1, h.2.1, h.2.2 rfl⟩

/-- When the receipt query fails in every network state, the wait `WaitMined` ends with the
context error after `polls + 1` receipt queries, all of them failed. -/
theorem WaitMined_no_receipt {σ : Type} (client : Client σ) (tx : SignedTx)
    (hfail : ∀ s, ∃ e s1, client.TransactionReceipt s tx = (.error e, s1)) :
    ∀ (polls : Nat) (s : σ),
      (WaitMined client polls s tx).res = .error ⟨"context deadline exceeded"⟩ ∧
      (WaitMined client polls s tx).calls
        = List.replicate (polls + 1) (NetCall.transactionReceipt tx false)
  | 0, s => by
    obtain ⟨e, s1, h⟩ := hfail s
    simp [WaitMined, h]
  | polls + 1, s => by
    obtain ⟨e, s1, h⟩ := hfail s
    obtain ⟨hres, hcalls⟩ := WaitMined_no_receipt client tx hfail polls s1
    simp [WaitMined, h, hres, hcalls, List.replicate_succ]

/-- The wait `WaitMined` stops at the first receipt: when the first poll answers, the result
is that receipt and one receipt query was made. -/
theorem WaitMined_first_receipt {σ : Type} (client : Client σ) (tx : SignedTx) (polls : Nat)
    (s s1 : σ) (receipt : Receipt) (h : client.TransactionReceipt s tx = (.ok receipt, s1)) :
    (WaitMined client polls s tx).res = .ok receipt ∧
      (WaitMined client polls s tx).calls = [NetCall.transactionReceipt tx true] := by
  cases polls <;> simp [WaitMined, h]

/-- C1: when the wait yields a receipt, `waitForTransaction` returns no error exactly when the
status of the receipt is 1 and the execution-failed error exactly when it is not; it prints the
success line in the first case only and the failure line in the second case only, never both. -/
theorem waitForTransaction_status {σ : Type} (waitMined : σ → SignedTx → WaitRun σ) (s0 : σ)
    (tx : SignedTx) (receipt : Receipt) (h : (waitMined s0 tx).res = .ok receipt) :
    ((waitForTransaction waitMined s0 tx).err = none ↔ receipt.status = 1) ∧
    ((waitForTransaction waitMined s0 tx).err = some .executionFailed ↔ receipt.status ≠ 1) ∧
    (Msg.confirmed ∈ (waitForTransaction waitMined s0 tx).out ↔ receipt.status = 1) ∧
    (Msg.failed ∈ (waitForTransaction waitMined s0 tx).out ↔ receipt.status ≠ 1) ∧
    ¬ ((waitForTransaction waitMined s0 tx).err = none ∧
        (waitForTransaction waitMined s0 tx).err = some .executionFailed) ∧
    ¬ (Msg.confirmed ∈ (waitForTransaction waitMined s0 tx).out ∧
        Msg.failed ∈ (waitForTransaction waitMined s0 tx).out) := by
  by_cases hs : receipt.status = 1 <;> simp [waitForTransaction, h, hs]

/-- C1, at a receipt with status 1 and at a receipt with status 0. -/
theorem waitForTransaction_status_witness :
    (waitForTransaction (minedWith ⟨1, 7⟩) () demoTx).err = none ∧
    (waitForTransaction (minedWith ⟨0, 7⟩) () demoTx).err = some .executionFailed :=
  ⟨(waitForTransaction_status (minedWith ⟨1, 7⟩) () demoTx ⟨1, 7⟩ rfl).1.2 rfl,
   (waitForTransaction_status (minedWith ⟨0, 7⟩) () demoTx ⟨0, 7⟩ rfl).2.1.2 (by decide)⟩

/-- C10: when the wait ends with an error, `waitForTransaction` returns the timeout error
around it, prints neither the success line nor the failure line, and makes no remote call after
the wait: its remote calls and final network state are those of the wait. -/
theorem waitForTransaction_timeout {σ : Type} (waitMined : σ → SignedTx → WaitRun σ) (s0 : σ)
    (tx : SignedTx) (cause : GoError) (h : (waitMined s0 tx).res = .error cause) :
    (waitForTransaction waitMined s0 tx).err = some (.waitTimeout cause) ∧
    (waitForTransaction waitMined s0 tx).err ≠ none ∧
    (waitForTransaction waitMined s0 tx).err ≠ some .executionFailed ∧
    Msg.confirmed ∉ (waitForTransaction waitMined s0 tx).out ∧
    Msg.failed ∉ (waitForTransaction waitMined s0 tx).out ∧
    (waitForTransaction waitMined s0 tx).laterCalls = [] ∧
    (waitForTransaction waitMined s0 tx).waitCalls = (waitMined s0 tx).calls ∧
    (waitForTransaction waitMined s0 tx).state = (waitMined s0 tx).state := by
  simp [waitForTransaction, h]

/-- C10, at a network that never has a receipt, with room for 3 further polls. -/
theorem waitForTransaction_timeout_witness :
    (waitForTransaction (WaitMined silentNet 3) () demoTx).err =
        some (.waitTimeout ⟨"context deadline exceeded"⟩) ∧
    (waitForTransaction (WaitMined silentNet 3) () demoTx).laterCalls = [] ∧
    (waitForTransaction (WaitMined silentNet 3) () demoTx).waitCalls.length = 4 :=
  have h := waitForTransaction_timeout (WaitMined silentNet 3) () demoTx
    ⟨"context deadline exceeded"⟩ rfl
  ⟨h.1, h.2.2.2.2.2.1, by rw [h.2.2.2.2.2.2.1]; rfl⟩

/-- C2: every transaction `SendTransaction` broadcasts carries as nonce the pending count the
network reported for the sender address derived from the private key; and when the key parses,
the queries succeed and the signature is computed, exactly one transaction is handed to the
broadcast, with that nonce. -/
theorem SendTransaction_nonce {σ : Type} (L : Lib) (client : Client σ) (s0 : σ)
    (key toHex : GoString) (amt : F64) :
    (∀ stx ∈ broadcasts (SendTransaction L client s0 key toHex amt).calls,
      ∃ a s1, senderOf L key = some a ∧ client.PendingNonceAt s0 a = (.ok stx.tx.nonce, s1)) ∧
    (∀ (d : Nat) (pub : Nat × Nat) (n : Nat) (g c : Int) (s1 s2 s3 : σ) (sig : Signature),
      HexToECDSA key = .ok d → L.Public d = some pub →
      client.PendingNonceAt s0 (L.PubkeyToAddress pub) = (.ok n, s1) →
      client.SuggestGasPrice s1 = (.ok g, s2) → client.NetworkID s2 = (.ok c, s3) →
      L.Sign ⟨n, L.HexToAddress toHex, L.ethToWei amt, 21000, g, []⟩ c d = .ok sig →
      noncesUsed (SendTransaction L client s0 key toHex amt) = [n]) := by
  constructor
  · intro stx hmem
    have hcall : ∃ ok, NetCall.sendTransaction stx ok ∈
        (SendTransaction L client s0 key toHex amt).calls := by
      rcases SendTransaction_shape L client s0 key toHex amt with
        ⟨h, _⟩ | ⟨a, h, _⟩ | ⟨a, h, _⟩ | ⟨a, h, _⟩ | ⟨a, h, _⟩ | ⟨a, t, h, _⟩ | ⟨a, t, h, _⟩ <;>
        simp [h, broadcasts] at hmem ⊢
      · exact hmem
      · exact hmem
    obtain ⟨ok, hok⟩ := hcall
    obtain ⟨d, pub, n, s1, g, s2, c, s3, sig, hk, hp, hn, -, -, -, hstx, -⟩ :=
      SendTransaction_broadcast_inv L client s0 key toHex amt stx ok hok
    refine ⟨L.PubkeyToAddress pub, s1, ?_, ?_⟩
    · simp [senderOf, hk, hp]
    · rw [hstx]; exact hn
  · intro d pub n g c s1 s2 s3 sig hk hp hn hg hc hs
    have h := (SendTransaction_reaches_broadcast L client s0 key toHex amt d pub n g c s1 s2 s3
      sig hk hp hn hg hc hs).1
    simp [noncesUsed, h, broadcasts]

/-- C2, at the scenario of the specification: the sender has pending count 5 and the transfer
of 0.01 to `0xAA…AA` is broadcast with nonce 5. -/
theorem SendTransaction_nonce_witness :
    demoPending 1 = 5 ∧
    noncesUsed (SendTransaction demoLib demoNet demoPending keyOne addrAA centEth) = [5] :=
  ⟨rfl, (SendTransaction_nonce demoLib demoNet demoPending keyOne addrAA centEth).2
    1 (1, 0) 5 1000000000 11155111 demoPending demoPending demoPending ⟨11155111, 1, 5⟩
    rfl rfl rfl rfl rfl rfl⟩

/-- C4: `handleTransactionSend` calls `SendTransaction` only when `validatePrivateKey`,
`validateAddress` and `parseAmount` all succeeded; when one of them fails the handler returns
without calling it and without any remote call. -/
theorem handleTransactionSend_validates_first {σ : Type} (L : Lib) (client : Client σ) (s0 : σ)
    (inp : Inputs) :
    (∀ r, handleTransactionSend L client s0 inp = some r →
      validatePrivateKey inp.privateKey = none ∧ validateAddress inp.toAddress = none ∧
      (parseAmount (ParseFloat L.parseNumber) inp.amountStr).2 = none ∧
      r = SendTransaction L client s0 inp.privateKey inp.toAddress
        (parseAmount (ParseFloat L.parseNumber) inp.amountStr).1) ∧
    (handlerCalls (handleTransactionSend L client s0 inp) ≠ [] →
      validatePrivateKey inp.privateKey = none ∧ validateAddress inp.toAddress = none ∧
      (parseAmount (ParseFloat L.parseNumber) inp.amountStr).2 = none) ∧
    ((validatePrivateKey inp.privateKey ≠ none ∨ validateAddress inp.toAddress ≠ none ∨
        (parseAmount (ParseFloat L.parseNumber) inp.amountStr).2 ≠ none) →
      handleTransactionSend L client s0 inp = none ∧
      handlerCalls (handleTransactionSend L client s0 inp) = []) := by
  rcases hk : validatePrivateKey inp.privateKey with _ | e
  · rcases ha : validateAddress inp.toAddress with _ | e
    · rcases hp : parseAmount (ParseFloat L.parseNumber) inp.amountStr with ⟨amount, (_ | e)⟩
      · by_cases hc : confirmAction inp.confirm = true
        · simp [handleTransactionSend, hk, ha, hp, hc]
        · simp [handleTransactionSend, hk, ha, hp, hc, handlerCalls]
      · simp [handleTransactionSend, hk, ha, hp, handlerCalls]
    · simp [handleTransactionSend, hk, ha, handlerCalls]
  · simp [handleTransactionSend, hk, handlerCalls]

/-- C4, at a malformed address: the handler makes no remote call although the key and the
amount are valid; and at three valid inputs it calls `SendTransaction`. -/
theorem handleTransactionSend_validates_first_witness :
    handlerCalls (handleTransactionSend demoLib demoNet demoPending
      ⟨keyOne, [122, 122], [48, 46, 48, 49], [121]⟩) = [] ∧
    (handleTransactionSend demoLib demoNet demoPending
      ⟨keyOne, addrAA, [48, 46, 48, 49], [121]⟩).isSome = true :=
  ⟨((handleTransactionSend_validates_first demoLib demoNet demoPending
      ⟨keyOne, [122, 122], [48, 46, 48, 49], [121]⟩).2.2 (Or.inr (Or.inl (by decide)))).2,
    by decide⟩

/-- C5 as stated fails: with the recipient `zz`, which `validateAddress` rejects, and every
network answer positive, `SendTransaction` returns no error and broadcasts a transaction. -/
theorem SendTransaction_rejects_bad_recipient_counterexample :
    validateAddress [122, 122] = some .badAddress ∧
    (SendTransaction demoLib demoNet demoPending keyOne [122, 122] centEth).err = none ∧
    (broadcasts (SendTransaction demoLib demoNet demoPending keyOne [122, 122] centEth).calls).length
      = 1 := by
  decide

/-- C5, amended: `SendTransaction` validates neither the recipient nor the amount.  Whatever
the recipient string and whatever the amount, when the key parses, the three queries succeed
and the signature is computed, it hands to the broadcast the transaction to
`HexToAddress(recipient)` with the converted amount and an empty payload; the only errors it
returns are those of key parsing, of the three queries, of signing and of the broadcast, never
an invalid-address or invalid-amount error; and every transaction it broadcasts has an empty
payload. -/
theorem SendTransaction_no_input_validation {σ : Type} (L : Lib) (client : Client σ) (s0 : σ)
    (key toHex : GoString) (amt : F64) :
    (∀ (d : Nat) (pub : Nat × Nat) (n : Nat) (g c : Int) (s1 s2 s3 : σ) (sig : Signature),
      HexToECDSA key = .ok d → L.Public d = some pub →
      client.PendingNonceAt s0 (L.PubkeyToAddress pub) = (.ok n, s1) →
      client.SuggestGasPrice s1 = (.ok g, s2) → client.NetworkID s2 = (.ok c, s3) →
      L.Sign ⟨n, L.HexToAddress toHex, L.ethToWei amt, 21000, g, []⟩ c d = .ok sig →
      broadcasts (SendTransaction L client s0 key toHex amt).calls =
        [⟨⟨n, L.HexToAddress toHex, L.ethToWei amt, 21000, g, []⟩, sig⟩]) ∧
    ((SendTransaction L client s0 key toHex amt).err = none ∨
      (∃ e, (SendTransaction L client s0 key toHex amt).err = some (.parseKey e)) ∨
      (SendTransaction L client s0 key toHex amt).err = some .publicKeyCast ∨
      (∃ e, (SendTransaction L client s0 key toHex amt).err = some (.nonceQuery e)) ∨
      (∃ e, (SendTransaction L client s0 key toHex amt).err = some (.gasPriceQuery e)) ∨
      (∃ e, (SendTransaction L client s0 key toHex amt).err = some (.chainIDQuery e)) ∨
      (∃ e, (SendTransaction L client s0 key toHex amt).err = some (.signFailed e)) ∨
      (∃ e, (SendTransaction L client s0 key toHex amt).err = some (.sendFailed e))) ∧
    (∀ stx ∈ broadcasts (SendTransaction L client s0 key toHex amt).calls, stx.tx.data = []) := by
  refine ⟨?_, ?_, ?_⟩
  · intro d pub n g c s1 s2 s3 sig hk hp hn hg hc hs
    have h := (SendTransaction_reaches_broadcast L client s0 key toHex amt d pub n g c s1 s2 s3
      sig hk hp hn hg hc hs).1
    simp [h, broadcasts]
  · rcases hk : HexToECDSA key with e | d
    · simp [SendTransaction, hk]
    rcases hp : L.Public d with _ | pub
    · simp [SendTransaction, hk, hp]
    rcases hn : client.PendingNonceAt s0 (L.PubkeyToAddress pub) with ⟨(e | n), s1⟩
    · simp [SendTransaction, hk, hp, hn]
    rcases hg : client.SuggestGasPrice s1 with ⟨(e | g), s2⟩
    · simp [SendTransaction, hk, hp, hn, hg]
    rcases hc : client.NetworkID s2 with ⟨(e | c), s3⟩
    · simp [SendTransaction, hk, hp, hn, hg, hc]
    rcases hs : SignTx L ⟨n, L.HexToAddress toHex, L.ethToWei amt, 21000, g, []⟩ c d with e | stx
    · simp [SendTransaction, hk, hp, hn, hg, hc, hs]
    rcases hb : client.SendTransaction s3 stx with ⟨(_ | e), s4⟩
    · simp [SendTransaction, hk, hp, hn, hg, hc, hs, hb]
    · simp [SendTransaction, hk, hp, hn, hg, hc, hs, hb]
  · intro stx hmem
    have hcall : ∃ ok, NetCall.sendTransaction stx ok ∈
        (SendTransaction L client s0 key toHex amt).calls := by
      rcases SendTransaction_shape L client s0 key toHex amt with
        ⟨h, _⟩ | ⟨a, h, _⟩ | ⟨a, h, _⟩ | ⟨a, h, _⟩ | ⟨a, h, _⟩ | ⟨a, t, h, _⟩ | ⟨a, t, h, _⟩ <;>
        simp [h, broadcasts] at hmem ⊢
      · exact hmem
      · exact hmem
    obtain ⟨ok, hok⟩ := hcall
    obtain ⟨d, pub, n, s1, g, s2, c, s3, sig, -, -, -, -, -, -, hstx, -⟩ :=
      SendTransaction_broadcast_inv L client s0 key toHex amt stx ok hok
    rw [hstx]

/-- C5 amended, at the recipient `zz` and at a negative amount: the transaction is handed to
the broadcast all the same. -/
theorem SendTransaction_no_input_validation_witness :
    broadcasts (SendTransaction demoLib demoNet demoPending keyOne [122, 122] (.fin (-1) 0)).calls =
      [⟨⟨5, 0, -1000000000000000000, 21000, 1000000000, []⟩, ⟨11155111, 1, 5⟩⟩] :=
  (SendTransaction_no_input_validation demoLib demoNet demoPending keyOne [122, 122]
    (.fin (-1) 0)).1 1 (1, 0) 5 1000000000 11155111 demoPending demoPending demoPending
    ⟨11155111, 1, 5⟩ rfl rfl rfl rfl rfl rfl

/-- One accepted submission on the counting network uses the pending count of the sender as
nonce and raises that count by one. -/
theorem countingClient_step (L : Lib) (accept : (Address → Nat) → SignedTx → Bool)
    (gasPrice chainID : Int) (hs : SignSound L) (s : Address → Nat) (key toHex : GoString)
    (amt : F64) (a : Address) (ha : senderOf L key = some a)
    (herr : (SendTransaction L (countingClient L accept gasPrice chainID) s key toHex amt).err
      = none) :
    noncesUsed (SendTransaction L (countingClient L accept gasPrice chainID) s key toHex amt)
        = [s a] ∧
      (SendTransaction L (countingClient L accept gasPrice chainID) s key toHex amt).state a
        = s a + 1 := by
  rcases hk : HexToECDSA key with e | d
  · simp [senderOf, hk] at ha
  rcases hp : L.Public d with _ | pub
  · simp [senderOf, hk, hp] at ha
  have haddr : L.PubkeyToAddress pub = a := by simpa [senderOf, hk, hp] using ha
  rcases hsig : L.Sign ⟨s a, L.HexToAddress toHex, L.ethToWei amt, 21000, gasPrice, []⟩
      chainID d with e | sig
  · simp [SendTransaction, SignTx, countingClient, hk, hp, haddr, hsig] at herr
  · have hsender := hs d pub _ chainID sig hp hsig
    rw [haddr] at hsender
    by_cases hacc : accept s ⟨⟨s a, L.HexToAddress toHex, L.ethToWei amt, 21000, gasPrice, []⟩,
        sig⟩ = true
    · simp [SendTransaction, SignTx, countingClient, hk, hp, haddr, hsig, hacc, noncesUsed,
        broadcasts, hsender]
    · simp [SendTransaction, SignTx, countingClient, hk, hp, haddr, hsig, hacc] at herr

/-- C3: on the counting network, when the calls of `SendTransaction` issued one after another
from one private key are all accepted, the `k`-th call (from 0) broadcasts exactly one
transaction and its nonce is `n0 + k`, where `n0` is the pending count of the sender before
the first call. -/
theorem sendMany_nonces_consecutive (L : Lib) (accept : (Address → Nat) → SignedTx → Bool)
    (gasPrice chainID : Int) (hs : SignSound L) (key : GoString) (a : Address)
    (ha : senderOf L key = some a) (reqs : List (GoString × F64)) (pending0 : Address → Nat)
    (hall : ∀ r ∈ sendMany L (countingClient L accept gasPrice chainID) pending0 key reqs,
      r.err = none) :
    (sendMany L (countingClient L accept gasPrice chainID) pending0 key reqs).length
        = reqs.length ∧
      ∀ k, k < reqs.length →
        ((sendMany L (countingClient L accept gasPrice chainID) pending0 key reqs).map
          noncesUsed)[k]? = some [pending0 a + k] := by
  induction reqs generalizing pending0 with
  | nil => simp [sendMany]
  | cons req rest ih =>
    obtain ⟨toHex, amt⟩ := req
    simp only [sendMany, List.mem_cons, forall_eq_or_imp] at hall
    obtain ⟨h0, hrest⟩ := hall
    obtain ⟨hn, hst⟩ := countingClient_step L accept gasPrice chainID hs pending0 key toHex amt
      a ha h0
    obtain ⟨hlen, hk⟩ := ih _ hrest
    refine ⟨by simp [sendMany, hlen], ?_⟩
    intro k hklt
    cases k with
    | zero => simp [sendMany, hn]
    | succ j =>
      have hj : j < rest.length := by simpa using hklt
      have := hk j hj
      simp only [sendMany, List.map_cons, List.getElem?_cons_succ]
      rw [this, hst]
      congr 2
      omega

/-- The stand-in library recovers the signer of its own signatures. -/
theorem demoLib_signSound : SignSound demoLib := by
  intro prv pub tx chainID sig hp hsig
  simp only [demoLib, Option.some.injEq, Except.ok.injEq] at hp hsig
  subst hp hsig
  rfl

/-- C3, at three transfers in a row from the key whose account has pending count 5: the nonces
used are 5, 6 and 7. -/
theorem sendMany_nonces_consecutive_witness :
    (sendMany demoLib demoNet demoPending keyOne
      [(addrAA, centEth), (addrAA, centEth), (addrAA, centEth)]).map noncesUsed
      = [[5], [6], [7]] := by
  have h := sendMany_nonces_consecutive demoLib (fun _ _ => true) 1000000000 11155111
    demoLib_signSound keyOne 1 rfl [(addrAA, centEth), (addrAA, centEth), (addrAA, centEth)]
    demoPending (by decide)
  have h0 := h.2 0 (by decide)
  have h1 := h.2 1 (by decide)
  have h2 := h.2 2 (by decide)
  have hl : ((sendMany demoLib demoNet demoPending keyOne
      [(addrAA, centEth), (addrAA, centEth), (addrAA, centEth)]).map noncesUsed).length = 3 := by
    rw [List.length_map]; exact h.1
  apply List.ext_getElem?
  intro k
  match k with
  | 0 => exact h0
  | 1 => exact h1
  | 2 => exact h2
  | k + 3 =>
    rw [List.getElem?_eq_none (by rw [hl]; omega), List.getElem?_eq_none (by simp)]

/-- The digit decoder answers exactly on hexadecimal digits, with their value. -/
theorem fromHexChar_eq_some (c v : Nat) (h : fromHexChar c = some v) :
    isHexDigit c ∧ v = hexDigitValue c := by
  unfold fromHexChar at h
  unfold isHexDigit hexDigitValue
  split_ifs at h with h1 h2 h3 <;> simp at h <;> subst h
  · refine ⟨Or.inl h1, ?_⟩
    rw [if_pos h1.2]
  · refine ⟨Or.inr (Or.inl h2), ?_⟩
    rw [if_neg (by omega), if_pos h2.1]
    omega
  · refine ⟨Or.inr (Or.inr h3), ?_⟩
    rw [if_neg (by omega), if_neg (by omega)]
    omega

/-- On a hexadecimal digit the digit decoder answers with its value. -/
theorem fromHexChar_of_isHexDigit (c : Nat) (h : isHexDigit c) :
    fromHexChar c = some (hexDigitValue c) := by
  rcases hv : fromHexChar c with _ | v
  · exfalso
    unfold fromHexChar at hv
    unfold isHexDigit at h
    split_ifs at hv with h1 h2 h3
    rcases h with h | h | h
    · exact h1 h
    · exact h2 h
    · exact h3 h
  · rw [(fromHexChar_eq_some c v hv).2]

/-- A successful hex decoding read only hexadecimal digits, two per byte, and the bytes denote
the same number as the digits. -/
theorem hexDecodeString_ok : ∀ (s : GoString) (bs : List Nat), hexDecodeString s = .ok bs →
    (∀ c ∈ s, isHexDigit c) ∧ s.length = 2 * bs.length ∧
      ∀ acc, bs.foldl (fun acc b => acc * 256 + b) acc
        = s.foldl (fun acc c => acc * 16 + hexDigitValue c) acc
  | [], bs, h => by
    simp [hexDecodeString] at h
    subst h
    simp
  | [p], bs, h => by
    unfold hexDecodeString at h
    split at h <;> simp at h
  | p :: q :: rest, bs, h => by
    unfold hexDecodeString at h
    rcases hp : fromHexChar p with _ | a
    · simp [hp] at h
    rcases hq : fromHexChar q with _ | b
    · simp [hp, hq] at h
    rcases hr : hexDecodeString rest with e | bs1
    · simp [hp, hq, hr] at h
    simp [hp, hq, hr] at h
    subst h
    obtain ⟨hdig, hlen, hfold⟩ := hexDecodeString_ok rest bs1 hr
    obtain ⟨hpd, hpv⟩ := fromHexChar_eq_some p a hp
    obtain ⟨hqd, hqv⟩ := fromHexChar_eq_some q b hq
    refine ⟨?_, ?_, ?_⟩
    · intro c hc
      simp only [List.mem_cons] at hc
      rcases hc with rfl | rfl | hc
      · exact hpd
      · exact hqd
      · exact hdig c hc
    · simp [hlen]; omega
    · intro acc
      simp only [List.foldl_cons]
      rw [hfold, hpv, hqv]
      congr 1
      ring

/-- Hex decoding succeeds on every even-length string of hexadecimal digits. -/
theorem hexDecodeString_total : ∀ (s : GoString), (∀ c ∈ s, isHexDigit c) → s.length % 2 = 0 →
    ∃ bs, hexDecodeString s = .ok bs
  | [], _, _ => ⟨[], by simp [hexDecodeString]⟩
  | [p], _, hlen => by simp at hlen
  | p :: q :: rest, hdig, hlen => by
    have hp := fromHexChar_of_isHexDigit p (hdig p (by simp))
    have hq := fromHexChar_of_isHexDigit q (hdig q (by simp))
    obtain ⟨bs, hbs⟩ := hexDecodeString_total rest
      (fun c hc => hdig c (by simp [hc])) (by simp at hlen; omega)
    exact ⟨(hexDigitValue p * 16 + hexDigitValue q) :: bs, by simp [hexDecodeString, hp, hq, hbs]⟩

/-- C6: `validatePrivateKey` returns an error whenever the length is not 64; on a string of
length 64 it succeeds exactly when the string consists of hexadecimal digits that denote a
scalar `d` with `0 < d < N`; so it succeeds exactly on the well-formed keys of length 64. -/
theorem validatePrivateKey_iff_wellFormed (s : GoString) :
    (s.length ≠ 64 → validatePrivateKey s ≠ none) ∧
    (s.length = 64 → (validatePrivateKey s = none ↔ WellFormedKey s)) ∧
    (validatePrivateKey s = none ↔ s.length = 64 ∧ WellFormedKey s) := by
  have key : validatePrivateKey s = none ↔ s.length = 64 ∧ WellFormedKey s := by
    constructor
    · intro h
      unfold validatePrivateKey at h
      split_ifs at h with hlen
      have hlen64 : s.length = 64 := by simpa using hlen
      rcases hd : hexDecodeString s with e | bs
      · simp [HexToECDSA, hd] at h
      obtain ⟨hdig, _, hfold⟩ := hexDecodeString_ok s bs hd
      have hval : setBytes bs = hexScalar s := hfold 0
      simp only [HexToECDSA, hd, ToECDSA] at h
      split_ifs at h with h1 h2 h3
      refine ⟨hlen64, hdig, ?_, ?_⟩
      · rw [← hval]; omega
      · rw [← hval]; omega
    · rintro ⟨hlen, hdig, hpos, hlt⟩
      obtain ⟨bs, hd⟩ := hexDecodeString_total s hdig (by rw [hlen])
      obtain ⟨_, hl, hfold⟩ := hexDecodeString_ok s bs hd
      have hval : setBytes bs = hexScalar s := hfold 0
      have hbl : bs.length = 32 := by omega
      unfold validatePrivateKey
      rw [if_neg (by simp [hlen])]
      simp only [HexToECDSA, hd, ToECDSA]
      rw [if_neg (by simp [hbl]), if_neg (by rw [hval]; omega), if_neg (by rw [hval]; omega)]
  refine ⟨?_, ?_, key⟩
  · intro hlen h
    exact hlen (key.1 h).1
  · intro hlen
    rw [key]
    exact ⟨fun h => h.2, fun h => ⟨hlen, h⟩⟩

/-- C6, at the key `00…01` (accepted, well formed) and at a key of 63 digits (rejected). -/
theorem validatePrivateKey_iff_wellFormed_witness :
    keyOne.length = 64 ∧ WellFormedKey keyOne ∧
    validatePrivateKey (List.replicate 63 49) ≠ none :=
  ⟨rfl, ((validatePrivateKey_iff_wellFormed keyOne).2.1 rfl).1 (by decide),
    (validatePrivateKey_iff_wellFormed (List.replicate 63 49)).1 (by decide)⟩

/-- The library test for a hexadecimal digit agrees with `isHexDigit`. -/
theorem isHexCharacter_iff (c : Nat) : isHexCharacter c = true ↔ isHexDigit c := by
  simp [isHexCharacter, isHexDigit, or_assoc]

/-- The library test `isHex` on a string of length 40. -/
theorem isHex_iff_of_length (s : GoString) (h : s.length = 40) :
    isHex s = true ↔ ∀ c ∈ s, isHexDigit c := by
  simp [isHex, h, List.all_eq_true, isHexCharacter_iff]

/-- The library test `has0xPrefix`, spelled out. -/
theorem has0xPrefix_iff (a : GoString) :
    has0xPrefix a = true ↔ ∃ rest, a = 48 :: 120 :: rest ∨ a = 48 :: 88 :: rest := by
  match a with
  | [] => simp [has0xPrefix]
  | [c] => simp [has0xPrefix]
  | c0 :: c1 :: rest =>
    simp only [has0xPrefix, Bool.and_eq_true, Bool.or_eq_true, decide_eq_true_eq,
      List.cons.injEq]
    constructor
    · rintro ⟨h0, h1 | h1⟩
      · exact ⟨rest, Or.inl ⟨h0, h1, rfl⟩⟩
      · exact ⟨rest, Or.inr ⟨h0, h1, rfl⟩⟩
    · rintro ⟨r, ⟨h0, h1, _⟩ | ⟨h0, h1, _⟩⟩
      · exact ⟨h0, Or.inl h1⟩
      · exact ⟨h0, Or.inr h1⟩

/-- The library test `IsHexAddress` accepts exactly 40 hexadecimal digits, bare or after `0x`
or `0X`. -/
theorem IsHexAddress_iff (a : GoString) : IsHexAddress a = true ↔ HexAddress a := by
  unfold IsHexAddress HexAddress
  by_cases hp : has0xPrefix a = true
  · obtain ⟨rest, hrest⟩ := (has0xPrefix_iff a).1 hp
    simp only [hp, if_true, Bool.and_eq_true, decide_eq_true_eq]
    constructor
    · rintro ⟨hlen, hhex⟩
      have hd : a.drop 2 = rest := by rcases hrest with h | h <;> simp [h]
      rw [hd] at hlen hhex
      refine ⟨rest, Or.inr hrest, hlen, (isHex_iff_of_length rest hlen).1 hhex⟩
    · rintro ⟨ds, hds, hlen, hhex⟩
      rcases hds with h | h | h
      · exfalso
        subst h
        rcases hrest with h | h
        · have := hhex 120 (by rw [h]; simp)
          simp [isHexDigit] at this
        · have := hhex 88 (by rw [h]; simp)
          simp [isHexDigit] at this
      · have hd : a.drop 2 = ds := by simp [h]
        rw [hd]
        exact ⟨hlen, (isHex_iff_of_length ds hlen).2 hhex⟩
      · have hd : a.drop 2 = ds := by simp [h]
        rw [hd]
        exact ⟨hlen, (isHex_iff_of_length ds hlen).2 hhex⟩
  · simp only [hp, Bool.false_eq_true, if_false, Bool.and_eq_true, decide_eq_true_eq]
    constructor
    · rintro ⟨hlen, hhex⟩
      exact ⟨a, Or.inl rfl, hlen, (isHex_iff_of_length a hlen).1 hhex⟩
    · rintro ⟨ds, hds, hlen, hhex⟩
      rcases hds with h | h | h
      · subst h
        exact ⟨hlen, (isHex_iff_of_length a hlen).2 hhex⟩
      · exact absurd ((has0xPrefix_iff a).2 ⟨ds, Or.inl h⟩) hp
      · exact absurd ((has0xPrefix_iff a).2 ⟨ds, Or.inr h⟩) hp

/-- C7 as stated fails: forty hexadecimal digits without the `0x` in front are accepted by
`validateAddress` and by `validateContractAddress`, and so is the same address after `0X`. -/
theorem validateAddress_prefixed_only_counterexample :
    validateAddress bareAddress = none ∧ validateContractAddress bareAddress = none ∧
    ¬ PrefixedAddress bareAddress ∧
    validateAddress (48 :: 88 :: bareAddress) = none ∧
    ¬ PrefixedAddress (48 :: 88 :: bareAddress) := by
  refine ⟨by decide, by decide, ?_, by decide, ?_⟩
  · rintro ⟨ds, h, -⟩
    have := congrArg List.head? h
    simp [bareAddress, List.replicate] at this
  · rintro ⟨ds, h, -⟩
    have := congrArg (fun l => l.tail.head?) h
    simp at this

/-- C7, amended: `validateAddress` and `validateContractAddress` succeed exactly on the strings
made of 40 hexadecimal digits, bare or preceded by `0x` or `0X`; every other string is
rejected with the invalid-address error. -/
theorem validateAddress_iff_hexAddress (a : GoString) :
    (validateAddress a = none ↔ HexAddress a) ∧
    (validateContractAddress a = none ↔ HexAddress a) ∧
    (¬ HexAddress a → validateAddress a = some .badAddress ∧
      validateContractAddress a = some .badAddress) := by
  have h := IsHexAddress_iff a
  by_cases hv : IsHexAddress a = true
  · have ha := h.1 hv
    simp [validateAddress, validateContractAddress, hv, ha]
  · have ha : ¬ HexAddress a := fun hh => hv (h.2 hh)
    simp [validateAddress, validateContractAddress, hv, ha]

/-- C7 amended, at an address that is neither bare nor prefixed hexadecimal: rejected. -/
theorem validateAddress_iff_hexAddress_witness :
    validateAddress [122, 122] = some .badAddress ∧ HexAddress addrAA ∧ HexAddress bareAddress :=
  ⟨((validateAddress_iff_hexAddress [122, 122]).2.2 (by
      rintro ⟨ds, h, hlen, -⟩
      rcases h with h | h | h
      · rw [← h] at hlen; simp at hlen
      · simp at h
      · simp at h)).1,
    (validateAddress_iff_hexAddress addrAA).1.1 (by decide),
    (validateAddress_iff_hexAddress bareAddress).1.1 (by decide)⟩

/-- C8 as stated fails: on the input `Inf`, which `strconv.ParseFloat` parses to `+Inf` without
error whatever the number parser, `parseAmount` returns `+Inf` and no error. -/
theorem parseAmount_finite_only_counterexample :
    parseAmount (ParseFloat demoLib.parseNumber) [73, 110, 102] = (F64.inf false, none) ∧
    (F64.inf false).isFinitePos = false := by
  decide

/-- C8, amended: for every input that `ParseFloat` does not parse to NaN, `parseAmount` returns
no error exactly when `ParseFloat` returned no error and a value strictly greater than zero (a
positive finite number or `+Inf`), and then it returns that value; a parse error is rejected
with the invalid-amount error, and a parsed value that is zero, negative or `-Inf` is rejected
with the not-positive error. -/
theorem parseAmount_accepts_iff_positive (parseFloat : GoString → F64 × Option GoError)
    (s : GoString) (hnan : (parseFloat s).1 ≠ F64.nan) :
    ((parseAmount parseFloat s).2 = none ↔
      (parseFloat s).2 = none ∧
        ((parseFloat s).1.isFinitePos = true ∨ (parseFloat s).1 = F64.inf false)) ∧
    ((parseAmount parseFloat s).2 = none → (parseAmount parseFloat s).1 = (parseFloat s).1) ∧
    (∀ e, (parseFloat s).2 = some e → (parseAmount parseFloat s).2 = some (.badAmount e)) ∧
    ((parseFloat s).2 = none →
      ((parseFloat s).1.isFinitePos = false ∧ (parseFloat s).1 ≠ F64.inf false) →
      (parseAmount parseFloat s).2 = some .amountNotPositive) := by
  rcases hp : parseFloat s with ⟨v, (_ | e)⟩
  · rw [hp] at hnan
    cases v with
    | nan => exact absurd rfl hnan
    | inf neg => cases neg <;> simp [parseAmount, hp, F64.leZero, F64.isFinitePos]
    | fin m e =>
      by_cases hm : m ≤ 0
      · have : ¬ 0 < m := by omega
        simp [parseAmount, hp, F64.leZero, F64.isFinitePos, hm, this]
      · have : 0 < m := by omega
        simp [parseAmount, hp, F64.leZero, F64.isFinitePos, hm, this]
  · simp [parseAmount, hp]

/-- C8 amended, at `0.01` (accepted with its value) and at `-Inf` (rejected). -/
theorem parseAmount_accepts_iff_positive_witness :
    parseAmount (ParseFloat demoLib.parseNumber) [48, 46, 48, 49] = (centEth, none) ∧
    (parseAmount (ParseFloat demoLib.parseNumber) [45, 73, 110, 102]).2
      = some .amountNotPositive :=
  ⟨Prod.ext
    ((parseAmount_accepts_iff_positive (ParseFloat demoLib.parseNumber) [48, 46, 48, 49]
      (by decide)).2.1 (by decide))
    (by decide),
   (parseAmount_accepts_iff_positive (ParseFloat demoLib.parseNumber) [45, 73, 110, 102]
      (by decide)).2.2.2 (by decide) (by decide)⟩

/-- C11: `handleContractMethod` and `handleContractDeployment` start `waitForTransaction` only
when the submission step returned a transaction without error, and they wait for that
transaction; when the submission step returns an error (for instance a rejection for
insufficient balance), or is not reached, the handler returns without starting the wait and
without reading the count. -/
theorem handlers_wait_only_after_submission {σ : Type} (L : Lib) (B : Bind σ)
    (client : Client σ) (s0 : σ) (key method : GoString) (value : Option Int) :
    (∀ w, (handleContractMethod L B client s0 key method value).wait = some w →
      ∃ tx s1, (handleContractMethod L B client s0 key method value).submission = some (.ok tx) ∧
        w = waitForTransaction B.WaitMined s1 tx) ∧
    (∀ e, (handleContractMethod L B client s0 key method value).submission = some (.error e) →
      (handleContractMethod L B client s0 key method value).wait = none ∧
      (handleContractMethod L B client s0 key method value).countRead = false) ∧
    ((handleContractMethod L B client s0 key method value).submission = none →
      (handleContractMethod L B client s0 key method value).wait = none) ∧
    (∀ w, (handleContractDeployment L B client s0 key).wait = some w →
      ∃ tx s1, (handleContractDeployment L B client s0 key).submission = some (.ok tx) ∧
        w = waitForTransaction B.WaitMined s1 tx) ∧
    (∀ e, (handleContractDeployment L B client s0 key).submission = some (.error e) →
      (handleContractDeployment L B client s0 key).wait = none ∧
      (handleContractDeployment L B client s0 key).countRead = false) ∧
    ((handleContractDeployment L B client s0 key).submission = none →
      (handleContractDeployment L B client s0 key).wait = none) := by
  have hm : ∀ r : ContractRun σ, r = handleContractMethod L B client s0 key method value →
      (∀ w, r.wait = some w →
        ∃ tx s1, r.submission = some (.ok tx) ∧ w = waitForTransaction B.WaitMined s1 tx) ∧
      (∀ e, r.submission = some (.error e) → r.wait = none ∧ r.countRead = false) ∧
      (r.submission = none → r.wait = none) := by
    intro r hr
    unfold handleContractMethod at hr
    rcases hv : validatePrivateKey key with _ | e
    · rcases ht : (createTransactor L B client s0 key).res with e | auth
      · simp only [hv, ht] at hr
        subst hr
        simp
      · rcases hc : contractCall B (createTransactor L B client s0 key).state auth method value
          with _ | ⟨(e | tx), s1⟩
        · simp only [hv, ht, hc] at hr
          subst hr
          simp
        · simp only [hv, ht, hc] at hr
          subst hr
          simp
        · rcases hw : (waitForTransaction B.WaitMined s1 tx).err with _ | e
          · simp only [hv, ht, hc, hw] at hr
            subst hr
            simp
            exact ⟨s1, rfl⟩
          · simp only [hv, ht, hc, hw] at hr
            subst hr
            simp
            exact ⟨s1, rfl⟩
    · simp only [hv] at hr
      subst hr
      simp
  have hd : ∀ r : ContractRun σ, r = handleContractDeployment L B client s0 key →
      (∀ w, r.wait = some w →
        ∃ tx s1, r.submission = some (.ok tx) ∧ w = waitForTransaction B.WaitMined s1 tx) ∧
      (∀ e, r.submission = some (.error e) → r.wait = none ∧ r.countRead = false) ∧
      (r.submission = none → r.wait = none) := by
    intro r hr
    unfold handleContractDeployment at hr
    rcases hv : validatePrivateKey key with _ | e
    · rcases ht : (createTransactor L B client s0 key).res with e | auth
      · simp only [hv, ht] at hr
        subst hr
        simp
      · rcases hc : B.DeployCounter (createTransactor L B client s0 key).state
            { auth with gasLimit := DEFAULT_DEPLOY_GAS_LIMIT } with ⟨(e | ⟨a, tx⟩), s1⟩
        · simp only [hv, ht, hc] at hr
          subst hr
          simp
        · rcases hw : (waitForTransaction B.WaitMined s1 tx).err with _ | e
          · simp only [hv, ht, hc, hw] at hr
            subst hr
            simp
            exact ⟨s1, rfl⟩
          · simp only [hv, ht, hc, hw] at hr
            subst hr
            simp
            exact ⟨s1, rfl⟩
    · simp only [hv] at hr
      subst hr
      simp
  obtain ⟨h1, h2, h3⟩ := hm _ rfl
  obtain ⟨h4, h5, h6⟩ := hd _ rfl
  exact ⟨h1, h2, h3, h4, h5, h6⟩

/-- C11, at a submission rejected for insufficient balance (no wait is started, for a method
call and for a deployment) and at an accepted one (the wait is started). -/
theorem handlers_wait_only_after_submission_witness :
    (handleContractMethod demoLib brokeBind demoNet demoPending keyOne mIncrement none).wait
      = none ∧
    (handleContractDeployment demoLib brokeBind demoNet demoPending keyOne).wait = none ∧
    ((handleContractMethod demoLib goodBind demoNet demoPending keyOne mIncrement none).wait).isSome
      = true :=
  ⟨((handlers_wait_only_after_submission demoLib brokeBind demoNet demoPending keyOne mIncrement
      none).2.1 ⟨"insufficient funds for gas * price + value"⟩ rfl).1,
   ((handlers_wait_only_after_submission demoLib brokeBind demoNet demoPending keyOne mIncrement
      none).2.2.2.2.1 ⟨"insufficient funds for gas * price + value"⟩ rfl).1,
   by decide⟩

/-- C12, at the amount 1.1 ETH: the `float64` nearest to 1.1 is converted to
1100000000000000128 wei, which is neither 1.1 × 10^18 nor the product of the `float64` value
and 10^18; at 0.01 ETH the conversion gives exactly 10^16 wei. -/
theorem SendTransaction_wei_at_one_point_one :
    (broadcasts (SendTransaction goLib demoNet demoPending keyOne addrAA onePointOne).calls).map
      (fun t => t.tx.amount) = [1100000000000000128] ∧
    |onePointOne.toRat - 11 / 10| ≤ 1 / 2 ^ 53 ∧
    (1100000000000000128 : ℚ) ≠ 11 / 10 * 10 ^ 18 ∧
    (1100000000000000128 : ℚ) ≠ onePointOne.toRat * 10 ^ 18 ∧
    ethToWeiGo centEth = 10 ^ 16 := by
  refine ⟨by decide, ?_, by norm_num, ?_, by decide⟩
  · rw [abs_le]
    constructor <;> norm_num [F64.toRat, onePointOne]
  · norm_num [F64.toRat, onePointOne]

/-- The `V` values at some chain ids and recovery id 0, evaluated: 27 for chain id 0, 37 for
chain id 1, which is protected and carries the chain id.  Network ids are not negative; for
the number −4 the formula gives the unprotected 27 as well. -/
theorem eip155V_negative_example :
    eip155V (-4) 0 = 27 ∧ isProtectedV (eip155V (-4) 0) = false ∧
    eip155V 0 0 = 27 ∧ eip155V 1 0 = 37 ∧ isProtectedV 37 = true ∧ deriveChainId 37 = 1 := by
  decide

/-- `SendTransaction` is its first part followed by the broadcast. -/
theorem SendTransaction_eq_prepare_submit {σ : Type} (L : Lib) (client : Client σ) (s0 : σ)
    (key toHex : GoString) (amt : F64) :
    SendTransaction L client s0 key toHex amt =
      match prepareTransaction L client s0 key toHex amt with
      | .error r => r
      | .ok (stx, a, s3) => submitPrepared client stx a s3 := by
  rcases hk : HexToECDSA key with e | d
  · simp [SendTransaction, prepareTransaction, hk]
  rcases hp : L.Public d with _ | pub
  · simp [SendTransaction, prepareTransaction, hk, hp]
  rcases hn : client.PendingNonceAt s0 (L.PubkeyToAddress pub) with ⟨(e | n), s1⟩
  · simp [SendTransaction, prepareTransaction, hk, hp, hn]
  rcases hg : client.SuggestGasPrice s1 with ⟨(e | g), s2⟩
  · simp [SendTransaction, prepareTransaction, hk, hp, hn, hg]
  rcases hc : client.NetworkID s2 with ⟨(e | c), s3⟩
  · simp [SendTransaction, prepareTransaction, hk, hp, hn, hg, hc]
  rcases hs : SignTx L ⟨n, L.HexToAddress toHex, L.ethToWei amt, 21000, g, []⟩ c d with e | stx
  · simp [SendTransaction, prepareTransaction, hk, hp, hn, hg, hc, hs]
  rcases hb : client.SendTransaction s3 stx with ⟨(_ | e), s4⟩
  · simp [SendTransaction, prepareTransaction, submitPrepared, hk, hp, hn, hg, hc, hs, hb]
  · simp [SendTransaction, prepareTransaction, submitPrepared, hk, hp, hn, hg, hc, hs, hb]

/-- On the counting network the first part of `SendTransaction` leaves the pending counts
unchanged and signs a transaction whose nonce is the pending count of the sender. -/
theorem prepareTransaction_counting (L : Lib) (accept : (Address → Nat) → SignedTx → Bool)
    (gasPrice chainID : Int) (s : Address → Nat) (key toHex : GoString) (amt : F64)
    (a : Address) (ha : senderOf L key = some a) (stx : SignedTx) (a1 : Address)
    (s1 : Address → Nat)
    (h : prepareTransaction L (countingClient L accept gasPrice chainID) s key toHex amt
      = .ok (stx, a1, s1)) :
    s1 = s ∧ a1 = a ∧ stx.tx.nonce = s a := by
  rcases hk : HexToECDSA key with e | d
  · simp [senderOf, hk] at ha
  rcases hp : L.Public d with _ | pub
  · simp [senderOf, hk, hp] at ha
  have haddr : L.PubkeyToAddress pub = a := by simpa [senderOf, hk, hp] using ha
  rcases hsig : L.Sign ⟨s a, L.HexToAddress toHex, L.ethToWei amt, 21000, gasPrice, []⟩
      chainID d with e | sig
  · simp [prepareTransaction, SignTx, countingClient, hk, hp, haddr, hsig] at h
  · simp only [prepareTransaction, SignTx, countingClient, hk, hp, haddr, hsig,
      Except.ok.injEq, Prod.mk.injEq] at h
    obtain ⟨h1, h2, h3⟩ := h
    subst h1
    exact ⟨h3.symm, h2.symm, rfl⟩

/-- The broadcast step uses the nonce of the transaction it is given. -/
theorem noncesUsed_submitPrepared {σ : Type} (client : Client σ) (stx : SignedTx) (a : Address)
    (s : σ) : noncesUsed (submitPrepared client stx a s) = [stx.tx.nonce] := by
  rcases hb : client.SendTransaction s stx with ⟨(_ | e), s4⟩ <;>
    simp [submitPrepared, hb, noncesUsed, broadcasts]

/-- C14 as stated fails: nothing keeps the second caller from reading the nonce before the
first caller has broadcast, and in that interleaving both transactions of the same identity are
broadcast with the same nonce 5. -/
theorem SendTransaction_interleaved_counterexample :
    (interleavedPair demoLib demoNet demoPending keyOne addrAA centEth addrAA centEth).map
      (fun p => (noncesUsed p.1, p.1.err, noncesUsed p.2, p.2.err))
      = some ([5], none, [5], none) := by
  decide

/-- C14, amended: `SendTransaction` and `createTransactor` take no lock.  On the counting
network, when two calls from one identity run one after the other and are accepted, the second
reads the nonce after the broadcast of the first and they use the nonces `n0` and `n0 + 1`; when
both callers read the nonce before either broadcasts, both transactions carry the same nonce
`n0`; and `createTransactor` leaves the pending counts unchanged, so that two transactors made
before either contract call carry the same nonce. -/
theorem SendTransaction_nonce_needs_sequential_calls (L : Lib)
    (accept : (Address → Nat) → SignedTx → Bool) (gasPrice chainID : Int) (hs : SignSound L)
    (key : GoString) (a : Address) (ha : senderOf L key = some a) (pending0 : Address → Nat)
    (to1 : GoString) (amt1 : F64) (to2 : GoString) (amt2 : F64) :
    ((sequentialPair L (countingClient L accept gasPrice chainID) pending0 key to1 amt1 to2
          amt2).1.err = none →
      (sequentialPair L (countingClient L accept gasPrice chainID) pending0 key to1 amt1 to2
          amt2).2.err = none →
      noncesUsed (sequentialPair L (countingClient L accept gasPrice chainID) pending0 key to1
          amt1 to2 amt2).1 = [pending0 a] ∧
      noncesUsed (sequentialPair L (countingClient L accept gasPrice chainID) pending0 key to1
          amt1 to2 amt2).2 = [pending0 a + 1]) ∧
    (∀ r1 r2, interleavedPair L (countingClient L accept gasPrice chainID) pending0 key to1 amt1
          to2 amt2 = some (r1, r2) →
      noncesUsed r1 = [pending0 a] ∧ noncesUsed r2 = [pending0 a]) ∧
    ((createTransactor L (countingBind L) (countingClient L accept gasPrice chainID) pending0
        key).state = pending0 ∧
      ∀ auth, (createTransactor L (countingBind L) (countingClient L accept gasPrice chainID)
        pending0 key).res = .ok auth → auth.nonce = toInt64 (pending0 a)) := by
  refine ⟨?_, ?_, ?_, ?_⟩
  · intro h1 h2
    simp only [sequentialPair] at h1 h2 ⊢
    obtain ⟨hn1, hst1⟩ := countingClient_step L accept gasPrice chainID hs pending0 key to1
      amt1 a ha h1
    obtain ⟨hn2, -⟩ := countingClient_step L accept gasPrice chainID hs _ key to2 amt2 a ha h2
    rw [hn1, hn2, hst1]
    exact ⟨rfl, rfl⟩
  · intro r1 r2 h
    unfold interleavedPair at h
    rcases hp1 : prepareTransaction L (countingClient L accept gasPrice chainID) pending0 key
        to1 amt1 with e | ⟨tx1, from1, s1⟩
    · simp [hp1] at h
    obtain ⟨hs1, -, hnonce1⟩ := prepareTransaction_counting L accept gasPrice chainID pending0
      key to1 amt1 a ha tx1 from1 s1 hp1
    subst hs1
    rcases hp2 : prepareTransaction L (countingClient L accept gasPrice chainID) s1 key
        to2 amt2 with e | ⟨tx2, from2, s2⟩
    · simp [hp1, hp2] at h
    obtain ⟨hs2, -, hnonce2⟩ := prepareTransaction_counting L accept gasPrice chainID s1
      key to2 amt2 a ha tx2 from2 s2 hp2
    simp only [hp1, hp2, Option.some.injEq, Prod.mk.injEq] at h
    obtain ⟨h1, h2⟩ := h
    subst h1 h2
    rw [noncesUsed_submitPrepared, noncesUsed_submitPrepared, hnonce1, hnonce2]
    exact ⟨rfl, rfl⟩
  · rcases hk : HexToECDSA key with e | d
    · simp [senderOf, hk] at ha
    rcases hp : L.Public d with _ | pub
    · simp [senderOf, hk, hp] at ha
    simp [createTransactor, countingClient, countingBind, hk, hp]
  · intro auth hauth
    rcases hk : HexToECDSA key with e | d
    · simp [senderOf, hk] at ha
    rcases hp : L.Public d with _ | pub
    · simp [senderOf, hk, hp] at ha
    have haddr : L.PubkeyToAddress pub = a := by simpa [senderOf, hk, hp] using ha
    simp only [createTransactor, countingClient, countingBind, hk, hp, Except.ok.injEq] at hauth
    rw [← hauth, haddr]

/-- C14 amended, at two transfers from the key whose account has pending count 5: run one
after the other they use the nonces 5 and 6. -/
theorem SendTransaction_nonce_needs_sequential_calls_witness :
    noncesUsed (sequentialPair demoLib demoNet demoPending keyOne addrAA centEth addrAA
        centEth).1 = [5] ∧
    noncesUsed (sequentialPair demoLib demoNet demoPending keyOne addrAA centEth addrAA
        centEth).2 = [6] :=
  (SendTransaction_nonce_needs_sequential_calls demoLib (fun _ _ => true) 1000000000 11155111
    demoLib_signSound keyOne 1 rfl demoPending addrAA centEth addrAA centEth).1
    (by decide) (by decide)

/-- A closing bracket has its opening bracket in the map, and only a closing bracket has an
entry. -/
theorem pair_pos_iff (c : Nat) : 0 < pair c ↔ IsPair (pair c) c := by
  unfold pair IsPair
  split_ifs with h1 h2 h3 <;> simp_all

/-- An opening bracket has no entry in the map. -/
theorem pair_of_isPair (o c : Nat) (h : IsPair o c) : pair o = 0 ∧ pair c = o := by
  unfold IsPair at h
  rcases h with ⟨rfl, rfl⟩ | ⟨rfl, rfl⟩ | ⟨rfl, rfl⟩ <;> simp [pair]

/-- Well-nested strings are closed under concatenation. -/
theorem WellNested.append {s t : List Nat} (hs : WellNested s) (ht : WellNested t) :
    WellNested (s ++ t) := by
  induction hs with
  | nil => simpa using ht
  | wrap o c s1 t1 hp _ _ _ ih2 =>
    have : (o :: s1 ++ c :: t1) ++ t = o :: s1 ++ c :: (t1 ++ t) := by simp
    rw [this]
    exact WellNested.wrap o c s1 (t1 ++ t) hp (by assumption) ih2

/-- A well-nested string has even length and consists of brackets. -/
theorem WellNested.even_and_brackets {s : List Nat} (hs : WellNested s) :
    s.length % 2 = 0 ∧ ∀ c ∈ s, IsBracket c := by
  induction hs with
  | nil => simp
  | wrap o c s1 t1 hp _ _ ih1 ih2 =>
    refine ⟨by simp; omega, ?_⟩
    intro x hx
    simp only [List.cons_append, List.mem_cons, List.mem_append] at hx
    unfold IsPair at hp
    unfold IsBracket
    rcases hx with rfl | hx | rfl | hx
    · omega
    · exact ih1.2 x hx
    · omega
    · exact ih2.2 x hx

/-- The loop runs through a well-nested string and comes back to the same stack. -/
theorem bracketLoop_wellNested {w : List Nat} (hw : WellNested w) :
    ∀ (rest stack : List Nat), bracketLoop (w ++ rest) stack = bracketLoop rest stack := by
  induction hw with
  | nil => intro rest stack; rfl
  | wrap o c s t hp _ _ ih1 ih2 =>
    intro rest stack
    obtain ⟨ho, hc⟩ := pair_of_isPair o c hp
    have hpos : 0 < pair c := by
      rw [hc]; unfold IsPair at hp; omega
    have e1 : (o :: s ++ c :: t) ++ rest = o :: (s ++ (c :: (t ++ rest))) := by simp
    rw [e1]
    show (if pair o > 0 then _ else bracketLoop (s ++ (c :: (t ++ rest))) (stack ++ [o])) = _
    rw [if_neg (by omega), ih1]
    show (if pair c > 0 then _ else _) = _
    rw [if_pos hpos, if_neg (by simp [hc]), List.dropLast_concat, ih2]

/-- More well-nested text in front of a string that closes a stack still closes it. -/
theorem ClosesStack.prepend {x : List Nat} (hx : WellNested x) :
    ∀ (st r : List Nat), ClosesStack st r → ClosesStack st (x ++ r)
  | [], r, h => WellNested.append hx h
  | o :: st, r, h => by
    obtain ⟨u, c, rest, hr, hu, hp, hrest⟩ := h
    refine ⟨x ++ u, c, rest, ?_, WellNested.append hx hu, hp, hrest⟩
    rw [hr]; simp

/-- When the loop answers true, the remaining input closes the stack. -/
theorem bracketLoop_closes : ∀ (s stack : List Nat), bracketLoop s stack = true →
    ClosesStack stack.reverse s
  | [], stack, h => by
    simp only [bracketLoop, decide_eq_true_eq, List.length_eq_zero] at h
    subst h
    exact WellNested.nil
  | c :: rest, stack, h => by
    unfold bracketLoop at h
    by_cases hpos : pair c > 0
    · rw [if_pos hpos] at h
      by_cases hbad : stack.length = 0 ∨ stack.getLast? ≠ some (pair c)
      · rw [if_pos hbad] at h
        exact absurd h (by simp)
      · rw [if_neg hbad] at h
        have hlast : stack.getLast? = some (pair c) := by
          by_contra hne
          exact hbad (Or.inr hne)
        have hst : stack = stack.dropLast ++ [pair c] := by
          rcases List.eq_nil_or_concat stack with h0 | ⟨init, last, h1⟩
          · rw [h0] at hlast; simp at hlast
          · rw [h1] at hlast ⊢
            have hl : last = pair c := by
              simpa [Option.or] using hlast
            simp [hl]
        have ih := bracketLoop_closes rest stack.dropLast h
        rw [hst, List.reverse_append]
        exact ⟨[], c, rest, rfl, WellNested.nil, (pair_pos_iff c).1 hpos, ih⟩
    · rw [if_neg hpos] at h
      have ih := bracketLoop_closes rest (stack ++ [c]) h
      rw [List.reverse_append] at ih
      obtain ⟨u, c1, rest1, hr, hu, hp, hrest⟩ := ih
      have hx : WellNested (c :: u ++ c1 :: []) := WellNested.wrap c c1 u [] hp hu WellNested.nil
      have := ClosesStack.prepend hx stack.reverse rest1 hrest
      have e : c :: rest = (c :: u ++ c1 :: []) ++ rest1 := by rw [hr]; simp
      rw [e]
      exact this

/-- C15: `IsValidBracket(s)` is true exactly when `s` consists only of the bytes `( ) [ ] { }`
and is well nested; the empty string is valid and a string with any other byte is invalid. -/
theorem IsValidBracket_iff_wellNested (s : GoString) :
    (IsValidBracket s = true ↔ (∀ c ∈ s, IsBracket c) ∧ WellNested s) ∧
    IsValidBracket [] = true ∧
    ((∃ c ∈ s, ¬ IsBracket c) → IsValidBracket s = false) := by
  have main : IsValidBracket s = true ↔ (∀ c ∈ s, IsBracket c) ∧ WellNested s := by
    constructor
    · intro h
      unfold IsValidBracket at h
      split_ifs at h with hodd
      have hw : WellNested s := by
        have := bracketLoop_closes s [] h
        simpa [ClosesStack] using this
      exact ⟨hw.even_and_brackets.2, hw⟩
    · rintro ⟨-, hw⟩
      unfold IsValidBracket
      rw [if_neg (by have := hw.even_and_brackets.1; omega)]
      have := bracketLoop_wellNested hw [] []
      rw [List.append_nil] at this
      rw [this]
      rfl
  refine ⟨main, by decide, ?_⟩
  rintro ⟨c, hc, hnb⟩
  by_contra hne
  have ht : IsValidBracket s = true := by
    cases hv : IsValidBracket s
    · exact absurd hv hne
    · rfl
  exact hnb ((main.1 ht).1 c hc)

/-- C15, at the string `()[]{}`: it is valid, hence well nested; and `(]` is not valid. -/
theorem IsValidBracket_iff_wellNested_witness :
    IsValidBracket [40, 41, 91, 93, 123, 125] = true ∧
    WellNested [40, 41, 91, 93, 123, 125] ∧ IsValidBracket [40, 93] = false :=
  ⟨by decide, ((IsValidBracket_iff_wellNested [40, 41, 91, 93, 123, 125]).1.1 (by decide)).2,
    by decide⟩

/-- In 64-bit arithmetic, `a + b` is `target` exactly when `a` is `target - b`. -/
theorem wrap64_add_eq_iff (a b target : Int) (ha : InInt64 a) (ht : InInt64 target) :
    wrap64 (a + b) = target ↔ a = wrap64 (target - b) := by
  unfold InInt64 at ha ht
  unfold wrap64
  omega

/-- The loop of `TwoSum`, started after the elements `seen` with their map: a non-empty result
is a pair of indices `j < i` whose elements satisfy `nums[j] = target - nums[i]`, and an empty
result means that no element from the current one on has such a partner before it. -/
theorem twoSumLoop_spec (target : Int) : ∀ (rest seen : List Int) (hastable : List (Int × Nat)),
    TableOf seen hastable →
    (twoSumLoop target rest seen.length hastable = [] ∨
      ∃ j i a b, twoSumLoop target rest seen.length hastable = [j, i] ∧ j < i ∧
        (seen ++ rest)[j]? = some a ∧ (seen ++ rest)[i]? = some b ∧
        a = wrap64 (target - b)) ∧
    (twoSumLoop target rest seen.length hastable = [] →
      ∀ j i a b, j < i → seen.length ≤ i → (seen ++ rest)[j]? = some a →
        (seen ++ rest)[i]? = some b → a ≠ wrap64 (target - b))
  | [], seen, hastable, _ => by
    refine ⟨Or.inl rfl, ?_⟩
    intro _ j i a b _ hi _ hb
    rw [List.append_nil] at hb
    have := (List.getElem?_eq_some.1 hb).1
    omega
  | num :: rest, seen, hastable, hT => by
    unfold TableOf at hT
    rcases hl : hastable.lookup (wrap64 (target - num)) with _ | j
    · have hT1 : TableOf (seen ++ [num]) ((num, seen.length) :: hastable) := by
        constructor
        · intro k v hkv
          rw [List.lookup_cons] at hkv
          by_cases hk : k = num
          · subst hk
            simp only [beq_self_eq_true, Option.some.injEq] at hkv
            subst hkv
            simp
          · have : (k == num) = false := by simpa using hk
            rw [this] at hkv
            have h1 := hT.1 k v hkv
            have hv := (List.getElem?_eq_some.1 h1).1
            rw [List.getElem?_append_left hv]
            exact h1
        · intro v k hvk
          rw [List.lookup_cons]
          by_cases hk : k = num
          · subst hk
            simp
          · have : (k == num) = false := by simpa using hk
            rw [this]
            have hv : v < seen.length := by
              have h1 := (List.getElem?_eq_some.1 hvk).1
              simp only [List.length_append, List.length_singleton] at h1
              rcases Nat.lt_or_ge v seen.length with h2 | h2
              · exact h2
              · have h3 : v = seen.length := by omega
                subst h3
                simp at hvk
                exact absurd hvk.symm hk
            rw [List.getElem?_append_left hv] at hvk
            exact hT.2 v k hvk
      have ih := twoSumLoop_spec target rest (seen ++ [num]) ((num, seen.length) :: hastable) hT1
      have heq : twoSumLoop target (num :: rest) seen.length hastable =
          twoSumLoop target rest (seen ++ [num]).length ((num, seen.length) :: hastable) := by
        simp [twoSumLoop, hl]
      have happ : seen ++ [num] ++ rest = seen ++ num :: rest := by simp
      rw [heq]
      rw [happ] at ih
      refine ⟨ih.1, ?_⟩
      intro hnil j i a b hji hi ha hb
      rcases Nat.lt_or_ge seen.length i with h2 | h2
      · exact ih.2 hnil j i a b hji (by simp; omega) ha hb
      · have h3 : i = seen.length := by omega
        subst h3
        have hbnum : b = num := by
          rw [List.getElem?_append_right (Nat.le_refl _)] at hb
          simp at hb
          exact hb.symm
        subst hbnum
        rw [List.getElem?_append_left hji] at ha
        intro hab
        have := hT.2 j a ha
        rw [hab, hl] at this
        simp at this
    · have hj := hT.1 _ _ hl
      have hjlt := (List.getElem?_eq_some.1 hj).1
      have heq : twoSumLoop target (num :: rest) seen.length hastable = [j, seen.length] := by
        simp [twoSumLoop, hl]
      rw [heq]
      have hnum : (seen ++ num :: rest)[seen.length]? = some num := by
        rw [List.getElem?_append_right (Nat.le_refl _)]
        simp
      refine ⟨Or.inr ⟨j, seen.length, _, num, rfl, hjlt, ?_, hnum, rfl⟩, by simp⟩
      rw [List.getElem?_append_left hjlt]
      exact hj

/-- C18: a non-empty result of `TwoSum` is a pair `[j, i]` of valid indices with `j < i` whose
elements add up to `target` in the arithmetic of the type `int`; when their sum fits the type
it is `target` itself. -/
theorem TwoSum_result_is_pair (nums : List Int) (target : Int)
    (hnums : ∀ x ∈ nums, InInt64 x) (htarget : InInt64 target)
    (hres : TwoSum nums target ≠ []) :
    ∃ j i a b, TwoSum nums target = [j, i] ∧ j < i ∧ i < nums.length ∧
      nums[j]? = some a ∧ nums[i]? = some b ∧ wrap64 (a + b) = target ∧
      (InInt64 (a + b) → a + b = target) := by
  have h := (twoSumLoop_spec target nums [] [] (by unfold TableOf; simp)).1
  simp only [List.length_nil, List.nil_append] at h
  rcases h with h | ⟨j, i, a, b, hr, hji, ha, hb, hab⟩
  · exact absurd h hres
  · have hain : InInt64 a := hnums a (List.getElem?_mem ha)
    have hsum : wrap64 (a + b) = target := (wrap64_add_eq_iff a b target hain htarget).2 hab
    refine ⟨j, i, a, b, hr, hji, (List.getElem?_eq_some.1 hb).1, ha, hb, hsum, ?_⟩
    intro hfit
    unfold InInt64 at hfit
    unfold wrap64 at hsum
    omega

/-- C18, at `nums = [2, 7, 11, 15]` and `target = 13`: the result is `[0, 2]`. -/
theorem TwoSum_result_is_pair_witness :
    TwoSum [2, 7, 11, 15] 13 = [0, 2] ∧
    ∃ j i a b, TwoSum [2, 7, 11, 15] 13 = [j, i] ∧ j < i ∧ i < 4 ∧
      [2, 7, 11, 15][j]? = some a ∧ [2, 7, 11, 15][i]? = some b ∧ wrap64 (a + b) = 13 ∧
      (InInt64 (a + b) → a + b = 13) :=
  ⟨by decide, TwoSum_result_is_pair [2, 7, 11, 15] 13
    (by intro x hx; simp at hx; unfold InInt64; omega) (by unfold InInt64; omega) (by decide)⟩

/-- C19: `TwoSum` returns a pair of indices whenever two distinct positions hold elements whose
sum is `target`, and it returns the empty list exactly when no two distinct positions hold
elements that add up to `target` in the arithmetic of the type `int`; its result is empty or a
pair. -/
theorem TwoSum_empty_iff_no_pair (nums : List Int) (target : Int)
    (hnums : ∀ x ∈ nums, InInt64 x) (htarget : InInt64 target) :
    ((∃ (i j : Nat) (a b : Int), i ≠ j ∧ nums[i]? = some a ∧ nums[j]? = some b ∧ a + b = target) →
      ∃ j i, TwoSum nums target = [j, i]) ∧
    (TwoSum nums target = [] ↔
      ¬ ∃ (i j : Nat) (a b : Int), i ≠ j ∧ nums[i]? = some a ∧ nums[j]? = some b ∧ wrap64 (a + b) = target) ∧
    (TwoSum nums target = [] ∨ (TwoSum nums target).length = 2) := by
  have hspec := twoSumLoop_spec target nums [] [] (by unfold TableOf; simp)
  simp only [List.length_nil, List.nil_append] at hspec
  obtain ⟨hS, hC⟩ := hspec
  have hiff : TwoSum nums target = [] ↔
      ¬ ∃ (i j : Nat) (a b : Int), i ≠ j ∧ nums[i]? = some a ∧ nums[j]? = some b ∧ wrap64 (a + b) = target := by
    constructor
    · rintro hnil ⟨i, j, a, b, hij, ha, hb, hsum⟩
      have hain : InInt64 a := hnums a (List.getElem?_mem ha)
      have hbin : InInt64 b := hnums b (List.getElem?_mem hb)
      rcases Nat.lt_or_ge i j with hlt | hge
      · exact hC hnil i j a b hlt (Nat.zero_le _) ha hb
          ((wrap64_add_eq_iff a b target hain htarget).1 hsum)
      · have hlt : j < i := by omega
        have hsum2 : wrap64 (b + a) = target := by rw [Int.add_comm]; exact hsum
        exact hC hnil j i b a hlt (Nat.zero_le _) hb ha
          ((wrap64_add_eq_iff b a target hbin htarget).1 hsum2)
    · intro hno
      rcases hS with h | ⟨j, i, a, b, -, hji, ha, hb, hab⟩
      · exact h
      · exfalso
        have hain : InInt64 a := hnums a (List.getElem?_mem ha)
        exact hno ⟨j, i, a, b, by omega, ha, hb,
          (wrap64_add_eq_iff a b target hain htarget).2 hab⟩
  refine ⟨?_, hiff, ?_⟩
  · rintro ⟨i, j, a, b, hij, ha, hb, hsum⟩
    have hw : wrap64 (a + b) = target := by
      unfold InInt64 at htarget
      unfold wrap64
      omega
    rcases hS with h | ⟨j1, i1, -, -, hr, -⟩
    · exact absurd ⟨i, j, a, b, hij, ha, hb, hw⟩ (hiff.1 h)
    · exact ⟨j1, i1, hr⟩
  · rcases hS with h | ⟨j1, i1, -, -, hr, -⟩
    · exact Or.inl h
    · right
      show (twoSumLoop target nums 0 []).length = 2
      rw [hr]
      rfl

/-- C19, at `nums = [2, 7, 11, 15]`: the positions 0 and 2 add up to 13 and a pair is returned;
no two positions add up to 100 and the result is empty. -/
theorem TwoSum_empty_iff_no_pair_witness :
    (∃ j i, TwoSum [2, 7, 11, 15] 13 = [j, i]) ∧
    ¬ ∃ (i j : Nat) (a b : Int), i ≠ j ∧ ([2, 7, 11, 15] : List Int)[i]? = some a ∧ ([2, 7, 11, 15] : List Int)[j]? = some b ∧
      wrap64 (a + b) = 100 :=
  ⟨(TwoSum_empty_iff_no_pair [2, 7, 11, 15] 13
      (by intro x hx; simp at hx; unfold InInt64; omega) (by unfold InInt64; omega)).1
      ⟨0, 2, 2, 11, by decide, rfl, rfl, rfl⟩,
   (TwoSum_empty_iff_no_pair [2, 7, 11, 15] 100
      (by intro x hx; simp at hx; unfold InInt64; omega) (by unfold InInt64; omega)).2.1.1
      (by decide)⟩

/-- A list of even length `2 * h` is a palindrome exactly when its second half is the reverse
of its first half. -/
theorem reverse_eq_iff_even (L : List Nat) (h : Nat) (hl : L.length = 2 * h) :
    L.reverse = L ↔ L.drop h = (L.take h).reverse := by
  constructor
  · intro hrev
    have h1 : (L.reverse).take h = ((L.drop h).reverse) := by
      conv_lhs => rw [← List.take_append_drop h L, List.reverse_append]
      rw [List.take_left' (by simp [hl]; omega)]
    rw [hrev] at h1
    rw [h1, List.reverse_reverse]
  · intro hd
    conv_lhs => rw [← List.take_append_drop h L, hd]
    conv_rhs => rw [← List.take_append_drop h L, hd]
    simp

/-- A list of odd length `2 * h + 1` is a palindrome exactly when what follows its middle
element is the reverse of its first half. -/
theorem reverse_eq_iff_odd (L : List Nat) (h : Nat) (hl : L.length = 2 * h + 1) :
    L.reverse = L ↔ L.drop (h + 1) = (L.take h).reverse := by
  constructor
  · intro hrev
    have h1 : (L.reverse).take h = ((L.drop (h + 1)).reverse) := by
      conv_lhs => rw [← List.take_append_drop (h + 1) L, List.reverse_append]
      rw [List.take_left' (by simp [hl]; omega)]
    rw [hrev] at h1
    rw [h1, List.reverse_reverse]
  · intro hd
    have hh : h < L.length := by omega
    have hsplit : L = L.take h ++ (L[h] :: L.drop (h + 1)) := by
      conv_lhs => rw [← List.take_append_drop h L]
      rw [List.drop_eq_getElem_cons (by omega)]
    rw [hd] at hsplit
    have hex : ∃ (A : List Nat) (m : Nat), L = A ++ m :: A.reverse := ⟨_, _, hsplit⟩
    obtain ⟨A, m, rfl⟩ := hex
    simp

/-- One round of the loop on digit lists: the lowest digit moves from the number to the
reverted number. -/
theorem ofDigits_step (d : Nat) (D R : List Nat) (hd : d < 10) :
    Nat.ofDigits 10 (d :: D) / 10 = Nat.ofDigits 10 D ∧
    Nat.ofDigits 10 R * 10 + Nat.ofDigits 10 (d :: D) % 10 = Nat.ofDigits 10 (d :: R) := by
  simp only [Nat.ofDigits_cons]
  constructor <;> omega

/-- After `k` rounds, each entered because the number was above the reverted number, the loop
is at the number made of the digits from position `k` on and the reverted number made of the
first `k` digits in reverse order. -/
theorem palindromeLoop_rounds (L : List Nat) (hL : ∀ d ∈ L, d < 10) :
    ∀ k, k ≤ L.length →
      (∀ j, j < k → Nat.ofDigits 10 ((L.take j).reverse) < Nat.ofDigits 10 (L.drop j)) →
      palindromeLoop (Nat.ofDigits 10 L) 0 =
        palindromeLoop (Nat.ofDigits 10 (L.drop k)) (Nat.ofDigits 10 ((L.take k).reverse))
  | 0, _, _ => by simp
  | k + 1, hk, hgt => by
    have ih := palindromeLoop_rounds L hL k (by omega) (fun j hj => hgt j (by omega))
    have hlt := hgt k (by omega)
    have hkl : k < L.length := by omega
    have hdrop : L.drop k = L[k] :: L.drop (k + 1) :=
      List.drop_eq_getElem_cons (by omega)
    have htake : (L.take (k + 1)).reverse = L[k] :: (L.take k).reverse := by
      rw [List.take_succ, List.getElem?_eq_getElem (by omega)]
      simp
    have hd : L[k] < 10 := hL _ (List.getElem_mem _)
    obtain ⟨h1, h2⟩ := ofDigits_step L[k] (L.drop (k + 1)) ((L.take k).reverse) hd
    rw [ih, palindromeLoop, if_pos hlt, hdrop, h1, h2, ← htake]
/-- The digits of a number are below 10, whichever part of the list is taken. -/
theorem digits_parts_lt (n k : Nat) :
    (∀ d ∈ Nat.digits 10 n, d < 10) ∧ (∀ d ∈ (Nat.digits 10 n).drop k, d < 10) ∧
    (∀ d ∈ ((Nat.digits 10 n).take k).reverse, d < 10) := by
  have h : ∀ d ∈ Nat.digits 10 n, d < 10 := fun d hd => Nat.digits_lt_base (by norm_num) hd
  refine ⟨h, fun d hd => h d (List.mem_of_mem_drop hd), fun d hd => ?_⟩
  rw [List.mem_reverse] at hd
  exact h d (List.mem_of_mem_take hd)

/-- Bounds of the number left after `k` rounds: it has `len - k` digits. -/
theorem drop_bounds (n k : Nat) (hn : n ≠ 0) (hk : k < (Nat.digits 10 n).length) :
    10 ^ ((Nat.digits 10 n).length - k - 1) ≤ Nat.ofDigits 10 ((Nat.digits 10 n).drop k) ∧
    Nat.ofDigits 10 ((Nat.digits 10 n).drop k) < 10 ^ ((Nat.digits 10 n).length - k) := by
  constructor
  · rw [← Nat.self_div_pow_eq_ofDigits_drop k n (by norm_num)]
    have h1 := Nat.base_pow_length_digits_le 10 n (by norm_num) hn
    rw [Nat.le_div_iff_mul_le (Nat.pos_pow_of_pos k (by norm_num)), ← pow_add]
    have h2 : (Nat.digits 10 n).length - k - 1 + k = (Nat.digits 10 n).length - 1 := by omega
    rw [h2]
    have h3 : 10 ^ (Nat.digits 10 n).length = 10 * 10 ^ ((Nat.digits 10 n).length - 1) := by
      rw [← pow_succ']
      congr 1
      omega
    rw [h3] at h1
    omega
  · have := Nat.ofDigits_lt_base_pow_length (b := 10) (l := (Nat.digits 10 n).drop k)
      (by norm_num) (digits_parts_lt n k).2.1
    rwa [List.length_drop] at this

/-- Bounds of the reverted number after `k ≥ 1` rounds, when the last digit of the number is
not 0: it has `k` digits. -/
theorem take_reverse_bounds (n k : Nat) (hn0 : n % 10 ≠ 0) (hk1 : 1 ≤ k)
    (hk : k ≤ (Nat.digits 10 n).length) :
    10 ^ (k - 1) ≤ Nat.ofDigits 10 (((Nat.digits 10 n).take k).reverse) ∧
    Nat.ofDigits 10 (((Nat.digits 10 n).take k).reverse) < 10 ^ k := by
  constructor
  · have hn : n ≠ 0 := by rintro rfl; simp at hn0
    have hcons := Nat.digits_eq_cons_digits_div (b := 10) (by norm_num) hn
    obtain ⟨j, rfl⟩ : ∃ j, k = j + 1 := ⟨k - 1, by omega⟩
    rw [hcons] at hk ⊢
    rw [List.take_succ_cons, List.reverse_cons, Nat.ofDigits_append, Nat.ofDigits_singleton,
      List.length_reverse, List.length_take]
    simp only [List.length_cons] at hk
    have hmin : min j (Nat.digits 10 (n / 10)).length = j := by omega
    rw [hmin]
    have hpos : 1 ≤ n % 10 := by omega
    have : 10 ^ j * 1 ≤ 10 ^ j * (n % 10) := Nat.mul_le_mul_left _ hpos
    simp only [Nat.add_sub_cancel]
    omega
  · have := Nat.ofDigits_lt_base_pow_length (b := 10)
      (l := ((Nat.digits 10 n).take k).reverse) (by norm_num) (digits_parts_lt n k).2.2
    rw [List.length_reverse, List.length_take] at this
    have hmin : min k (Nat.digits 10 n).length = k := by omega
    rwa [hmin] at this
/-- Two digit lists of the same length that denote the same number are equal. -/
theorem ofDigits_inj_same_length : ∀ (L1 L2 : List Nat), L1.length = L2.length →
    (∀ d ∈ L1, d < 10) → (∀ d ∈ L2, d < 10) →
    Nat.ofDigits 10 L1 = Nat.ofDigits 10 L2 → L1 = L2
  | [], [], _, _, _, _ => rfl
  | [], _ :: _, hlen, _, _, _ => by simp at hlen
  | _ :: _, [], hlen, _, _, _ => by simp at hlen
  | a :: l1, b :: l2, hlen, h1, h2, heq => by
    rw [Nat.ofDigits_cons, Nat.ofDigits_cons] at heq
    have ha : a < 10 := h1 a (by simp)
    have hb : b < 10 := h2 b (by simp)
    have hab : a = b := by omega
    have hrest : Nat.ofDigits 10 l1 = Nat.ofDigits 10 l2 := by omega
    have := ofDigits_inj_same_length l1 l2 (by simpa using hlen)
      (fun d hd => h1 d (by simp [hd])) (fun d hd => h2 d (by simp [hd])) hrest
    rw [hab, this]

/-- Dropping the lowest digit of the reverted number after `k + 1` rounds gives the reverted
number after `k` rounds. -/
theorem take_reverse_div (L : List Nat) (hL : ∀ d ∈ L, d < 10) (k : Nat) (hk : k < L.length) :
    Nat.ofDigits 10 ((L.take (k + 1)).reverse) / 10 = Nat.ofDigits 10 ((L.take k).reverse) := by
  have htake : (L.take (k + 1)).reverse = L[k] :: (L.take k).reverse := by
    rw [List.take_succ, List.getElem?_eq_getElem hk]
    simp
  have hd : L[k] < 10 := hL _ (List.getElem_mem _)
  rw [htake, Nat.ofDigits_cons]
  omega

/-- While fewer than half of the digits have been moved, the number is above the reverted
number and the loop goes on. -/
theorem palindromeLoop_goes_on (n j : Nat) (hn0 : n % 10 ≠ 0)
    (hj : 2 * j < (Nat.digits 10 n).length) :
    Nat.ofDigits 10 (((Nat.digits 10 n).take j).reverse)
      < Nat.ofDigits 10 ((Nat.digits 10 n).drop j) := by
  have hn : n ≠ 0 := by rintro rfl; simp at hn0
  have hx := (drop_bounds n j hn (by omega)).1
  rcases Nat.eq_zero_or_pos j with rfl | hpos
  · simp only [List.take_zero, List.reverse_nil, Nat.ofDigits_nil]
    have : 0 < 10 ^ ((Nat.digits 10 n).length - 0 - 1) := Nat.pos_pow_of_pos _ (by norm_num)
    omega
  · have hr := (take_reverse_bounds n j hn0 hpos (by omega)).2
    have hpow : 10 ^ j ≤ 10 ^ ((Nat.digits 10 n).length - j - 1) :=
      Nat.pow_le_pow_right (by norm_num) (by omega)
    omega

/-- For a number whose last digit is not 0, the test at the exit of the loop holds exactly when
the digit sequence is a palindrome. -/
theorem palindromeLoop_decides (n : Nat) (hn0 : n % 10 ≠ 0) :
    ((palindromeLoop n 0).1 = (palindromeLoop n 0).2 ∨
      (palindromeLoop n 0).1 = (palindromeLoop n 0).2 / 10) ↔ DigitsPalindrome n := by
  have hn : n ≠ 0 := by rintro rfl; simp at hn0
  have hL := (digits_parts_lt n 0).1
  have hlen0 : (Nat.digits 10 n).length ≠ 0 := by
    intro h
    exact hn (Nat.digits_eq_nil_iff_eq_zero.1 (List.length_eq_zero.1 h))
  have hstart : palindromeLoop n 0 = palindromeLoop (Nat.ofDigits 10 (Nat.digits 10 n)) 0 := by
    rw [Nat.ofDigits_digits]
  unfold DigitsPalindrome
  rcases Nat.even_or_odd' (Nat.digits 10 n).length with ⟨h, hlen | hlen⟩
  · -- even length
    have hh : 1 ≤ h := by omega
    have hreach := palindromeLoop_rounds (Nat.digits 10 n) hL h (by omega)
      (fun j hj => palindromeLoop_goes_on n j hn0 (by omega))
    have hxb := drop_bounds n h hn (by omega)
    have hrb := take_reverse_bounds n h hn0 hh (by omega)
    have hpal := reverse_eq_iff_even (Nat.digits 10 n) h hlen
    have hinj : Nat.ofDigits 10 ((Nat.digits 10 n).drop h)
        = Nat.ofDigits 10 (((Nat.digits 10 n).take h).reverse) ↔
        (Nat.digits 10 n).drop h = ((Nat.digits 10 n).take h).reverse := by
      constructor
      · intro heq
        exact ofDigits_inj_same_length _ _
          (by rw [List.length_drop, List.length_reverse, List.length_take]; omega)
          (digits_parts_lt n h).2.1 (digits_parts_lt n h).2.2 heq
      · intro heq; rw [heq]
    have e1 : (Nat.digits 10 n).length - h - 1 = h - 1 := by omega
    rw [e1] at hxb
    by_cases hstop : Nat.ofDigits 10 (((Nat.digits 10 n).take h).reverse)
        < Nat.ofDigits 10 ((Nat.digits 10 n).drop h)
    · -- one more round, then the loop stops with a negative answer
      have hreach2 := palindromeLoop_rounds (Nat.digits 10 n) hL (h + 1) (by omega)
        (fun j hj => by
          rcases Nat.lt_or_ge j h with h1 | h1
          · exact palindromeLoop_goes_on n j hn0 (by omega)
          · have : j = h := by omega
            subst this
            exact hstop)
      have hxb2 : Nat.ofDigits 10 ((Nat.digits 10 n).drop (h + 1)) < 10 ^ (h - 1) := by
        have := Nat.ofDigits_lt_base_pow_length (b := 10)
          (l := (Nat.digits 10 n).drop (h + 1)) (by norm_num) (digits_parts_lt n (h + 1)).2.1
        rw [List.length_drop] at this
        have e2 : (Nat.digits 10 n).length - (h + 1) = h - 1 := by omega
        rwa [e2] at this
      have hrb2 := take_reverse_bounds n (h + 1) hn0 (by omega) (by omega)
      have hdiv := take_reverse_div (Nat.digits 10 n) hL h (by omega)
      have hpow : 10 ^ (h - 1) ≤ 10 ^ (h + 1 - 1) := Nat.pow_le_pow_right (by norm_num) (by omega)
      rw [hstart, hreach2, palindromeLoop, if_neg (by omega)]
      simp only
      rw [hdiv]
      constructor
      · intro hor
        exfalso
        omega
      · intro hrev
        have := hinj.2 (hpal.1 hrev)
        omega
    · -- the loop stops at the middle
      rw [hstart, hreach, palindromeLoop, if_neg (by omega)]
      simp only
      constructor
      · intro hor
        rcases hor with heq | heq
        · exact hpal.2 (hinj.1 heq)
        · exfalso
          have hdiv : Nat.ofDigits 10 (((Nat.digits 10 n).take h).reverse) / 10 < 10 ^ (h - 1) := by
            rw [Nat.div_lt_iff_lt_mul (by norm_num)]
            have : 10 ^ (h - 1) * 10 = 10 ^ h := by
              rw [← pow_succ]
              congr 1
              omega
            omega
          omega
      · intro hrev
        exact Or.inl (hinj.2 (hpal.1 hrev))
  · -- odd length
    have hreach := palindromeLoop_rounds (Nat.digits 10 n) hL (h + 1) (by omega)
      (fun j hj => palindromeLoop_goes_on n j hn0 (by omega))
    have hxb : Nat.ofDigits 10 ((Nat.digits 10 n).drop (h + 1)) < 10 ^ h := by
      have := Nat.ofDigits_lt_base_pow_length (b := 10)
        (l := (Nat.digits 10 n).drop (h + 1)) (by norm_num) (digits_parts_lt n (h + 1)).2.1
      rw [List.length_drop] at this
      have e2 : (Nat.digits 10 n).length - (h + 1) = h := by omega
      rwa [e2] at this
    have hrb := take_reverse_bounds n (h + 1) hn0 (by omega) (by omega)
    have hdiv := take_reverse_div (Nat.digits 10 n) hL h (by omega)
    have hpal := reverse_eq_iff_odd (Nat.digits 10 n) h hlen
    have hinj : Nat.ofDigits 10 ((Nat.digits 10 n).drop (h + 1))
        = Nat.ofDigits 10 (((Nat.digits 10 n).take h).reverse) ↔
        (Nat.digits 10 n).drop (h + 1) = ((Nat.digits 10 n).take h).reverse := by
      constructor
      · intro heq
        exact ofDigits_inj_same_length _ _
          (by rw [List.length_drop, List.length_reverse, List.length_take]; omega)
          (digits_parts_lt n (h + 1)).2.1 (digits_parts_lt n h).2.2 heq
      · intro heq; rw [heq]
    simp only [Nat.add_sub_cancel] at hrb
    rw [hstart, hreach, palindromeLoop, if_neg (by omega)]
    simp only
    rw [hdiv]
    constructor
    · intro hor
      rcases hor with heq | heq
      · exfalso; omega
      · exact hpal.2 (hinj.1 heq)
    · intro hrev
      exact Or.inr (hinj.2 (hpal.1 hrev))
/-- The values of the loop stay within the number the loop started from: with `x * 10 ^ k` and
the reverted number, of at most `k` digits, both at most `n`, the pair at the exit is at most
`n` in both components. -/
theorem palindromeLoop_le (n : Nat) : ∀ (x r k : Nat), x * 10 ^ k ≤ n → r < 10 ^ k → r ≤ n →
    (palindromeLoop x r).1 ≤ n ∧ (palindromeLoop x r).2 ≤ n := by
  intro x
  induction x using Nat.strong_induction_on with
  | _ x ih =>
    intro r k hx hr hrn
    have hk : 1 ≤ 10 ^ k := Nat.pos_pow_of_pos k (by norm_num)
    have hxn : x ≤ n := by
      have : x * 1 ≤ x * 10 ^ k := Nat.mul_le_mul_left x hk
      omega
    rw [palindromeLoop]
    split_ifs with hgt
    · have hlt : x / 10 < x := Nat.div_lt_self (by omega) (by decide)
      have h1 : x / 10 * 10 ^ (k + 1) ≤ n := by
        have : x / 10 * 10 ^ (k + 1) = (x / 10 * 10) * 10 ^ k := by rw [pow_succ]; ring
        rw [this]
        have h2 : x / 10 * 10 ≤ x := Nat.div_mul_le_self x 10
        exact le_trans (Nat.mul_le_mul_right _ h2) hx
      have h3 : r * 10 + x % 10 < 10 ^ (k + 1) := by
        rw [pow_succ]
        omega
      have h4 : r * 10 + x % 10 ≤ n := by
        rcases Nat.eq_zero_or_pos k with rfl | hkpos
        · simp only [pow_zero, Nat.lt_one_iff] at hr
          subst hr
          have : x % 10 ≤ x := Nat.mod_le x 10
          omega
        · have h10 : 10 ≤ 10 ^ k := by
            calc 10 = 10 ^ 1 := by norm_num
              _ ≤ 10 ^ k := Nat.pow_le_pow_right (by norm_num) hkpos
          have : x * 10 ≤ x * 10 ^ k := Nat.mul_le_mul_left x h10
          omega
      exact ih (x / 10) hlt (r * 10 + x % 10) (k + 1) h1 h3 h4
    · exact ⟨hxn, hrn⟩

/-- C20: `IsPalindrome(x)` is true exactly when `x ≥ 0` and the decimal digit sequence of `x`
equals its reverse; every negative number and every non-zero multiple of 10 is reported as not
a palindrome; the loop is a total function (each round replaces `x` by `x / 10 < x`) and its
values never exceed `x`, so that the arithmetic of the type `int` does not overflow. -/
theorem IsPalindrome_iff_digits (x : Int) :
    (IsPalindrome x = true ↔ 0 ≤ x ∧ DigitsPalindrome x.toNat) ∧
    (x < 0 → IsPalindrome x = false) ∧
    (x ≠ 0 → (10 : Int) ∣ x → IsPalindrome x = false) ∧
    ((palindromeLoop x.toNat 0).1 ≤ x.toNat ∧ (palindromeLoop x.toNat 0).2 ≤ x.toNat) := by
  have hneg : x < 0 → IsPalindrome x = false := by
    intro h
    unfold IsPalindrome
    rw [if_pos (Or.inl h)]
  have hten : x ≠ 0 → (10 : Int) ∣ x → IsPalindrome x = false := by
    intro h0 hdvd
    unfold IsPalindrome
    rw [if_pos (Or.inr ⟨by rw [Int.tmod_eq_zero_of_dvd hdvd], h0⟩)]
  refine ⟨?_, hneg, hten, palindromeLoop_le x.toNat x.toNat 0 0 (by simp) (by simp) (by simp)⟩
  rcases Int.lt_or_le x 0 with hx | hx
  · rw [hneg hx]
    constructor
    · intro h; exact absurd h (by simp)
    · rintro ⟨h, -⟩; omega
  · obtain ⟨n, rfl⟩ := Int.eq_ofNat_of_zero_le hx
    simp only [Int.toNat_ofNat, Int.ofNat_zero_le, true_and]
    have hmod : (n : Int).tmod 10 = ((n % 10 : Nat) : Int) := by
      rw [Int.tmod_eq_emod (by omega) (by norm_num)]
      rfl
    rcases Nat.eq_zero_or_pos n with rfl | hpos
    · constructor
      · intro _
        unfold DigitsPalindrome
        simp
      · intro _
        unfold IsPalindrome
        rw [if_neg (by simp), palindromeLoop]
        simp
    · by_cases hn0 : n % 10 = 0
      · have hfalse : IsPalindrome (n : Int) = false :=
          hten (by omega) (by omega)
        rw [hfalse]
        constructor
        · intro h; exact absurd h (by simp)
        · intro hpal
          exfalso
          unfold DigitsPalindrome at hpal
          have hne : n ≠ 0 := by omega
          have hcons := Nat.digits_eq_cons_digits_div (b := 10) (by norm_num) hne
          have hlast := Nat.getLast_digit_ne_zero 10 hne
          have h1 : (Nat.digits 10 n).getLast? = (Nat.digits 10 n).head? := by
            conv_lhs => rw [← hpal]
            exact List.getLast?_reverse _
          have hhead : (Nat.digits 10 n).head? = some 0 := by
            rw [hcons, hn0]
            rfl
          rw [List.getLast?_eq_getLast _ (Nat.digits_ne_nil_iff_ne_zero.2 hne), hhead] at h1
          exact hlast (Option.some.inj h1)
      · have hdec := palindromeLoop_decides n hn0
        rw [← hdec]
        unfold IsPalindrome
        rw [if_neg (by
          rintro (h | ⟨h, -⟩)
          · omega
          · rw [hmod] at h
            exact hn0 (by exact_mod_cast h))]
        simp only [Int.toNat_ofNat, Bool.or_eq_true, beq_iff_eq]

/-- C20, at 121 (a palindrome), at 10 and at -121 (not palindromes). -/
theorem IsPalindrome_iff_digits_witness :
    IsPalindrome 121 = true ∧ DigitsPalindrome 121 ∧ IsPalindrome 10 = false ∧
    IsPalindrome (-121) = false :=
  have h121 : IsPalindrome 121 = true := by
    unfold IsPalindrome
    rw [palindromeLoop, palindromeLoop, palindromeLoop]
    decide
  ⟨h121, ((IsPalindrome_iff_digits 121).1.1 h121).2,
    (IsPalindrome_iff_digits 10).2.2.1 (by decide) (by decide),
    (IsPalindrome_iff_digits (-121)).2.1 (by decide)⟩

/-- The exchange keeps the length and exchanges the two elements. -/
theorem swapAt_spec (a : List Interval) (i j : Nat) (hi : i < a.length) (hj : j < a.length) :
    (swapAt a i j).length = a.length ∧
    ∀ k, intervalAt (swapAt a i j) k =
      if k = j then intervalAt a i else if k = i then intervalAt a j else intervalAt a k := by
  refine ⟨by simp [swapAt], ?_⟩
  intro k
  unfold swapAt intervalAt
  simp only [List.getD_eq_getElem?_getD, List.getElem?_set, List.length_set]
  by_cases hkj : k = j
  · subst hkj
    simp [hj]
  · by_cases hki : k = i
    · subst hki
      have : ¬ j = k := fun h => hkj h.symm
      simp [hi, hkj, this]
    · have h1 : ¬ j = k := fun h => hkj h.symm
      have h2 : ¬ i = k := fun h => hki h.symm
      simp [hkj, hki, h1, h2]

/-- Membership in a slice, by index. -/
theorem mem_iff_intervalAt (a : List Interval) (x : Interval) :
    x ∈ a ↔ ∃ k, k < a.length ∧ intervalAt a k = x := by
  rw [List.mem_iff_getElem]
  constructor
  · rintro ⟨k, hk, rfl⟩
    exact ⟨k, hk, by simp [intervalAt, hk]⟩
  · rintro ⟨k, hk, rfl⟩
    exact ⟨k, hk, by simp [intervalAt, hk]⟩

/-- The exchange keeps the elements of the slice. -/
theorem mem_swapAt (a : List Interval) (i j : Nat) (hi : i < a.length) (hj : j < a.length)
    (x : Interval) : x ∈ swapAt a i j ↔ x ∈ a := by
  obtain ⟨hlen, hget⟩ := swapAt_spec a i j hi hj
  rw [mem_iff_intervalAt, mem_iff_intervalAt, hlen]
  constructor
  · rintro ⟨k, hk, rfl⟩
    rw [hget k]
    split_ifs
    · exact ⟨i, hi, rfl⟩
    · exact ⟨j, hj, rfl⟩
    · exact ⟨k, hk, rfl⟩
  · rintro ⟨k, hk, rfl⟩
    by_cases hki : k = i
    · subst hki
      refine ⟨j, hj, ?_⟩
      rw [hget j, if_pos rfl]
    · by_cases hkj : k = j
      · subst hkj
        refine ⟨i, hi, ?_⟩
        rw [hget i]
        by_cases h1 : i = k
        · rw [if_pos h1, h1]
        · rw [if_neg h1, if_pos rfl]
      · refine ⟨k, hk, ?_⟩
        rw [hget k, if_neg hkj, if_neg hki]

/-- One round of the inner sorting loop keeps the length, the elements and the sorted part, and
extends the part over which position `i` holds the least start. -/
theorem sortStep_spec (n i j : Nat) (a : List Interval) (hlen : a.length = n) (hij : i < j)
    (hj : j < n) (hpre : SortedBefore n i a) (hmin : MinUpTo i j a) :
    (sortStep i a j).length = n ∧ (∀ x, x ∈ sortStep i a j ↔ x ∈ a) ∧
    SortedBefore n i (sortStep i a j) ∧ MinUpTo i (j + 1) (sortStep i a j) := by
  unfold sortStep
  split_ifs with hgt
  · obtain ⟨hl, hget⟩ := swapAt_spec a i j (by omega) (by omega)
    refine ⟨by omega, mem_swapAt a i j (by omega) (by omega), ?_, ?_⟩
    · intro k l hk hkl hln
      rw [hget k, if_neg (by omega), if_neg (by omega), hget l]
      split_ifs
      · exact hpre k i hk (by omega) (by omega)
      · exact hpre k j hk (by omega) (by omega)
      · exact hpre k l hk hkl hln
    · intro l hil hlj
      rw [hget i, if_neg (by omega), if_pos rfl, hget l]
      split_ifs with h1 h2
      · omega
      · omega
      · have := hmin l hil (by omega)
        omega
  · refine ⟨hlen, fun _ => Iff.rfl, hpre, ?_⟩
    intro l hil hlj
    rcases Nat.lt_or_ge l j with h | h
    · exact hmin l hil h
    · have : l = j := by omega
      subst this
      omega

/-- The inner sorting loop from `j = s` on. -/
theorem sortInner_loop (n i : Nat) : ∀ (m s : Nat) (a : List Interval), s + m = n → i < s →
    a.length = n → SortedBefore n i a → MinUpTo i s a →
    ((List.range' s m).foldl (sortStep i) a).length = n ∧
    (∀ x, x ∈ (List.range' s m).foldl (sortStep i) a ↔ x ∈ a) ∧
    SortedBefore n i ((List.range' s m).foldl (sortStep i) a) ∧
    MinUpTo i n ((List.range' s m).foldl (sortStep i) a)
  | 0, s, a, hs, _, hlen, hpre, hmin => by
    have : s = n := by omega
    subst this
    exact ⟨hlen, fun _ => Iff.rfl, hpre, hmin⟩
  | m + 1, s, a, hs, his, hlen, hpre, hmin => by
    obtain ⟨h1, h2, h3, h4⟩ := sortStep_spec n i s a hlen his (by omega) hpre hmin
    obtain ⟨g1, g2, g3, g4⟩ := sortInner_loop n i m (s + 1) (sortStep i a s) (by omega) (by omega)
      h1 h3 h4
    rw [List.range'_succ, List.foldl_cons]
    exact ⟨g1, fun x => (g2 x).trans (h2 x), g3, g4⟩

/-- The inner sorting loop for the index `i` extends the sorted part by one position. -/
theorem sortInner_spec (n i : Nat) (a : List Interval) (hi : i + 1 ≤ n) (hlen : a.length = n)
    (hpre : SortedBefore n i a) :
    (sortInner n a i).length = n ∧ (∀ x, x ∈ sortInner n a i ↔ x ∈ a) ∧
    SortedBefore n (i + 1) (sortInner n a i) := by
  obtain ⟨g1, g2, g3, g4⟩ := sortInner_loop n i (n - (i + 1)) (i + 1) a (by omega) (by omega)
    hlen hpre (by intro l h1 h2; omega)
  refine ⟨g1, g2, ?_⟩
  intro k l hk hkl hln
  rcases Nat.lt_or_ge k i with h | h
  · exact g3 k l h hkl hln
  · have : k = i := by omega
    subst this
    exact g4 l hkl hln

/-- The outer sorting loop from `i = s` on. -/
theorem sortOuter_loop (n : Nat) : ∀ (m s : Nat) (a : List Interval), s + m = n - 1 →
    a.length = n → SortedBefore n s a →
    ((List.range' s m).foldl (sortInner n) a).length = n ∧
    (∀ x, x ∈ (List.range' s m).foldl (sortInner n) a ↔ x ∈ a) ∧
    SortedBefore n (n - 1) ((List.range' s m).foldl (sortInner n) a)
  | 0, s, a, hs, hlen, hpre => by
    have : s = n - 1 := by omega
    subst this
    exact ⟨hlen, fun _ => Iff.rfl, hpre⟩
  | m + 1, s, a, hs, hlen, hpre => by
    obtain ⟨h1, h2, h3⟩ := sortInner_spec n s a (by omega) hlen hpre
    obtain ⟨g1, g2, g3⟩ := sortOuter_loop n m (s + 1) (sortInner n a s) (by omega) h1 h3
    rw [List.range'_succ, List.foldl_cons]
    exact ⟨g1, fun x => (g2 x).trans (h2 x), g3⟩

/-- The sorting loops of `MergeIntervals` keep the elements and leave the slice sorted by
start. -/
theorem sortIntervals_spec (a : List Interval) :
    (sortIntervals a).length = a.length ∧ (∀ x, x ∈ sortIntervals a ↔ x ∈ a) ∧
    (sortIntervals a).Pairwise (fun p q => p.1 ≤ q.1) := by
  obtain ⟨g1, g2, g3⟩ := sortOuter_loop a.length (a.length - 1) 0 a (by omega) rfl
    (by intro k l hk; omega)
  refine ⟨g1, g2, ?_⟩
  rw [List.pairwise_iff_getElem]
  intro i j hi hj hij
  have := g3 i j (by unfold sortIntervals at hj; omega) hij (by unfold sortIntervals at hj; omega)
  unfold sortIntervals intervalAt at this
  simp only [List.getD_eq_getElem?_getD] at this
  unfold sortIntervals at hi hj
  rw [List.getElem?_eq_getElem hi, List.getElem?_eq_getElem hj] at this
  exact this
/-- The body of the merging loop on a non-empty `merged`, written with its last element. -/
theorem mergeStep_concat (init : List Interval) (last cur : Interval) :
    mergeStep (init ++ [last]) cur =
      if cur.1 ≤ last.2 then init ++ [(last.1, max cur.2 last.2)]
      else (init ++ [last]) ++ [cur] := by
  unfold mergeStep
  simp

/-- The merging loop keeps the merged intervals separated: each one ends strictly before every
later one starts. -/
theorem mergeLoop_separated : ∀ (rem init : List Interval) (last : Interval),
    (∀ iv ∈ rem, iv.1 ≤ iv.2) → (∀ iv ∈ init ++ [last], iv.1 ≤ iv.2) →
    (init ++ [last]).Pairwise (fun a b => a.2 < b.1) →
    (rem.foldl mergeStep (init ++ [last])).Pairwise (fun a b => a.2 < b.1) ∧
    (∀ iv ∈ rem.foldl mergeStep (init ++ [last]), iv.1 ≤ iv.2)
  | [], _, _, _, hv, hp => ⟨hp, hv⟩
  | cur :: rem, init, last, hrem, hv, hp => by
    rw [List.foldl_cons, mergeStep_concat]
    have hcur : cur.1 ≤ cur.2 := hrem cur (by simp)
    have hlast : last.1 ≤ last.2 := hv last (by simp)
    have hrem1 : ∀ iv ∈ rem, iv.1 ≤ iv.2 := fun iv h => hrem iv (by simp [h])
    rw [List.pairwise_append] at hp
    obtain ⟨hp1, -, hp3⟩ := hp
    split_ifs with hle
    · apply mergeLoop_separated rem init _ hrem1
      · intro iv hiv
        rw [List.mem_append, List.mem_singleton] at hiv
        rcases hiv with h | rfl
        · exact hv iv (by simp [h])
        · show last.1 ≤ max cur.2 last.2
          exact le_trans hlast (le_max_right _ _)
      · rw [List.pairwise_append]
        refine ⟨hp1, by simp, ?_⟩
        intro a ha b hb
        rw [List.mem_singleton] at hb
        subst hb
        exact hp3 a ha last (by simp)
    · apply mergeLoop_separated rem (init ++ [last]) cur hrem1
      · intro iv hiv
        rw [List.mem_append, List.mem_singleton] at hiv
        rcases hiv with h | rfl
        · exact hv iv h
        · exact hcur
      · rw [List.pairwise_append]
        refine ⟨?_, by simp, ?_⟩
        · rw [List.pairwise_append]
          exact ⟨hp1, by simp, hp3⟩
        · intro a ha b hb
          rw [List.mem_singleton] at hb
          subst hb
          rw [List.mem_append, List.mem_singleton] at ha
          rcases ha with h | rfl
          · have := hp3 a h last (by simp)
            omega
          · omega

/-- The merging loop over intervals sorted by start covers what was merged before and what is
still to come, at every rational point. -/
theorem mergeLoop_covers : ∀ (rem init : List Interval) (last : Interval),
    rem.Pairwise (fun p q => p.1 ≤ q.1) → (∀ iv ∈ rem, last.1 ≤ iv.1) →
    ∀ x : ℚ, Covered (rem.foldl mergeStep (init ++ [last])) x ↔
      (Covered (init ++ [last]) x ∨ Covered rem x)
  | [], init, last, _, _, x => by
    simp [Covered]
  | cur :: rem, init, last, hsorted, hlast, x => by
    rw [List.foldl_cons, mergeStep_concat]
    rw [List.pairwise_cons] at hsorted
    obtain ⟨hcur, hsorted1⟩ := hsorted
    have hlc : last.1 ≤ cur.1 := hlast cur (by simp)
    have hlcq : (last.1 : ℚ) ≤ (cur.1 : ℚ) := by exact_mod_cast hlc
    split_ifs with hle
    · have hleq : (cur.1 : ℚ) ≤ (last.2 : ℚ) := by exact_mod_cast hle
      have hnew : ∀ iv ∈ rem, ((last.1, max cur.2 last.2) : Interval).1 ≤ iv.1 :=
        fun iv h => hlast iv (by simp [h])
      rw [mergeLoop_covers rem init (last.1, max cur.2 last.2) hsorted1 hnew x]
      unfold Covered
      simp only [List.mem_append, List.mem_singleton, List.mem_cons, List.not_mem_nil,
        or_false]
      constructor
      · rintro (⟨iv, hiv | rfl, h1, h2⟩ | ⟨iv, hiv, h⟩)
        · exact Or.inl ⟨iv, Or.inl hiv, h1, h2⟩
        · simp only [Int.cast_max] at h1 h2
          rcases le_or_lt x (last.2 : ℚ) with h3 | h3
          · exact Or.inl ⟨last, Or.inr rfl, h1, h3⟩
          · refine Or.inr ⟨cur, Or.inl rfl, by linarith, ?_⟩
            rcases le_max_iff.1 h2 with h4 | h4
            · exact h4
            · linarith
        · exact Or.inr ⟨iv, Or.inr hiv, h⟩
      · rintro (⟨iv, hiv | rfl, h1, h2⟩ | ⟨iv, rfl | hiv, h1, h2⟩)
        · exact Or.inl ⟨iv, Or.inl hiv, h1, h2⟩
        · refine Or.inl ⟨_, Or.inr rfl, h1, ?_⟩
          simp only [Int.cast_max]
          exact le_trans h2 (le_max_right _ _)
        · refine Or.inl ⟨_, Or.inr rfl, by simp only; linarith, ?_⟩
          simp only [Int.cast_max]
          exact le_trans h2 (le_max_left _ _)
        · exact Or.inr ⟨iv, hiv, h1, h2⟩
    · rw [mergeLoop_covers rem (init ++ [last]) cur hsorted1 (fun iv h => hcur iv h) x]
      unfold Covered
      simp only [List.mem_append, List.mem_singleton, List.mem_cons, List.not_mem_nil,
        or_false]
      constructor
      · rintro (⟨iv, (hiv | rfl) | rfl, h⟩ | ⟨iv, hiv, h⟩)
        · exact Or.inl ⟨iv, Or.inl hiv, h⟩
        · exact Or.inl ⟨_, Or.inr rfl, h⟩
        · exact Or.inr ⟨_, Or.inl rfl, h⟩
        · exact Or.inr ⟨iv, Or.inr hiv, h⟩
      · rintro (⟨iv, hiv | rfl, h⟩ | ⟨iv, rfl | hiv, h⟩)
        · exact Or.inl ⟨iv, Or.inl (Or.inl hiv), h⟩
        · exact Or.inl ⟨_, Or.inl (Or.inr rfl), h⟩
        · exact Or.inl ⟨_, Or.inr rfl, h⟩
        · exact Or.inr ⟨iv, hiv, h⟩

/-- On a non-empty slice, `MergeIntervals` is the merging loop over the sorted slice, started
with its first interval. -/
theorem MergeIntervals_cons (intervals : List Interval) (hne : intervals.length ≠ 0) :
    ∃ (first : Interval) (rest : List Interval), sortIntervals intervals = first :: rest ∧
      MergeIntervals intervals = rest.foldl mergeStep ([] ++ [first]) := by
  have hlen := (sortIntervals_spec intervals).1
  rcases hs : sortIntervals intervals with _ | ⟨first, rest⟩
  · rw [hs] at hlen
    simp at hlen
    omega
  · refine ⟨first, rest, rfl, ?_⟩
    unfold MergeIntervals
    rw [if_neg hne]
    simp only [hs, intervalAt, List.drop_succ_cons, List.drop_zero, List.getD_cons_zero,
      List.nil_append]

/-- C16: for intervals with `start ≤ end`, the result of `MergeIntervals` is in strictly
ascending order without overlap: every interval of the result ends strictly before each later
one starts, in particular before the next one, every interval of the result has
`start ≤ end`, and the result for the empty list is empty. -/
theorem MergeIntervals_separated (intervals : List Interval)
    (hvalid : ∀ iv ∈ intervals, iv.1 ≤ iv.2) :
    (MergeIntervals intervals).Pairwise (fun a b => a.2 < b.1) ∧
    (MergeIntervals intervals).Chain' (fun a b => a.2 < b.1) ∧
    (MergeIntervals intervals).Pairwise (fun a b => a.1 < b.1) ∧
    (∀ iv ∈ MergeIntervals intervals, iv.1 ≤ iv.2) ∧
    MergeIntervals [] = [] := by
  have hmain : (MergeIntervals intervals).Pairwise (fun a b => a.2 < b.1) ∧
      (∀ iv ∈ MergeIntervals intervals, iv.1 ≤ iv.2) := by
    by_cases hne : intervals.length = 0
    · have : intervals = [] := List.length_eq_zero.1 hne
      subst this
      simp [MergeIntervals]
    · obtain ⟨first, rest, hs, hm⟩ := MergeIntervals_cons intervals hne
      have hmem := (sortIntervals_spec intervals).2.1
      rw [hm]
      apply mergeLoop_separated rest [] first
      · intro iv hiv
        exact hvalid iv ((hmem iv).1 (by rw [hs]; simp [hiv]))
      · intro iv hiv
        exact hvalid iv ((hmem iv).1 (by rw [hs]; simp at hiv; simp [hiv]))
      · simp
  obtain ⟨hp, hv⟩ := hmain
  refine ⟨hp, hp.chain', ?_, hv, by simp [MergeIntervals]⟩
  refine List.Pairwise.imp_of_mem ?_ hp
  intro a b ha _ hab
  have := hv a ha
  omega

/-- C16, at the example of `main.go`: the result `[1,6], [8,10], [15,18]` is separated. -/
theorem MergeIntervals_separated_witness :
    MergeIntervals [(1, 3), (2, 6), (8, 10), (15, 18)] = [(1, 6), (8, 10), (15, 18)] ∧
    (MergeIntervals [(1, 3), (2, 6), (8, 10), (15, 18)]).Chain' (fun a b => a.2 < b.1) :=
  ⟨by decide, (MergeIntervals_separated [(1, 3), (2, 6), (8, 10), (15, 18)]
    (by decide)).2.1⟩

/-- C17: the result of `MergeIntervals` covers exactly the input: a number, integer or not, lies
in some interval of the result exactly when it lies in some interval of the input (whether or
not the input intervals have `start ≤ end`). -/
theorem MergeIntervals_covers (intervals : List Interval) (x : ℚ) :
    Covered (MergeIntervals intervals) x ↔ Covered intervals x := by
  by_cases hne : intervals.length = 0
  · have : intervals = [] := List.length_eq_zero.1 hne
    subst this
    simp [MergeIntervals]
  · obtain ⟨first, rest, hs, hm⟩ := MergeIntervals_cons intervals hne
    obtain ⟨-, hmem, hsorted⟩ := sortIntervals_spec intervals
    rw [hs, List.pairwise_cons] at hsorted
    rw [hm, mergeLoop_covers rest [] first hsorted.2 (fun iv h => hsorted.1 iv h) x]
    unfold Covered
    constructor
    · rintro (⟨iv, hiv, h⟩ | ⟨iv, hiv, h⟩)
      · exact ⟨iv, (hmem iv).1 (by rw [hs]; simp at hiv; simp [hiv]), h⟩
      · exact ⟨iv, (hmem iv).1 (by rw [hs]; simp [hiv]), h⟩
    · rintro ⟨iv, hiv, h⟩
      have := (hmem iv).2 hiv
      rw [hs, List.mem_cons] at this
      rcases this with rfl | h1
      · exact Or.inl ⟨iv, by simp, h⟩
      · exact Or.inr ⟨iv, h1, h⟩

/-- C17, at the example of `main.go` and at neighbouring intervals: 5 and 11/2 lie in `[2,6]`
of the input and in `[1,6]` of the result, 7 lies in neither; `[1,4]` and `[5,6]` stay apart
and the point 9/2 between them is covered by neither the input nor the result. -/
theorem MergeIntervals_covers_witness :
    MergeIntervals [(1, 3), (2, 6), (8, 10), (15, 18)] = [(1, 6), (8, 10), (15, 18)] ∧
    Covered (MergeIntervals [(1, 3), (2, 6), (8, 10), (15, 18)]) 5 ∧
    Covered (MergeIntervals [(1, 3), (2, 6), (8, 10), (15, 18)]) (11 / 2) ∧
    ¬ Covered (MergeIntervals [(1, 3), (2, 6), (8, 10), (15, 18)]) 7 ∧
    MergeIntervals [(1, 4), (5, 6)] = [(1, 4), (5, 6)] ∧
    ¬ Covered (MergeIntervals [(1, 4), (5, 6)]) (9 / 2) :=
  ⟨by decide,
    (MergeIntervals_covers [(1, 3), (2, 6), (8, 10), (15, 18)] 5).2
      ⟨(2, 6), by decide, by norm_num, by norm_num⟩,
    (MergeIntervals_covers [(1, 3), (2, 6), (8, 10), (15, 18)] (11 / 2)).2
      ⟨(2, 6), by decide, by norm_num, by norm_num⟩,
    fun h => by
      have := (MergeIntervals_covers [(1, 3), (2, 6), (8, 10), (15, 18)] 7).1 h
      obtain ⟨iv, hiv, h1, h2⟩ := this
      simp only [List.mem_cons, List.mem_singleton, List.not_mem_nil, or_false] at hiv
      rcases hiv with rfl | rfl | rfl | rfl <;> norm_num at h1 h2,
    by decide,
    fun h => by
      have := (MergeIntervals_covers [(1, 4), (5, 6)] (9 / 2)).1 h
      obtain ⟨iv, hiv, h1, h2⟩ := this
      simp only [List.mem_cons, List.mem_singleton, List.not_mem_nil, or_false] at hiv
      rcases hiv with rfl | rfl <;> norm_num at h1 h2⟩

/-- Setting the positions of a tail to zero one after the other replaces the tail by zeros. -/
theorem zeroFill_append (b : List Int) : ∀ a : List Int,
    (List.range' a.length b.length).foldl (fun d j => d.set j 0) (a ++ b)
      = a ++ List.replicate b.length 0 := by
  induction b with
  | nil => intro a; simp
  | cons x b ih =>
    intro a
    have h := ih (a ++ [0])
    simp only [List.length_append, List.length_singleton, List.append_assoc,
      List.singleton_append] at h
    simp only [List.length_cons, List.range'_succ, List.foldl_cons, List.replicate_succ]
    rw [List.set_append_right _ _ (Nat.le_refl _)]
    simpa using h

/-- What the loop of `PlusOne` does, started at the end of `pre` with only nines after it. -/
theorem plusOneLoop_spec (pre : List Int) : ∀ suf : List Int, (∀ x ∈ suf, x = 9) →
    (plusOneLoop (pre ++ suf) (pre ++ suf).length pre.length = none ∧ ∀ x ∈ pre, x = 9) ∨
    ∃ p d q, pre ++ suf = p ++ d :: q ∧ d ∈ pre ∧ d ≠ 9 ∧ (∀ x ∈ q, x = 9) ∧
      plusOneLoop (pre ++ suf) (pre ++ suf).length pre.length
        = some (p ++ wrap64 (d + 1) :: List.replicate q.length 0) := by
  induction pre using List.reverseRecOn with
  | nil => intro suf _; left; simp [plusOneLoop]
  | append_singleton pre d ih =>
    intro suf hsuf
    have heq : pre ++ [d] ++ suf = pre ++ d :: suf := by simp
    have hopt : (pre ++ d :: suf)[pre.length]? = some d := by
      rw [List.getElem?_append_right (Nat.le_refl _)]; simp
    have hget : (pre ++ [d] ++ suf).getD pre.length 0 = d := by
      rw [List.getD_eq_getElem?_getD, heq, hopt]; rfl
    have hl : (pre ++ [d]).length = pre.length + 1 := by simp
    by_cases hd : d = 9
    · subst hd
      have hsuf' : ∀ x ∈ (9 : Int) :: suf, x = 9 := by
        intro x hx
        rcases List.mem_cons.1 hx with h | h
        · exact h
        · exact hsuf x h
      have hstep : plusOneLoop (pre ++ [9] ++ suf) (pre ++ [9] ++ suf).length
          (pre ++ [9]).length
          = plusOneLoop (pre ++ 9 :: suf) (pre ++ 9 :: suf).length pre.length := by
        rw [hl, plusOneLoop, hget, if_neg (by simp), heq]
      rcases ih (9 :: suf) hsuf' with ⟨hn, hall⟩ | ⟨p, e, q, h1, h2, h3, h4, h5⟩
      · left
        refine ⟨by rw [hstep]; exact hn, ?_⟩
        intro x hx
        rcases List.mem_append.1 hx with h | h
        · exact hall x h
        · exact List.mem_singleton.1 h
      · right
        exact ⟨p, e, q, by rw [heq]; exact h1, by simp [h2], h3, h4, by rw [hstep]; exact h5⟩
    · right
      refine ⟨pre, d, suf, by simp, by simp, hd, hsuf, ?_⟩
      rw [hl, plusOneLoop, hget, if_pos hd]
      have hset : (pre ++ [d] ++ suf).set pre.length (wrap64 (d + 1))
          = (pre ++ [wrap64 (d + 1)]) ++ suf := by
        simp [List.set_append_right]
      have hlen : (pre ++ [d] ++ suf).length - (pre.length + 1) = suf.length := by
        simp only [List.length_append, List.length_singleton]; omega
      rw [hset, hlen]
      have hz := zeroFill_append suf (pre ++ [wrap64 (d + 1)])
      simp only [List.length_append, List.length_singleton, List.append_assoc,
        List.singleton_append] at hz
      simpa using hz

/-- The value of a digit list read from an accumulator. -/
theorem digitsValue_foldl (l : List Int) : ∀ acc : Int,
    l.foldl (fun acc d => acc * 10 + d) acc = acc * 10 ^ l.length + digitsValue l := by
  induction l with
  | nil => intro acc; simp [digitsValue]
  | cons x l ih =>
    intro acc
    simp only [List.foldl_cons, digitsValue, List.length_cons]
    rw [ih, ih (0 * 10 + x)]
    ring

/-- The value of a digit list with a leading digit. -/
theorem digitsValue_cons (x : Int) (l : List Int) :
    digitsValue (x :: l) = x * 10 ^ l.length + digitsValue l := by
  have h := digitsValue_foldl l (0 * 10 + x)
  simp only [digitsValue, List.foldl_cons] at h ⊢
  rw [h]; ring

/-- The value of two digit lists put together. -/
theorem digitsValue_append (p q : List Int) :
    digitsValue (p ++ q) = digitsValue p * 10 ^ q.length + digitsValue q := by
  have h := digitsValue_foldl q (digitsValue p)
  simp only [digitsValue, List.foldl_append] at h ⊢
  exact h

/-- Zeros write the number zero. -/
theorem digitsValue_zeros (n : Nat) : digitsValue (List.replicate n 0) = 0 := by
  induction n with
  | zero => rfl
  | succ n ih => rw [List.replicate_succ, digitsValue_cons, ih]; simp

/-- Nines write a power of ten less one. -/
theorem digitsValue_nines (q : List Int) (h : ∀ x ∈ q, x = 9) :
    digitsValue q = 10 ^ q.length - 1 := by
  induction q with
  | nil => rfl
  | cons x q ih =>
    rw [digitsValue_cons, ih (fun y hy => h y (List.mem_cons_of_mem _ hy)),
      h x (List.mem_cons_self _ _), List.length_cons]
    ring

/-- C21: for every list of decimal digits (each between 0 and 9, most significant first)
`PlusOne` returns a list of decimal digits whose value is the value of the input plus one; the
result is one digit longer than the input exactly when every input digit is 9, and has the
length of the input otherwise. -/
theorem PlusOne_adds_one (digits : List Int) (h : IsDigits digits) :
    IsDigits (PlusOne digits) ∧
    digitsValue (PlusOne digits) = digitsValue digits + 1 ∧
    ((PlusOne digits).length = digits.length + 1 ↔ ∀ d ∈ digits, d = 9) ∧
    (¬ (∀ d ∈ digits, d = 9) → (PlusOne digits).length = digits.length) := by
  have hspec := plusOneLoop_spec digits [] (by simp)
  simp only [List.append_nil] at hspec
  rcases hspec with ⟨hn, hall⟩ | ⟨p, d, q, h1, h2, h3, h4, h5⟩
  · have hres : PlusOne digits = 1 :: List.replicate digits.length 0 := by
      simp [PlusOne, hn, List.replicate_succ]
    rw [hres]
    refine ⟨?_, ?_, ?_, ?_⟩
    · intro x hx
      rcases List.mem_cons.1 hx with hx | hx
      · rw [hx]; omega
      · rw [(List.mem_replicate.1 hx).2]; omega
    · rw [digitsValue_cons, digitsValue_zeros, digitsValue_nines digits hall]
      simp
    · exact ⟨fun _ => hall, fun _ => by simp⟩
    · intro hno; exact absurd hall hno
  · have hd := h d h2
    have hw : wrap64 (d + 1) = d + 1 := by unfold wrap64; omega
    have hres : PlusOne digits = p ++ (d + 1) :: List.replicate q.length 0 := by
      simp [PlusOne, h5, hw]
    have hlen : (PlusOne digits).length = digits.length := by
      rw [hres]; conv_rhs => rw [h1]
      simp
    have hnot : ¬ ∀ x ∈ digits, x = 9 := fun hall => h3 (hall d h2)
    refine ⟨?_, ?_, ?_, fun _ => hlen⟩
    · rw [hres]
      intro x hx
      rcases List.mem_append.1 hx with hx | hx
      · exact h x (by rw [h1]; exact List.mem_append_left _ hx)
      · rcases List.mem_cons.1 hx with hx | hx
        · rw [hx]; omega
        · rw [(List.mem_replicate.1 hx).2]; omega
    · rw [hres]; conv_rhs => rw [h1]
      rw [digitsValue_append, digitsValue_append, digitsValue_cons, digitsValue_cons,
        digitsValue_zeros, digitsValue_nines q h4]
      simp only [List.length_cons, List.length_replicate]
      ring
    · rw [hlen]
      constructor
      · intro hh; omega
      · intro hall; exact absurd hall hnot

/-- The digits 9, 9, 9 give 1, 0, 0, 0. -/
theorem PlusOne_adds_one_witness :
    IsDigits [9, 9, 9] ∧ PlusOne [9, 9, 9] = [1, 0, 0, 0] ∧
    (IsDigits (PlusOne [9, 9, 9]) ∧
      digitsValue (PlusOne [9, 9, 9]) = digitsValue [9, 9, 9] + 1 ∧
      ((PlusOne [9, 9, 9]).length = [9, 9, 9].length + 1 ↔ ∀ d ∈ [9, 9, 9], d = (9 : Int)) ∧
      (¬ (∀ d ∈ [9, 9, 9], d = (9 : Int)) → (PlusOne [9, 9, 9]).length = [9, 9, 9].length)) :=
  have hd : IsDigits [9, 9, 9] := by intro d hd; simp at hd; omega
  ⟨hd, by decide, PlusOne_adds_one [9, 9, 9] hd⟩

/-- The examples of the source file, the empty slice and a single nine. -/
theorem PlusOne_examples :
    PlusOne [1, 2, 3] = [1, 2, 4] ∧ PlusOne [1, 9, 9] = [2, 0, 0] ∧ PlusOne [] = [1] ∧
    PlusOne [0] = [1] ∧ PlusOne [9] = [1, 0] := by decide

/-- A bit pattern has 64 bits. -/
theorem bits64_lt (x : Int) : bits64 x < 2 ^ 64 := by
  unfold bits64; omega

/-- Reading a 64-bit pattern as a signed number and taking its pattern gives it back. -/
theorem bits64_toInt64 (n : Nat) (h : n < 2 ^ 64) : bits64 (toInt64 n) = n := by
  unfold bits64 toInt64
  split <;> omega

/-- A Go `int` is the signed reading of its pattern. -/
theorem toInt64_bits64 (x : Int) (h : InInt64 x) : toInt64 (bits64 x) = x := by
  unfold InInt64 at h
  unfold bits64 toInt64
  split <;> omega

/-- The pattern of an exclusive or is the exclusive or of the patterns. -/
theorem bits64_xorInt (a b : Int) : bits64 (xorInt a b) = bits64 a ^^^ bits64 b :=
  bits64_toInt64 _ (Nat.xor_lt_two_pow (bits64_lt a) (bits64_lt b))

/-- The exclusive or of Go is associative. -/
theorem xorInt_assoc (a b c : Int) : xorInt (xorInt a b) c = xorInt a (xorInt b c) := by
  unfold xorInt
  rw [bits64_toInt64 _ (Nat.xor_lt_two_pow (bits64_lt a) (bits64_lt b)),
    bits64_toInt64 _ (Nat.xor_lt_two_pow (bits64_lt b) (bits64_lt c)), Nat.xor_assoc]

/-- The exclusive or of Go is commutative. -/
theorem xorInt_comm (a b : Int) : xorInt a b = xorInt b a := by
  unfold xorInt; rw [Nat.xor_comm]

/-- A value cancels itself. -/
theorem xorInt_self (a : Int) : xorInt a a = 0 := by
  unfold xorInt; rw [Nat.xor_self]; decide

/-- Zero is neutral on the right. -/
theorem xorInt_zero (a : Int) (h : InInt64 a) : xorInt a 0 = a := by
  have h0 : bits64 0 = 0 := by decide
  unfold xorInt; rw [h0, Nat.xor_zero, toInt64_bits64 a h]

/-- Zero is neutral on the left. -/
theorem zero_xorInt (a : Int) (h : InInt64 a) : xorInt 0 a = a := by
  rw [xorInt_comm, xorInt_zero a h]

/-- The order of the elements does not matter to the loop of `SingleNumber`. -/
theorem foldl_xorInt_perm {l l' : List Int} (h : l.Perm l') (acc : Int) :
    l.foldl (fun singleNum v => xorInt singleNum v) acc
      = l'.foldl (fun singleNum v => xorInt singleNum v) acc := by
  induction h generalizing acc with
  | nil => rfl
  | cons x _ ih => simp only [List.foldl_cons]; exact ih _
  | swap x y l =>
    simp only [List.foldl_cons]
    rw [xorInt_assoc, xorInt_comm y x, ← xorInt_assoc]
  | trans _ _ ih1 ih2 => rw [ih1, ih2]

/-- Elements that all occur an even number of times leave the accumulator as it was. -/
theorem foldl_xorInt_even : ∀ (n : Nat) (l : List Int) (acc : Int), l.length = n →
    InInt64 acc → (∀ w, Even (l.count w)) →
    l.foldl (fun singleNum v => xorInt singleNum v) acc = acc := by
  intro n
  induction n using Nat.strong_induction_on with
  | _ n ih =>
    intro l acc hlen hacc heven
    cases l with
    | nil => rfl
    | cons a r =>
      have hodd : Odd (r.count a) := by
        have h := heven a
        rw [List.count_cons_self] at h
        rcases h with ⟨k, hk⟩
        exact ⟨k - 1, by omega⟩
      have hmem : a ∈ r := by
        rcases hodd with ⟨k, hk⟩
        exact List.count_pos_iff.1 (by omega)
      have hperm : (a :: r).Perm (a :: a :: r.erase a) :=
        List.Perm.cons a (List.perm_cons_erase hmem)
      rw [foldl_xorInt_perm hperm]
      simp only [List.foldl_cons]
      rw [xorInt_assoc, xorInt_self, xorInt_zero acc hacc]
      have hl : (r.erase a).length < n := by
        rw [List.length_erase_of_mem hmem]
        simp only [List.length_cons] at hlen
        omega
      refine ih _ hl (r.erase a) acc rfl hacc ?_
      intro w
      by_cases hw : w = a
      · subst hw
        rw [List.count_erase_self]
        rcases hodd with ⟨k, hk⟩
        exact ⟨k, by omega⟩
      · rw [List.count_erase_of_ne hw]
        have h := heven w
        rw [List.count_cons_of_ne hw] at h
        exact h

/-- C22: for every list of Go `int`s in which the value `v` occurs an odd number of times and
every other value an even number of times, `SingleNumber` returns `v`, whatever the order of
the elements. -/
theorem SingleNumber_odd_one_out (nums : List Int) (v : Int)
    (hrange : ∀ x ∈ nums, InInt64 x)
    (hv : Odd (nums.count v)) (hothers : ∀ w, w ≠ v → Even (nums.count w)) :
    ∀ l : List Int, l.Perm nums → SingleNumber l = v := by
  intro l hl
  have hmem : v ∈ nums := by
    rcases hv with ⟨k, hk⟩
    exact List.count_pos_iff.1 (by omega)
  have hperm : l.Perm (v :: nums.erase v) := hl.trans (List.perm_cons_erase hmem)
  unfold SingleNumber
  rw [foldl_xorInt_perm hperm, List.foldl_cons, zero_xorInt v (hrange v hmem)]
  refine foldl_xorInt_even _ (nums.erase v) v rfl (hrange v hmem) ?_
  intro w
  by_cases hw : w = v
  · subst hw
    rw [List.count_erase_self]
    rcases hv with ⟨k, hk⟩
    exact ⟨k, by omega⟩
  · rw [List.count_erase_of_ne hw]
    exact hothers w hw

/-- The list 4, 1, 2, 1, 2 and its reordering 1, 2, 4, 2, 1 give 4. -/
theorem SingleNumber_odd_one_out_witness :
    SingleNumber [4, 1, 2, 1, 2] = 4 ∧ SingleNumber [1, 2, 4, 2, 1] = 4 :=
  have hrange : ∀ x ∈ ([4, 1, 2, 1, 2] : List Int), InInt64 x := by
    intro x hx
    simp only [List.mem_cons, List.mem_singleton, List.not_mem_nil, or_false] at hx
    unfold InInt64
    omega
  have hv : Odd (([4, 1, 2, 1, 2] : List Int).count 4) := ⟨0, by decide⟩
  have hothers : ∀ w : Int, w ≠ 4 → Even (([4, 1, 2, 1, 2] : List Int).count w) := by
    intro w hw
    by_cases h1 : w = 1
    · subst h1; exact ⟨1, by decide⟩
    · by_cases h2 : w = 2
      · subst h2; exact ⟨1, by decide⟩
      · refine ⟨0, ?_⟩
        rw [List.count_eq_zero]
        simp only [List.mem_cons, List.mem_singleton, List.not_mem_nil, or_false]
        omega
  ⟨SingleNumber_odd_one_out [4, 1, 2, 1, 2] 4 hrange hv hothers _ (List.Perm.refl _),
    SingleNumber_odd_one_out [4, 1, 2, 1, 2] 4 hrange hv hothers [1, 2, 4, 2, 1]
      (by decide)⟩

/-- The example of the source file and lists with negative numbers, evaluated. -/
theorem SingleNumber_examples :
    SingleNumber [4, 1, 2, 1, 2] = 4 ∧ SingleNumber [-1, 7, -1] = 7 ∧
    SingleNumber [5, -3, 5] = -3 ∧ xorInt (-1) 1 = -2 ∧ SingleNumber [] = 0 := by decide

/-- C23: for every resource id and every user id, `postUseCase.Update`, `postUseCase.Delete`
and `commentUseCase.Delete` change the repository (leave another state, or call a writing
method of it) only if the post or comment exists and its `UserID` is the calling user's id;
when the resource is missing or belongs to another user they return an error, leave the
repository as it was and have called `GetByID` only; for the owner the outcome is that of the
writing method of the repository. -/
theorem useCases_change_only_for_owner {σ τ : Type} (postRepo : PostRepository σ)
    (commentRepo : CommentRepository τ) (s : σ) (t : τ) (id userID : Nat)
    (title content : GoString) :
    ((((postUseCase.Update postRepo s id userID title content).state ≠ s ∨
          ∃ c ∈ (postUseCase.Update postRepo s id userID title content).calls,
            c.isChange = true) →
        PostOwnedBy postRepo s id userID) ∧
      (¬ PostOwnedBy postRepo s id userID →
        (postUseCase.Update postRepo s id userID title content).err ≠ none ∧
        (postUseCase.Update postRepo s id userID title content).state = s ∧
        (postUseCase.Update postRepo s id userID title content).calls = [.getByID id]) ∧
      (∀ post, postRepo.GetByID s id = .ok post → post.UserID = userID →
        (postUseCase.Update postRepo s id userID title content).err
          = (postRepo.Update s { post with Title := title, Content := content }).1 ∧
        (postUseCase.Update postRepo s id userID title content).state
          = (postRepo.Update s { post with Title := title, Content := content }).2)) ∧
    ((((postUseCase.Delete postRepo s id userID).state ≠ s ∨
          ∃ c ∈ (postUseCase.Delete postRepo s id userID).calls, c.isChange = true) →
        PostOwnedBy postRepo s id userID) ∧
      (¬ PostOwnedBy postRepo s id userID →
        (postUseCase.Delete postRepo s id userID).err ≠ none ∧
        (postUseCase.Delete postRepo s id userID).state = s ∧
        (postUseCase.Delete postRepo s id userID).calls = [.getByID id]) ∧
      (PostOwnedBy postRepo s id userID →
        (postUseCase.Delete postRepo s id userID).err = (postRepo.Delete s id).1 ∧
        (postUseCase.Delete postRepo s id userID).state = (postRepo.Delete s id).2)) ∧
    ((((commentUseCase.Delete commentRepo t id userID).state ≠ t ∨
          ∃ c ∈ (commentUseCase.Delete commentRepo t id userID).calls, c.isChange = true) →
        CommentOwnedBy commentRepo t id userID) ∧
      (¬ CommentOwnedBy commentRepo t id userID →
        (commentUseCase.Delete commentRepo t id userID).err ≠ none ∧
        (commentUseCase.Delete commentRepo t id userID).state = t ∧
        (commentUseCase.Delete commentRepo t id userID).calls = [.getByID id]) ∧
      (CommentOwnedBy commentRepo t id userID →
        (commentUseCase.Delete commentRepo t id userID).err = (commentRepo.Delete t id).1 ∧
        (commentUseCase.Delete commentRepo t id userID).state
          = (commentRepo.Delete t id).2)) := by
  refine ⟨?_, ?_, ?_⟩
  · rcases hg : postRepo.GetByID s id with err | post
    · simp [postUseCase.Update, PostOwnedBy, hg, RepoCall.isChange]
    · by_cases hu : post.UserID = userID
      · simp [postUseCase.Update, PostOwnedBy, hg, hu]
      · simp [postUseCase.Update, PostOwnedBy, hg, hu, RepoCall.isChange]
  · rcases hg : postRepo.GetByID s id with err | post
    · simp [postUseCase.Delete, PostOwnedBy, hg, RepoCall.isChange]
    · by_cases hu : post.UserID = userID
      · simp [postUseCase.Delete, PostOwnedBy, hg, hu]
      · simp [postUseCase.Delete, PostOwnedBy, hg, hu, RepoCall.isChange]
  · rcases hg : commentRepo.GetByID t id with err | comment
    · simp [commentUseCase.Delete, CommentOwnedBy, hg, RepoCall.isChange]
    · by_cases hu : comment.UserID = userID
      · simp [commentUseCase.Delete, CommentOwnedBy, hg, hu]
      · simp [commentUseCase.Delete, CommentOwnedBy, hg, hu, RepoCall.isChange]

/-- On the in-memory blog user 8 is not the author of post 1: `Update` returns an error, leaves
the tables as they were and has called `GetByID` only. -/
theorem useCases_change_only_for_owner_witness :
    ¬ PostOwnedBy memPosts demoBlog 1 8 ∧
    (postUseCase.Update memPosts demoBlog 1 8 [110] [99]).err ≠ none ∧
    (postUseCase.Update memPosts demoBlog 1 8 [110] [99]).state = demoBlog ∧
    (postUseCase.Update memPosts demoBlog 1 8 [110] [99]).calls = [.getByID 1] :=
  have hno : ¬ PostOwnedBy memPosts demoBlog 1 8 := by
    rintro ⟨post, hget, huser⟩
    have h1 : memPosts.GetByID demoBlog 1 = .ok ⟨1, [104, 105], [116, 101, 120, 116], 7⟩ := rfl
    rw [h1] at hget
    injection hget with hp
    rw [← hp] at huser
    exact absurd huser (by decide)
  ⟨hno, (useCases_change_only_for_owner memPosts memComments demoBlog demoBlog 1 8
    [110] [99]).1.2.1 hno⟩

/-- The three use cases on the in-memory blog: the owner changes the tables, another user and
a missing id get an error and leave the tables as they were. -/
theorem useCases_examples :
    (postUseCase.Update memPosts demoBlog 1 7 [110] [99]).err = none ∧
    (postUseCase.Update memPosts demoBlog 1 7 [110] [99]).state
      = ⟨[⟨1, [110], [99], 7⟩], [⟨5, [111, 107], 8, 1⟩]⟩ ∧
    (postUseCase.Update memPosts demoBlog 1 8 [110] [99]).err
      = some ⟨"没有权限修改此文章"⟩ ∧
    (postUseCase.Update memPosts demoBlog 1 8 [110] [99]).state = demoBlog ∧
    (postUseCase.Update memPosts demoBlog 2 7 [110] [99]).err = some ⟨"文章不存在"⟩ ∧
    (postUseCase.Update memPosts demoBlog 2 7 [110] [99]).state = demoBlog ∧
    (postUseCase.Delete memPosts demoBlog 1 7).state = ⟨[], []⟩ ∧
    (postUseCase.Delete memPosts demoBlog 1 8).err = some ⟨"没有权限删除此文章"⟩ ∧
    (postUseCase.Delete memPosts demoBlog 1 8).state = demoBlog ∧
    (commentUseCase.Delete memComments demoBlog 5 8).state
      = ⟨[⟨1, [104, 105], [116, 101, 120, 116], 7⟩], []⟩ ∧
    (commentUseCase.Delete memComments demoBlog 5 7).err = some ⟨"没有权限删除此评论"⟩ ∧
    (commentUseCase.Delete memComments demoBlog 5 7).state = demoBlog ∧
    (commentUseCase.Delete memComments demoBlog 6 8).err = some ⟨"评论不存在"⟩ ∧
    (commentUseCase.Delete memComments demoBlog 6 8).state = demoBlog := by
  decide

end MetaNode
